import Mathlib

/-!
# HybridNonLinearSolver (Powell hybrid method): a shallow embedding

Source: `unsupported/Eigen/src/NonLinear/HybridNonLinearSolver.h`.

Modelling conventions.

* `Scalar` is the field `ℚ` (exact arithmetic); vectors are `List ℚ`, the dense matrix `fjac` is a
  flat list in column-major order, `fjac(i,j)` being entry `i + j * n`.
* The `int` variables are `Int` (`n = x.size()` is a `Nat`); the counters of the driver grow by
  at most one in a pass through the inner loop, and `nfev <= max(maxfev, 2)` is proved below.
* The user functor is state passing: a call receives the user state, the point `x` and the output
  buffer, and returns the new user state, the flag and the new buffer.
* The linear-algebra primitives (`ei_qrfac`, `ei_qform`, `ei_dogleg`, `ei_r1updt`, `ei_r1mpyq`,
  `ei_fdjac1`, `stableNorm`, `epsilon`) are not part of the file; they are parameters.
* The two `while (true)` loops are unrolled by a fuel counter that bounds the number of inner-loop
  iterations; the theorems show which fuel is always enough.
* The loop temporaries `i`, `j`, `l`, `sum`, `temp`, `iwa` are local to the loops that use them.
-/

namespace HybridNonLinearSolver

/-- The `Status` enumeration (lines 9-18), with the spelling of the source. -/
inductive Status
  | Running
  | ImproperInputParameters
  | RelativeErrorTooSmall
  | TooManyFunctionEvaluation
  | TolTooSmall
  | NotMakingProgressJacobian
  | NotMakingProgressIterations
  | UserAksed
  deriving DecidableEq

/-- A dynamic column vector `Matrix<Scalar, Dynamic, 1>`. -/
abbrev Vec := List ℚ

/-- A dynamic dense matrix, stored column by column. -/
abbrev Mat := List ℚ

/-- Read `v[j]`. -/
def vget (v : Vec) (j : Nat) : ℚ := v.getD j 0

/-- Write `v[j] = a`. -/
def vset (v : Vec) (j : Nat) (a : ℚ) : Vec := v.set j a

/-- Read `A(i,j)` of a matrix with `n` rows. -/
def mget (n : Nat) (A : Mat) (i j : Nat) : ℚ := A.getD (i + j * n) 0

/-- The column `A.col(j)` of a matrix with `n` rows. -/
def mcol (n : Nat) (A : Mat) (j : Nat) : Vec := (List.range n).map (fun i => mget n A i j)

/-- The product `a.dot(b)`. -/
def dot (a b : Vec) : ℚ := (List.zipWith (fun p q => p * q) a b).sum

/-- The product `a.cwise() * b`. -/
def cwiseMul (a b : Vec) : Vec := List.zipWith (fun p q => p * q) a b

/-- The maximum `a.cwise().max(b)`. -/
def cwiseMax (a b : Vec) : Vec := List.zipWith (fun p q => max p q) a b

/-- The sum `a + b` of two vectors. -/
def vadd (a b : Vec) : Vec := List.zipWith (fun p q => p + q) a b

/-- The opposite `-a` of a vector. -/
def vneg (a : Vec) : Vec := a.map (fun p => -p)

/-- Storage of `k` scalars that has not been written yet: its content is whatever `junk` says. -/
def fresh (junk : Nat → ℚ) (k : Nat) : List ℚ := (List.range k).map junk

/-- The call `v.resize(k)`: nothing happens when the size is already `k`, otherwise the storage is
reallocated and its content is not initialised. -/
def resize (junk : Nat → ℚ) (v : List ℚ) (k : Nat) : List ℚ :=
  if v.length = k then v else fresh junk k

/-- The user functor: `f(x, fvec)` and `df(x, fjac)`, each returning a flag. -/
structure FunctorType (σ : Type) where
  f : σ → Vec → Vec → σ × Int × Vec
  df : σ → Vec → Mat → σ × Int × Mat

/-- The numeric primitives the driver calls, which live outside the file.

* `epsilon` is `epsilon<Scalar>()`;
* `stableNorm v` is `v.stableNorm()`;
* `qrfac n a` is `ei_qrfac(n, n, a, n, false, iwa, 1, rdiag, acnorm)` and returns the new `a`,
  `rdiag` and `acnorm`;
* `qform n q wa` is `ei_qform(n, n, q, n, wa)` and returns the new `q` and `wa`;
* `dogleg r diag qtb delta x` is `ei_dogleg(r, diag, qtb, delta, x)` and returns the new `x`;
* `r1updt n s u v w` is `ei_r1updt(n, n, s, ls, u, v, w, &sing)` and returns the new `s`, `v`, `w`
  and `sing`;
* `r1mpyq m n a v w` is `ei_r1mpyq(m, n, a, m, v, w)` and returns the new `a`. -/
structure Prims where
  epsilon : ℚ
  stableNorm : Vec → ℚ
  qrfac : Nat → Mat → Mat × Vec × Vec
  qform : Nat → Mat → Vec → Mat × Vec
  dogleg : Vec → Vec → Vec → ℚ → Vec → Vec
  r1updt : Nat → Vec → Vec → Vec → Vec → Vec × Vec × Vec × Bool
  r1mpyq : Nat → Nat → List ℚ → Vec → Vec → List ℚ

/-- The type of `ei_fdjac1(functor, x, fvec, fjac, ml, mu, epsfcn)`: it may call `functor.f` and
returns the new user state, the flag, and the new `x`, `fvec` and `fjac`. -/
abbrev Fdjac1 (σ : Type) : Type :=
  (σ → Vec → Vec → σ × Int × Vec) → σ → Vec → Vec → Mat → Int → Int → ℚ →
    σ × Int × Vec × Vec × Mat

/-- The public members of the solver object (lines 51-54). -/
structure Workspace where
  fvec : Vec
  fjac : Mat
  R : Vec
  qtf : Vec
  deriving DecidableEq

/-- The arguments of a full-form call that the loops only read. -/
structure Config where
  n : Nat
  mode : Int
  maxfev : Int
  factor : ℚ
  xtol : ℚ

/-- Everything a full-form call can write: the user state, the caller's `x`, `nfev`, `njev` and
`diag`, the public members, the work vectors and the local variables (lines 105-129). -/
structure State (σ : Type) where
  user : σ
  x : Vec
  nfev : Int
  njev : Int
  diag : Vec
  fvec : Vec
  fjac : Mat
  R : Vec
  qtf : Vec
  wa1 : Vec
  wa2 : Vec
  wa3 : Vec
  wa4 : Vec
  sing : Bool
  iter : Int
  iflag : Int
  delta : ℚ
  jeval : Bool
  ncsuc : Int
  ratio : ℚ
  fnorm : ℚ
  pnorm : ℚ
  xnorm : ℚ
  fnorm1 : ℚ
  nslow1 : Int
  nslow2 : Int
  ncfail : Int
  actred : ℚ
  prered : ℚ

/-- How one pass through a piece of a loop leaves it: `ret` is a `return`, `brk` the `break` of the
inner loop, `cont` falling through to what follows. -/
inductive Flow (σ : Type)
  | ret (s : Status) (st : State σ)
  | brk (st : State σ)
  | cont (st : State σ)

/-- The state a `Flow` carries. -/
def Flow.state {σ : Type} : Flow σ → State σ
  | .ret _ st => st
  | .brk st => st
  | .cont st => st

/-! ## The outer loop up to the inner loop (lines 164-234 and 494-565) -/

/-- Lines 164-171: `jeval = true`, the call of `df`, `++njev`. The caller tests `iflag`. -/
def jacobianAnalytic {σ : Type} (F : FunctorType σ) (st : State σ) : State σ :=
  let r := F.df st.user st.x st.fjac
  { st with jeval := true, user := r.1, iflag := r.2.1, fjac := r.2.2, njev := st.njev + 1 }

/-- Lines 180-186: on the first iteration and unless `mode == 2`, `diag[j] = wa2[j]`, and
`diag[j] = 1` where `wa2[j] == 0`. -/
def initDiag (n : Nat) (wa2 diag : Vec) : Vec :=
  (List.range n).foldl
    (fun d j => if vget wa2 j = 0 then vset (vset d j (vget wa2 j)) j 1 else vset d j (vget wa2 j))
    diag

/-- Lines 180-196: the block `if (iter == 1)`. -/
def firstIteration {σ : Type} (P : Prims) (c : Config) (st : State σ) : State σ :=
  if st.iter = 1 then
    let diag := if c.mode ≠ 2 then initDiag c.n st.wa2 st.diag else st.diag
    let wa3 := cwiseMul diag st.x
    let xnorm := P.stableNorm wa3
    let delta := c.factor * xnorm
    { st with diag := diag, wa3 := wa3, xnorm := xnorm,
              delta := if delta = 0 then c.factor else delta }
  else st

/-- Lines 200-209: `qtf = fvec` followed by the application of the Householder reflectors that
`qrfac` left in `fjac`. -/
def formQtf (n : Nat) (fjac : Mat) (fvec : Vec) : Vec :=
  (List.range n).foldl
    (fun qtf j =>
      if mget n fjac j j ≠ 0 then
        let sum := (List.range' j (n - j)).foldl (fun s i => s + mget n fjac i j * vget qtf i) 0
        let temp := -sum / mget n fjac j j
        (List.range' j (n - j)).foldl
          (fun q i => vset q i (vget q i + mget n fjac i j * temp)) qtf
      else qtf)
    fvec

/-- Lines 215-223: the body of the packing loop for column `j`, on the pair `(R, sing)`. -/
def packColumn (n : Nat) (fjac : Mat) (wa1 : Vec) (Rs : Vec × Bool) (j : Nat) : Vec × Bool :=
  let Rl := (List.range j).foldl
    (fun (a : Vec × Nat) i => (vset a.1 a.2 (mget n fjac i j), a.2 + n - i - 1)) (Rs.1, j)
  (vset Rl.1 Rl.2 (vget wa1 j), if vget wa1 j = 0 then true else Rs.2)

/-- Lines 213-224: copy the triangular factor into `R`, starting from `sing = false`. -/
def packR (n : Nat) (fjac : Mat) (wa1 : Vec) (R : Vec) : Vec × Bool :=
  (List.range n).foldl (packColumn n fjac wa1) (R, false)

/-- Lines 175-234 (and 506-565): from the QR factorization to the rescaling of `diag`. -/
def factorize {σ : Type} (P : Prims) (c : Config) (st : State σ) : State σ :=
  let q := P.qrfac c.n st.fjac
  let st1 : State σ := { st with fjac := q.1, wa1 := q.2.1, wa2 := q.2.2 }
  let st2 := firstIteration P c st1
  let st3 : State σ := { st2 with qtf := formQtf c.n st2.fjac st2.fvec }
  let p := packR c.n st3.fjac st3.wa1 st3.R
  let st4 : State σ := { st3 with R := p.1, sing := p.2 }
  let g := P.qform c.n st4.fjac st4.wa1
  let st5 : State σ := { st4 with fjac := g.1, wa1 := g.2 }
  if c.mode ≠ 2 then { st5 with diag := cwiseMax st5.diag st5.wa2 } else st5

/-! ## The inner loop (lines 238-372 and 569-704) -/

/-- The square `ei_abs2(a)` of a real scalar. -/
def abs2 (a : ℚ) : ℚ := a * a

/-- Lines 242-254: the dogleg direction, `x + p`, the norm of the scaled step and, on the first
iteration, the adjustment of the step bound. -/
def direction {σ : Type} (P : Prims) (st : State σ) : State σ :=
  let wa1 := vneg (P.dogleg st.R st.diag st.qtf st.delta st.wa1)
  let wa2 := vadd st.x wa1
  let wa3 := cwiseMul st.diag wa1
  let pnorm := P.stableNorm wa3
  { st with wa1 := wa1, wa2 := wa2, wa3 := wa3, pnorm := pnorm,
            delta := if st.iter = 1 then min st.delta pnorm else st.delta }

/-- Lines 258-259: `iflag = functor.f(wa2, wa4); ++nfev;`. The caller tests `iflag`. -/
def evalTrial {σ : Type} (F : FunctorType σ) (st : State σ) : State σ :=
  let r := F.f st.user st.wa2 st.wa4
  { st with user := r.1, iflag := r.2.1, wa4 := r.2.2, nfev := st.nfev + 1 }

/-- Lines 273-278: row `i` of the predicted-reduction loop, on the pair `(wa3, l)`. -/
def predRow (n : Nat) (R wa1 qtf : Vec) (a : Vec × Nat) (i : Nat) : Vec × Nat :=
  let sl := (List.range' i (n - i)).foldl
    (fun (s : ℚ × Nat) j => (s.1 + vget R s.2 * vget wa1 j, s.2 + 1)) (0, a.2)
  (vset a.1 i (vget qtf i + sl.1), sl.2)

/-- Lines 271-279: `wa3 = qtf + R * wa1` through the packed `R`. -/
def predicted (n : Nat) (R wa1 qtf wa3 : Vec) : Vec :=
  ((List.range n).foldl (predRow n R wa1 qtf) (wa3, 0)).1

/-- Lines 261-290: the scaled actual and predicted reductions and their ratio. -/
def reductions {σ : Type} (P : Prims) (c : Config) (st : State σ) : State σ :=
  let fnorm1 := P.stableNorm st.wa4
  let actred := if fnorm1 < st.fnorm then 1 - abs2 (fnorm1 / st.fnorm) else -1
  let wa3 := predicted c.n st.R st.wa1 st.qtf st.wa3
  let temp := P.stableNorm wa3
  let prered := if temp < st.fnorm then 1 - abs2 (temp / st.fnorm) else 0
  { st with fnorm1 := fnorm1, actred := actred, wa3 := wa3, prered := prered,
            ratio := if prered > 0 then actred / prered else 0 }

/-- Lines 294-306: update of the step bound and of `ncsuc`, `ncfail`. -/
def updateStepBound {σ : Type} (st : State σ) : State σ :=
  if st.ratio < 1 / 10 then
    { st with ncsuc := 0, ncfail := st.ncfail + 1, delta := 1 / 2 * st.delta }
  else
    let ncsuc := st.ncsuc + 1
    let delta1 := if st.ratio ≥ 1 / 2 ∨ ncsuc > 1 then max st.delta (st.pnorm / (1 / 2))
      else st.delta
    { st with ncfail := 0, ncsuc := ncsuc,
              delta := if |st.ratio - 1| ≤ 1 / 10 then st.pnorm / (1 / 2) else delta1 }

/-- Lines 310-318: the test for a successful iteration. -/
def acceptStep {σ : Type} (P : Prims) (st : State σ) : State σ :=
  if st.ratio ≥ 1 / 10000 then
    let wa2 := cwiseMul st.diag st.wa2
    { st with x := st.wa2, wa2 := wa2, fvec := st.wa4, xnorm := P.stableNorm wa2,
              fnorm := st.fnorm1, iter := st.iter + 1 }
  else st

/-- Lines 322-328: the progress monitors `nslow1` and `nslow2`. -/
def progress {σ : Type} (st : State σ) : State σ :=
  let nslow1 := if st.actred ≥ 1 / 1000 then 0 else st.nslow1 + 1
  let nslow2 := if st.jeval then st.nslow2 + 1 else st.nslow2
  { st with nslow1 := nslow1, nslow2 := if st.actred ≥ 1 / 10 then 0 else nslow2 }

/-- Lines 332-345: the convergence and termination tests; `none` when none of them fires. -/
def terminationTest {σ : Type} (P : Prims) (c : Config) (st : State σ) : Option Status :=
  if st.delta ≤ c.xtol * st.xnorm ∨ st.fnorm = 0 then some .RelativeErrorTooSmall
  else if st.nfev ≥ c.maxfev then some .TooManyFunctionEvaluation
  else if 1 / 10 * max (1 / 10 * st.delta) st.pnorm ≤ P.epsilon * st.xnorm then some .TolTooSmall
  else if st.nslow2 = 5 then some .NotMakingProgressJacobian
  else if st.nslow1 = 10 then some .NotMakingProgressIterations
  else none

/-- Lines 356-360: entry `j` of the loop that prepares the rank one modification, on the triple
`(wa1, wa2, qtf)`. -/
def broydenEntry (n : Nat) (fjac : Mat) (diag wa3 wa4 : Vec) (pnorm ratio : ℚ)
    (a : Vec × Vec × Vec) (j : Nat) : Vec × Vec × Vec :=
  let sum := dot wa4 (mcol n fjac j)
  (vset a.1 j (vget diag j * (vget diag j * vget a.1 j / pnorm)),
   vset a.2.1 j ((sum - vget wa3 j) / pnorm),
   if ratio ≥ 1 / 10000 then vset a.2.2 j sum else a.2.2)

/-- Lines 355-371: the rank one modification of the Jacobian, the update of its factorization and
of `qtf`, and `jeval = false`. -/
def broydenUpdate {σ : Type} (P : Prims) (c : Config) (st : State σ) : State σ :=
  let a := (List.range c.n).foldl
    (broydenEntry c.n st.fjac st.diag st.wa3 st.wa4 st.pnorm st.ratio) (st.wa1, st.wa2, st.qtf)
  let u := P.r1updt c.n st.R a.1 a.2.1 st.wa3
  let fjac := P.r1mpyq c.n c.n st.fjac u.2.1 u.2.2.1
  let qtf := P.r1mpyq 1 c.n a.2.2 u.2.1 u.2.2.1
  { st with wa1 := a.1, R := u.1, wa2 := u.2.1, wa3 := u.2.2.1, sing := u.2.2.2,
            fjac := fjac, qtf := qtf, jeval := false }

/-- Lines 261-345: what an inner iteration does after a trial evaluation whose flag is not
negative, up to the termination tests. -/
def afterTrial {σ : Type} (P : Prims) (c : Config) (st : State σ) : State σ :=
  progress (acceptStep P (updateStepBound (reductions P c st)))

/-- Lines 238-372: one pass through the body of the inner loop. -/
def innerBody {σ : Type} (P : Prims) (F : FunctorType σ) (c : Config) (st : State σ) : Flow σ :=
  let st1 := evalTrial F (direction P st)
  if st1.iflag < 0 then .ret .UserAksed st1
  else
    let st2 := afterTrial P c st1
    match terminationTest P c st2 with
    | some s => .ret s st2
    | none => if st2.ncfail = 2 then .brk st2 else .cont (broydenUpdate P c st2)

/-- The two nested `while (true)` loops (lines 163-374). One unit of fuel is one pass through the
inner loop; `outer = true` says that control is at the head of the outer loop, so that the pass is
preceded by the Jacobian evaluation `jac`, the test of its flag and the factorization. The result
is `none` when the fuel runs out. -/
def iterate {σ : Type} (P : Prims) (F : FunctorType σ) (jac : State σ → State σ) (c : Config) :
    Nat → Bool → State σ → Option (Status × State σ)
  | 0, _, _ => none
  | k + 1, outer, st =>
    let st0 := if outer then jac st else st
    if outer = true ∧ st0.iflag < 0 then some (.UserAksed, st0)
    else
      match innerBody P F c (if outer then factorize P c st0 else st0) with
      | .ret s st1 => some (s, st1)
      | .brk st1 => iterate P F jac c k true st1
      | .cont st1 => iterate P F jac c k false st1

/-! ## The entry points -/

/-- The content of the storage a call finds: `fill` is the content of freshly allocated vectors,
the other fields are the values of the local variables that have no initialiser. -/
structure Junk where
  fill : Nat → ℚ
  scalar : ℚ
  int : Int
  flag : Bool

/-- The state after lines 105-134: the work vectors are allocated, the public members resized,
and `iflag = 0`, `nfev = 0`, `njev = 0`. -/
def initState {σ : Type} (J : Junk) (W : Workspace) (user : σ) (x diag : Vec) : State σ :=
  let n := x.length
  { user := user, x := x, nfev := 0, njev := 0, diag := diag,
    fvec := resize J.fill W.fvec n, fjac := resize J.fill W.fjac (n * n),
    R := resize J.fill W.R (n * (n + 1) / 2), qtf := resize J.fill W.qtf n,
    wa1 := fresh J.fill n, wa2 := fresh J.fill n, wa3 := fresh J.fill n, wa4 := fresh J.fill n,
    sing := J.flag, iter := J.int, iflag := 0, delta := J.scalar, jeval := J.flag,
    ncsuc := J.int, ratio := J.scalar, fnorm := J.scalar, pnorm := J.scalar, xnorm := J.scalar,
    fnorm1 := J.scalar, nslow1 := J.int, nslow2 := J.int, ncfail := J.int,
    actred := J.scalar, prered := J.scalar }

/-- Lines 140-143 (and 463-466): some `diag[j]` with `j < n` is not positive. -/
def badDiag (n : Nat) (diag : Vec) : Bool := (List.range n).any (fun j => vget diag j ≤ 0)

/-- Lines 148-149: `iflag = functor.f(x, fvec); nfev = 1;`. The caller tests `iflag`. -/
def evalStart {σ : Type} (F : FunctorType σ) (st : State σ) : State σ :=
  let r := F.f st.user st.x st.fvec
  { st with user := r.1, iflag := r.2.1, fvec := r.2.2, nfev := 1 }

/-- Lines 151-159: the norm at the starting point, the iteration counter and the monitors. -/
def initCounters {σ : Type} (P : Prims) (st : State σ) : State σ :=
  { st with fnorm := P.stableNorm st.fvec, iter := 1, ncsuc := 0, ncfail := 0, nslow1 := 0,
            nslow2 := 0 }

/-- The full form `solve(x, nfev, njev, diag, mode, maxfev, factor, xtol)` (lines 92-376), run on
the solver object `W` with the user state `user`. -/
def solve {σ : Type} (P : Prims) (F : FunctorType σ) (J : Junk) (fuel : Nat) (W : Workspace)
    (user : σ) (x diag : Vec) (mode maxfev : Int) (factor xtol : ℚ) :
    Option (Status × State σ) :=
  let n := x.length
  let st : State σ := initState J W user x diag
  if n ≤ 0 ∨ xtol < 0 ∨ maxfev ≤ 0 ∨ factor ≤ 0 then some (.RelativeErrorTooSmall, st)
  else if mode = 2 ∧ badDiag n diag = true then some (.RelativeErrorTooSmall, st)
  else
    let st1 := evalStart F st
    if st1.iflag < 0 then some (.UserAksed, st1)
    else iterate P F (jacobianAnalytic F)
      { n := n, mode := mode, maxfev := maxfev, factor := factor, xtol := xtol } fuel true
      (initCounters P st1)

/-- What a convenience form hands back: the status, the user state, `x` and the public members. -/
structure Outcome (σ : Type) where
  status : Status
  user : σ
  x : Vec
  members : Workspace

/-- The outcome of a full-form call, seen from the caller of a convenience form. -/
def outcome {σ : Type} (r : Status × State σ) : Outcome σ :=
  { status := r.1, user := r.2.user, x := r.2.x,
    members := { fvec := r.2.fvec, fjac := r.2.fjac, R := r.2.R, qtf := r.2.qtf } }

/-- The convenience form `solve(x, tol)` (lines 61-88). -/
def solveTol {σ : Type} (P : Prims) (F : FunctorType σ) (J : Junk) (fuel : Nat) (W : Workspace)
    (user : σ) (x : Vec) (tol : ℚ) : Option (Outcome σ) :=
  let n := x.length
  if n ≤ 0 ∨ tol < 0 then
    some { status := .ImproperInputParameters, user := user, x := x, members := W }
  else
    (solve P F J fuel W user x (List.replicate n 1) 2 ((n + 1) * 100) 100 tol).map outcome

/-- The value that arithmetic on the 32-bit type `int` leaves for the exact result `a`: the
representative of `a` modulo `2^32` in `[-2^31, 2^31)`. It is `a` itself when `a` is in that
range. -/
def wrapInt (a : Int) : Int := (a + 2147483648) % 4294967296 - 2147483648

/-- Lines 494-502: `jeval = true`, the forward-difference Jacobian, `nfev += msum` on the type
`int`. The caller tests `iflag`. -/
def jacobianNumeric {σ : Type} (F : FunctorType σ) (fd : Fdjac1 σ)
    (nb_of_subdiagonals nb_of_superdiagonals : Int) (epsfcn : ℚ) (msum : Int) (st : State σ) :
    State σ :=
  let r := fd F.f st.user st.x st.fvec st.fjac nb_of_subdiagonals nb_of_superdiagonals epsfcn
  { st with jeval := true, user := r.1, iflag := r.2.1, x := r.2.2.1, fvec := r.2.2.2.1,
            fjac := r.2.2.2.2, nfev := wrapInt (st.nfev + msum) }

/-- The full form `solveNumericalDiff(x, nfev, diag, mode, nb_of_subdiagonals,
nb_of_superdiagonals, maxfev, factor, xtol, epsfcn)` (lines 411-708). The field `njev` of the
state is not used by this variant. The sum `nb_of_subdiagonals + nb_of_superdiagonals + 1` of
line 481 is computed on the type `int`, one addition after the other, as is `nfev += msum`
(line 500); the increments `++nfev` of the inner loop are exact below `2^31 - 1`. -/
def solveNumericalDiff {σ : Type} (P : Prims) (F : FunctorType σ) (fd : Fdjac1 σ) (J : Junk)
    (fuel : Nat) (W : Workspace) (user : σ) (x diag : Vec) (mode : Int)
    (nb_of_subdiagonals nb_of_superdiagonals : Int) (maxfev : Int) (factor xtol epsfcn : ℚ) :
    Option (Status × State σ) :=
  let n := x.length
  let nb_sub : Int := if nb_of_subdiagonals < 0 then (n : Int) - 1 else nb_of_subdiagonals
  let nb_super : Int := if nb_of_superdiagonals < 0 then (n : Int) - 1 else nb_of_superdiagonals
  let st : State σ := initState J W user x diag
  if n ≤ 0 ∨ xtol < 0 ∨ maxfev ≤ 0 ∨ nb_sub < 0 ∨ nb_super < 0 ∨ factor ≤ 0 then
    some (.RelativeErrorTooSmall, st)
  else if mode = 2 ∧ badDiag n diag = true then some (.RelativeErrorTooSmall, st)
  else
    let st1 := evalStart F st
    if st1.iflag < 0 then some (.UserAksed, st1)
    else
      let msum : Int := min (wrapInt (wrapInt (nb_sub + nb_super) + 1)) (n : Int)
      iterate P F (jacobianNumeric F fd nb_sub nb_super epsfcn msum)
        { n := n, mode := mode, maxfev := maxfev, factor := factor, xtol := xtol } fuel true
        (initCounters P st1)

/-- The convenience form `solveNumericalDiff(x, tol)` (lines 380-408). -/
def solveNumericalDiffTol {σ : Type} (P : Prims) (F : FunctorType σ) (fd : Fdjac1 σ) (J : Junk)
    (fuel : Nat) (W : Workspace) (user : σ) (x : Vec) (tol : ℚ) : Option (Outcome σ) :=
  let n := x.length
  if n ≤ 0 ∨ tol < 0 then
    some { status := .ImproperInputParameters, user := user, x := x, members := W }
  else
    (solveNumericalDiff P F fd J fuel W user x (List.replicate n 1) 2 (-1) (-1) ((n + 1) * 200)
      100 tol 0).map outcome

/-! ## Instrumentation and a concrete instance

The callbacks are instrumented by a log of their invocations; the primitives are instantiated for
systems of one equation, where the Euclidean norm is the absolute value and the MINPACK routines
need no square root. -/

/-- One invocation of a callback: which one, the point it was given and the flag it returned. -/
inductive Call
  | f (x : Vec) (flag : Int)
  | df (x : Vec) (flag : Int)
  deriving DecidableEq

/-- The flag an invocation returned. -/
def Call.flag : Call → Int
  | .f _ k => k
  | .df _ k => k

/-- Whether an invocation is one of `f`. -/
def Call.isF : Call → Bool
  | .f _ _ => true
  | .df _ _ => false

/-- The functor `F` with a log: every invocation of `f` or `df` appends one entry. -/
def logged {σ : Type} (F : FunctorType σ) : FunctorType (σ × List Call) where
  f := fun s x buf =>
    let r := F.f s.1 x buf
    ((r.1, s.2 ++ [Call.f x r.2.1]), r.2.1, r.2.2)
  df := fun s x buf =>
    let r := F.df s.1 x buf
    ((r.1, s.2 ++ [Call.df x r.2.1]), r.2.1, r.2.2)

/-- A functor without state: `f` writes `Fv x` and returns `flag x`, `df` writes `Jv x` and
returns `0`. -/
def pureFunctor (Fv : Vec → Vec) (flag : Vec → Int) (Jv : Vec → Mat) : FunctorType Unit where
  f := fun s x _ => (s, flag x, Fv x)
  df := fun s x _ => (s, 0, Jv x)

/-- A functor whose state counts the invocations of `f`: the invocation number `k` returns `-1`,
the others `0`. -/
def abortAt (k : Nat) (Fv : Vec → Vec) (Jv : Vec → Mat) : FunctorType Nat where
  f := fun s x _ => (s + 1, if s + 1 = k then -1 else 0, Fv x)
  df := fun s x _ => (s, 0, Jv x)

/-- Modelled from the spec: `stableNorm` is a library routine, the Euclidean norm; for a vector
with one entry it is the absolute value (the definition takes the largest absolute value). -/
def norm1 (v : Vec) : ℚ := (v.map (fun a => |a|)).foldl max 0

/-- Modelled from the spec: `ei_qrfac` is not in the file; it is the Householder QR without
pivoting that also returns the norms of the columns. For a matrix with one entry `a` the MINPACK
routine leaves the Householder vector `2` (or `0` when `a = 0`), `rdiag = -a` and `acnorm = |a|`,
so that `Q = -1` (or `1`) and `R = -a`. -/
def qrfac1 (_n : Nat) (A : Mat) : Mat × Vec × Vec :=
  let a := vget A 0
  ([if a = 0 then a else 2], [-a], [|a|])

/-- Modelled from the spec: `ei_qform` is not in the file; it expands the Householder vectors
into the orthogonal factor. For one entry `q` that is `1 - q` (or `1` when `q = 0`), and the work
vector receives `q`. -/
def qform1 (_n : Nat) (Q : Mat) (_wa : Vec) : Mat × Vec :=
  let q := vget Q 0
  ([if q = 0 then 1 else 1 - q], [q])

/-- Modelled from the spec: `ei_dogleg` is not in the file; it is the Powell dogleg step on the
scaled trust region `‖diag * p‖ <= delta`. For one unknown: the Gauss-Newton step `qtb / r` (with
`eps` for a zero `r`) when it lies in the region, otherwise the point of the only direction on
the boundary of the region. -/
def dogleg1 (eps : ℚ) (R diag qtb : Vec) (delta : ℚ) (_x : Vec) : Vec :=
  let r := vget R 0
  let d := vget diag 0
  let b := vget qtb 0
  let x := b / (if r = 0 then eps else r)
  let qnorm := |d * x|
  if qnorm ≤ delta then [x]
  else
    let g := r * b / d
    if |g| = 0 then [delta / qnorm * x] else [delta * (g / |g| / d)]

/-- Modelled from the spec: `ei_r1updt` is not in the file; it keeps `R + u * vᵀ` upper
triangular and returns the singularity flag. For one unknown there is no rotation: `s + u * v`. -/
def r1updt1 (_n : Nat) (s u v _w : Vec) : Vec × Vec × Vec × Bool :=
  let t := vget s 0 + vget v 0 * vget u 0
  ([t], v, [t], decide (t = 0))

/-- Modelled from the spec: `ei_r1mpyq` is not in the file; it applies the rotations of
`r1updt` from the right. With one column there is no rotation to apply. -/
def r1mpyq1 (_m _n : Nat) (a : List ℚ) (_v _w : Vec) : List ℚ := a

/-- The primitives for systems of one equation, with `epsilon = 2^-52`. -/
def prims1 : Prims where
  epsilon := 1 / 4503599627370496
  stableNorm := norm1
  qrfac := qrfac1
  qform := qform1
  dogleg := dogleg1 (1 / 4503599627370496)
  r1updt := r1updt1
  r1mpyq := r1mpyq1

/-- Modelled from the spec: `ei_fdjac1` is not in the file; it is the forward-difference
Jacobian, and a negative flag of the callback aborts it. For one unknown, with the step
`eps = 2^-26` (the square root of `epsilon`, which is what `epsfcn <= epsilon` gives): one
forward difference `(F(x + h) - F(x)) / h`, `h = eps * |x|` or `eps` when that is zero. A negative
flag is returned at once, with `x` still at the perturbed point. -/
def fdjac1One {σ : Type} : Fdjac1 σ := fun f user x fvec fjac _ml _mu _epsfcn =>
  let eps : ℚ := 1 / 67108864
  let temp := vget x 0
  let h := if eps * |temp| = 0 then eps else eps * |temp|
  let r := f user [temp + h] [0]
  if r.2.1 < 0 then (r.1, r.2.1, [temp + h], fvec, fjac)
  else (r.1, 0, x, fvec, [(vget r.2.2 0 - vget fvec 0) / h])

/-- Storage filled with zeros. -/
def junk0 : Junk := { fill := fun _ => 0, scalar := 0, int := 0, flag := false }

/-- A solver object that has not been used: all members are empty. -/
def emptyWorkspace : Workspace := { fvec := [], fjac := [], R := [], qtf := [] }

/-! ## Notions used by the statements -/

/-- The input validation of the full analytic form, in the words of the specification: `n > 0`,
`xtol ≥ 0`, `maxfev > 0`, `factor > 0`, and if `mode = 2` every `diag[j] > 0`. -/
def ValidInput (x diag : Vec) (mode maxfev : Int) (factor xtol : ℚ) : Prop :=
  0 < x.length ∧ 0 ≤ xtol ∧ 0 < maxfev ∧ 0 < factor ∧
    (mode = 2 → ∀ j, j < x.length → 0 < vget diag j)

/-- The trial point `x + p` of the pass through the inner loop that starts in `st` (line 247). -/
def trialPoint {σ : Type} (P : Prims) (st : State σ) : Vec := (direction P st).wa2

/-- The pass through the inner loop that starts in `st` accepts its trial point: the flag of the
trial evaluation is not negative and `ratio >= 1e-4` (lines 260 and 310). -/
def Accepts {σ : Type} (P : Prims) (F : FunctorType σ) (c : Config) (st : State σ) : Prop :=
  ¬ (evalTrial F (direction P st)).iflag < 0 ∧
    (reductions P c (evalTrial F (direction P st))).ratio ≥ 1 / 10000

/-- The number `max(1, maxfev - 1)` of passes through the inner loop that is always enough. -/
def fuelBound (maxfev : Int) : Nat := (max 1 (maxfev - 1)).toNat

/-- The number of invocations of `f` in a log. -/
def countF (log : List Call) : Int := ((log.filter Call.isF).length : Int)

/-- The number of invocations of `df` in a log. -/
def countDf (log : List Call) : Int := ((log.filter (fun e => !e.isF)).length : Int)


/-! ## The passes through the inner loop -/

/-- The states in which the passes through the inner loop start, in the order of execution: these
are the states at the calls of `dogleg` (line 242). The definition follows `iterate`; a pass whose
state has `jeval = true` directly follows a Jacobian evaluation. -/
def passes {σ : Type} (P : Prims) (F : FunctorType σ) (jac : State σ → State σ) (c : Config) :
    Nat → Bool → State σ → List (State σ)
  | 0, _, _ => []
  | k + 1, outer, st =>
    let st0 := if outer then jac st else st
    if outer = true ∧ st0.iflag < 0 then []
    else
      (if outer then factorize P c st0 else st0) ::
        match innerBody P F c (if outer then factorize P c st0 else st0) with
        | .ret _ _ => []
        | .brk st1 => passes P F jac c k true st1
        | .cont st1 => passes P F jac c k false st1

/-- The passes of a call of the full analytic form (lines 92-376): none when the input is
rejected (lines 138-143) or the starting evaluation is aborted (line 150). -/
def solvePasses {σ : Type} (P : Prims) (F : FunctorType σ) (J : Junk) (fuel : Nat) (W : Workspace)
    (user : σ) (x diag : Vec) (mode maxfev : Int) (factor xtol : ℚ) : List (State σ) :=
  let n := x.length
  let st : State σ := initState J W user x diag
  if n ≤ 0 ∨ xtol < 0 ∨ maxfev ≤ 0 ∨ factor ≤ 0 then []
  else if mode = 2 ∧ badDiag n diag = true then []
  else
    let st1 := evalStart F st
    if st1.iflag < 0 then []
    else passes P F (jacobianAnalytic F)
      { n := n, mode := mode, maxfev := maxfev, factor := factor, xtol := xtol } fuel true
      (initCounters P st1)

/-- The state at the end of the pass that starts in `st`, when its trial evaluation is not
aborted: the state on which the termination tests are made (lines 261-328). -/
def passEnd {σ : Type} (P : Prims) (F : FunctorType σ) (c : Config) (st : State σ) : State σ :=
  afterTrial P c (evalTrial F (direction P st))

/-! ## The packed triangular factor -/

/-- The sum `sum_{k<i} (n - k)` of the specification: the number of cells of the rows `0..i-1` of
an upper triangular matrix of order `n`. -/
def rowStart (n i : Nat) : Nat := ((List.range i).map (fun k => n - k)).sum

/-- The offset reached from `j` by adding the strides `n - i' - 1` for `i' = 0..i-1`: the value of
`l` in the packing loop (lines 215-220) when row `i` of column `j` is written. -/
def strideOffset (n i j : Nat) : Nat := j + ((List.range i).map (fun k => n - k - 1)).sum

/-- The entry `(i, j)` of the upper triangular matrix that a packed vector `R` stands for: the
cell `rowStart n i + (j - i)` when `i <= j`, zero below the diagonal. -/
def upper (n : Nat) (R : Vec) (i j : Nat) : ℚ :=
  if i ≤ j then vget R (rowStart n i + (j - i)) else 0

/-- The entry `(i, j)` of the triangular factor that the packing loop copies: `fjac(i,j)` above
the diagonal and `wa1[j]` on it. -/
def factorEntry (n : Nat) (fjac : Mat) (wa1 : Vec) (i j : Nat) : ℚ :=
  if i = j then vget wa1 j else mget n fjac i j

/-- The affine map `y ↦ A y - b` on vectors with `n` entries. -/
def affine (n : Nat) (A : Mat) (b : Vec) (y : Vec) : Vec :=
  (List.range n).map
    (fun i => ((List.range n).map (fun j => mget n A i j * vget y j)).sum - vget b i)

/-! ## The specification's update rules, in its words -/

/-- The trust-radius update of the specification as a function of `(ratio, delta, pnorm, ncsuc,
ncfail)`, returning `(delta', ncsuc', ncfail')`: if `ratio < 0.1` then `ncsuc' = 0`,
`ncfail' = ncfail + 1`, `delta' = delta / 2`; otherwise `ncfail' = 0`, `ncsuc' = ncsuc + 1` and
`delta' = 2 pnorm` if `|ratio - 1| <= 0.1`, else `max(delta, 2 pnorm)` if `ratio >= 0.5` or
`ncsuc' > 1`, else `delta`. -/
def stepBoundSpec (ratio delta pnorm : ℚ) (ncsuc ncfail : Int) : ℚ × Int × Int :=
  if ratio < 1 / 10 then (delta / 2, 0, ncfail + 1)
  else if |ratio - 1| ≤ 1 / 10 then (2 * pnorm, ncsuc + 1, 0)
  else if ratio ≥ 1 / 2 ∨ ncsuc + 1 > 1 then (max delta (2 * pnorm), ncsuc + 1, 0)
  else (delta, ncsuc + 1, 0)

/-- The number of most recent consecutive entries of a history that satisfy `p`. -/
def trailing {α : Type} (p : α → Bool) (h : List α) : Nat := (h.reverse.takeWhile p).length

/-- The number of entries that satisfy `q` among the most recent consecutive entries of a history
that satisfy `p`. -/
def trailingCount {α : Type} (p q : α → Bool) (h : List α) : Nat :=
  ((h.reverse.takeWhile p).filter q).length

/-- The pass that starts in `st` has `actred < 1e-3` (line 323). -/
def lowGain {σ : Type} (P : Prims) (F : FunctorType σ) (c : Config) (st : State σ) : Bool :=
  decide ((passEnd P F c st).actred < 1 / 1000)

/-- The pass that starts in `st` has `actred < 0.1` (line 327). -/
def lowGainJac {σ : Type} (P : Prims) (F : FunctorType σ) (c : Config) (st : State σ) : Bool :=
  decide ((passEnd P F c st).actred < 1 / 10)

/-- The state at the first call of `dogleg` of a call of the full analytic form (validated input,
no abort): after the starting evaluation, the first Jacobian evaluation and its factorization. -/
def firstHead {σ : Type} (P : Prims) (F : FunctorType σ) (J : Junk) (W : Workspace) (user : σ)
    (x diag : Vec) (mode maxfev : Int) (factor xtol : ℚ) : State σ :=
  factorize P { n := x.length, mode := mode, maxfev := maxfev, factor := factor, xtol := xtol }
    (jacobianAnalytic F (initCounters P (evalStart F (initState J W user x diag))))

/-- The functor of `F(x) = x - 3` in one unknown, with its Jacobian. -/
def shiftFunctor : FunctorType Unit :=
  pureFunctor (fun x => [vget x 0 - 3]) (fun _ => 0) (fun _ => [1])

/-- The functor of `F(x) = x^2 + 1` in one unknown, which has no zero, with its Jacobian. -/
def noZeroFunctor : FunctorType Unit :=
  pureFunctor (fun x => [vget x 0 * vget x 0 + 1]) (fun _ => 0) (fun x => [2 * vget x 0])

/-- The functor of `F(x) = 3 x^2 - 2 x + 2` in one unknown, which has no zero, with its
Jacobian. -/
def stallFunctor : FunctorType Unit :=
  pureFunctor (fun x => [3 * (vget x 0 * vget x 0) - 2 * vget x 0 + 2]) (fun _ => 0)
    (fun x => [6 * vget x 0 - 2])

/-- The options of the example runs in one unknown: mode 1, `maxfev = 30`, `factor = 100`,
`xtol = 0`. -/
def exampleConfig : Config := { n := 1, mode := 1, maxfev := 30, factor := 100, xtol := 0 }

/-- The functor of the affine map `F(x) = A x - b` on `n` unknowns, with its Jacobian `A`. -/
def affineFunctor (n : Nat) (A : Mat) (b : Vec) : FunctorType Unit :=
  pureFunctor (affine n A b) (fun _ => 0) (fun _ => A)

/-- The pass that starts in `st` has `ratio < 0.1` (line 294): a failing step. -/
def lowRatio {σ : Type} (P : Prims) (F : FunctorType σ) (c : Config) (st : State σ) : Bool :=
  decide ((passEnd P F c st).ratio < 1 / 10)

/-! ## What each piece of the loops leaves unchanged -/

section Frames

variable {σ : Type}

@[simp] theorem jacobianAnalytic_frame (F : FunctorType σ) (st : State σ) :
    (jacobianAnalytic F st).x = st.x ∧ (jacobianAnalytic F st).nfev = st.nfev ∧
    (jacobianAnalytic F st).njev = st.njev + 1 ∧ (jacobianAnalytic F st).fvec = st.fvec ∧
    (jacobianAnalytic F st).fnorm = st.fnorm ∧ (jacobianAnalytic F st).iter = st.iter ∧
    (jacobianAnalytic F st).user = (F.df st.user st.x st.fjac).1 ∧
    (jacobianAnalytic F st).iflag = (F.df st.user st.x st.fjac).2.1 :=
  ⟨rfl, rfl, rfl, rfl, rfl, rfl, rfl, rfl⟩

@[simp] theorem jacobianNumeric_frame (F : FunctorType σ) (fd : Fdjac1 σ) (ml mu : Int) (e : ℚ)
    (msum : Int) (st : State σ) :
    (jacobianNumeric F fd ml mu e msum st).nfev = wrapInt (st.nfev + msum) ∧
    (jacobianNumeric F fd ml mu e msum st).njev = st.njev ∧
    (jacobianNumeric F fd ml mu e msum st).fnorm = st.fnorm ∧
    (jacobianNumeric F fd ml mu e msum st).iter = st.iter :=
  ⟨rfl, rfl, rfl, rfl⟩

@[simp] theorem firstIteration_frame (P : Prims) (c : Config) (st : State σ) :
    (firstIteration P c st).user = st.user ∧ (firstIteration P c st).x = st.x ∧
    (firstIteration P c st).nfev = st.nfev ∧ (firstIteration P c st).njev = st.njev ∧
    (firstIteration P c st).fvec = st.fvec ∧ (firstIteration P c st).fnorm = st.fnorm ∧
    (firstIteration P c st).iter = st.iter ∧ (firstIteration P c st).fjac = st.fjac ∧
    (firstIteration P c st).wa1 = st.wa1 ∧ (firstIteration P c st).wa2 = st.wa2 ∧
    (firstIteration P c st).R = st.R ∧ (firstIteration P c st).ncfail = st.ncfail := by
  unfold firstIteration
  split <;> exact ⟨rfl, rfl, rfl, rfl, rfl, rfl, rfl, rfl, rfl, rfl, rfl, rfl⟩

@[simp] theorem factorize_frame (P : Prims) (c : Config) (st : State σ) :
    (factorize P c st).user = st.user ∧ (factorize P c st).x = st.x ∧
    (factorize P c st).nfev = st.nfev ∧ (factorize P c st).njev = st.njev ∧
    (factorize P c st).fvec = st.fvec ∧ (factorize P c st).fnorm = st.fnorm ∧
    (factorize P c st).iter = st.iter ∧ (factorize P c st).ncfail = st.ncfail := by
  unfold factorize
  simp only []
  split <;> simp

@[simp] theorem direction_frame (P : Prims) (st : State σ) :
    (direction P st).user = st.user ∧ (direction P st).x = st.x ∧
    (direction P st).nfev = st.nfev ∧ (direction P st).njev = st.njev ∧
    (direction P st).fvec = st.fvec ∧ (direction P st).fnorm = st.fnorm ∧
    (direction P st).iter = st.iter ∧ (direction P st).wa4 = st.wa4 ∧
    (direction P st).ncfail = st.ncfail ∧
    (direction P st).wa2 = vadd st.x (vneg (P.dogleg st.R st.diag st.qtf st.delta st.wa1)) :=
  ⟨rfl, rfl, rfl, rfl, rfl, rfl, rfl, rfl, rfl, rfl⟩

@[simp] theorem evalTrial_frame (F : FunctorType σ) (st : State σ) :
    (evalTrial F st).x = st.x ∧ (evalTrial F st).nfev = st.nfev + 1 ∧
    (evalTrial F st).njev = st.njev ∧ (evalTrial F st).fvec = st.fvec ∧
    (evalTrial F st).fnorm = st.fnorm ∧ (evalTrial F st).iter = st.iter ∧
    (evalTrial F st).wa2 = st.wa2 ∧ (evalTrial F st).ncfail = st.ncfail ∧
    (evalTrial F st).user = (F.f st.user st.wa2 st.wa4).1 ∧
    (evalTrial F st).iflag = (F.f st.user st.wa2 st.wa4).2.1 ∧
    (evalTrial F st).wa4 = (F.f st.user st.wa2 st.wa4).2.2 :=
  ⟨rfl, rfl, rfl, rfl, rfl, rfl, rfl, rfl, rfl, rfl, rfl⟩

@[simp] theorem reductions_frame (P : Prims) (c : Config) (st : State σ) :
    (reductions P c st).user = st.user ∧ (reductions P c st).x = st.x ∧
    (reductions P c st).nfev = st.nfev ∧ (reductions P c st).njev = st.njev ∧
    (reductions P c st).fvec = st.fvec ∧ (reductions P c st).fnorm = st.fnorm ∧
    (reductions P c st).iter = st.iter ∧ (reductions P c st).wa2 = st.wa2 ∧
    (reductions P c st).wa4 = st.wa4 ∧ (reductions P c st).ncfail = st.ncfail ∧
    (reductions P c st).fnorm1 = P.stableNorm st.wa4 :=
  ⟨rfl, rfl, rfl, rfl, rfl, rfl, rfl, rfl, rfl, rfl, rfl⟩

@[simp] theorem updateStepBound_frame (st : State σ) :
    (updateStepBound st).user = st.user ∧ (updateStepBound st).x = st.x ∧
    (updateStepBound st).nfev = st.nfev ∧ (updateStepBound st).njev = st.njev ∧
    (updateStepBound st).fvec = st.fvec ∧ (updateStepBound st).fnorm = st.fnorm ∧
    (updateStepBound st).iter = st.iter ∧ (updateStepBound st).wa2 = st.wa2 ∧
    (updateStepBound st).wa4 = st.wa4 ∧ (updateStepBound st).ratio = st.ratio ∧
    (updateStepBound st).fnorm1 = st.fnorm1 ∧ (updateStepBound st).actred = st.actred ∧
    (updateStepBound st).prered = st.prered := by
  unfold updateStepBound
  split <;> exact ⟨rfl, rfl, rfl, rfl, rfl, rfl, rfl, rfl, rfl, rfl, rfl, rfl, rfl⟩

@[simp] theorem acceptStep_frame (P : Prims) (st : State σ) :
    (acceptStep P st).user = st.user ∧ (acceptStep P st).nfev = st.nfev ∧
    (acceptStep P st).njev = st.njev ∧ (acceptStep P st).ratio = st.ratio ∧
    (acceptStep P st).wa4 = st.wa4 ∧ (acceptStep P st).ncfail = st.ncfail ∧
    (acceptStep P st).fnorm1 = st.fnorm1 ∧ (acceptStep P st).actred = st.actred ∧
    (acceptStep P st).prered = st.prered ∧ (acceptStep P st).delta = st.delta := by
  unfold acceptStep
  split <;> exact ⟨rfl, rfl, rfl, rfl, rfl, rfl, rfl, rfl, rfl, rfl⟩

@[simp] theorem progress_frame (st : State σ) :
    (progress st).user = st.user ∧ (progress st).x = st.x ∧
    (progress st).nfev = st.nfev ∧ (progress st).njev = st.njev ∧
    (progress st).fvec = st.fvec ∧ (progress st).fnorm = st.fnorm ∧
    (progress st).iter = st.iter ∧ (progress st).ratio = st.ratio ∧
    (progress st).fnorm1 = st.fnorm1 ∧ (progress st).actred = st.actred ∧
    (progress st).prered = st.prered ∧ (progress st).ncfail = st.ncfail ∧
    (progress st).delta = st.delta ∧ (progress st).xnorm = st.xnorm :=
  ⟨rfl, rfl, rfl, rfl, rfl, rfl, rfl, rfl, rfl, rfl, rfl, rfl, rfl, rfl⟩

@[simp] theorem broydenUpdate_frame (P : Prims) (c : Config) (st : State σ) :
    (broydenUpdate P c st).user = st.user ∧ (broydenUpdate P c st).x = st.x ∧
    (broydenUpdate P c st).nfev = st.nfev ∧ (broydenUpdate P c st).njev = st.njev ∧
    (broydenUpdate P c st).fvec = st.fvec ∧ (broydenUpdate P c st).fnorm = st.fnorm ∧
    (broydenUpdate P c st).iter = st.iter ∧ (broydenUpdate P c st).ncfail = st.ncfail :=
  ⟨rfl, rfl, rfl, rfl, rfl, rfl, rfl, rfl⟩

@[simp] theorem afterTrial_frame (P : Prims) (c : Config) (st : State σ) :
    (afterTrial P c st).user = st.user ∧ (afterTrial P c st).nfev = st.nfev ∧
    (afterTrial P c st).njev = st.njev := by
  simp [afterTrial]

end Frames

/-! ## The shape of one pass and induction over the loops -/

section Loops

variable {σ : Type}

/-- The four ways in which a pass through the inner loop ends. -/
theorem innerBody_cases (P : Prims) (F : FunctorType σ) (c : Config) (st : State σ) :
    ((evalTrial F (direction P st)).iflag < 0 ∧
      innerBody P F c st = .ret .UserAksed (evalTrial F (direction P st))) ∨
    (¬ (evalTrial F (direction P st)).iflag < 0 ∧
      ∃ s, terminationTest P c (afterTrial P c (evalTrial F (direction P st))) = some s ∧
        innerBody P F c st = .ret s (afterTrial P c (evalTrial F (direction P st)))) ∨
    (¬ (evalTrial F (direction P st)).iflag < 0 ∧
      terminationTest P c (afterTrial P c (evalTrial F (direction P st))) = none ∧
      (afterTrial P c (evalTrial F (direction P st))).ncfail = 2 ∧
      innerBody P F c st = .brk (afterTrial P c (evalTrial F (direction P st)))) ∨
    (¬ (evalTrial F (direction P st)).iflag < 0 ∧
      terminationTest P c (afterTrial P c (evalTrial F (direction P st))) = none ∧
      (afterTrial P c (evalTrial F (direction P st))).ncfail ≠ 2 ∧
      innerBody P F c st =
        .cont (broydenUpdate P c (afterTrial P c (evalTrial F (direction P st))))) := by
  unfold innerBody
  simp only []
  by_cases hf : (evalTrial F (direction P st)).iflag < 0
  · left
    exact ⟨hf, by rw [if_pos hf]⟩
  · right
    rw [if_neg hf]
    cases ht : terminationTest P c (afterTrial P c (evalTrial F (direction P st))) with
    | some s => left; exact ⟨hf, s, rfl, rfl⟩
    | none =>
      right
      by_cases hn : (afterTrial P c (evalTrial F (direction P st))).ncfail = 2
      · left; exact ⟨hf, rfl, hn, by simp [hn]⟩
      · right; exact ⟨hf, rfl, hn, by simp [hn]⟩

/-- The termination tests only produce the five statuses of lines 332-345. -/
theorem terminationTest_status (P : Prims) (c : Config) (st : State σ) (s : Status)
    (h : terminationTest P c st = some s) :
    s = .RelativeErrorTooSmall ∨ s = .TooManyFunctionEvaluation ∨ s = .TolTooSmall ∨
      s = .NotMakingProgressJacobian ∨ s = .NotMakingProgressIterations := by
  unfold terminationTest at h
  split_ifs at h <;> cases h <;> simp

/-- When no termination test fires, the budget is not exhausted. -/
theorem terminationTest_none (P : Prims) (c : Config) (st : State σ)
    (h : terminationTest P c st = none) : st.nfev < c.maxfev := by
  unfold terminationTest at h
  split_ifs at h with h1 h2
  exact not_le.1 h2

/-- Induction over the two loops: `Inv true` holds at the head of the outer loop, `Inv false` at
the head of the inner loop, and `Post` at every `return`. -/
theorem iterate_induct (P : Prims) (F : FunctorType σ) (jac : State σ → State σ) (c : Config)
    (Inv : Bool → State σ → Prop) (Post : Status × State σ → Prop)
    (hret : ∀ st, Inv true st → (jac st).iflag < 0 → Post (.UserAksed, jac st))
    (hjac : ∀ st, Inv true st → ¬ (jac st).iflag < 0 → Inv false (factorize P c (jac st)))
    (hbody : ∀ st, Inv false st →
      match innerBody P F c st with
      | .ret s st1 => Post (s, st1)
      | .brk st1 => Inv true st1
      | .cont st1 => Inv false st1) :
    ∀ (fuel : Nat) (outer : Bool) (st : State σ) (r : Status × State σ),
      Inv outer st → iterate P F jac c fuel outer st = some r → Post r := by
  intro fuel
  induction fuel with
  | zero => intro outer st r _ h; simp [iterate] at h
  | succ k ih =>
    intro outer st r hinv h
    rw [iterate] at h
    cases outer with
    | true =>
      simp only [if_true, true_and] at h
      by_cases hf : (jac st).iflag < 0
      · rw [if_pos hf] at h
        cases h
        exact hret st hinv hf
      · rw [if_neg hf] at h
        have hb := hbody _ (hjac st hinv hf)
        revert hb h
        cases innerBody P F c (factorize P c (jac st)) with
        | ret s st1 => intro h hb; cases h; exact hb
        | brk st1 => intro h hb; exact ih true st1 r hb h
        | cont st1 => intro h hb; exact ih false st1 r hb h
    | false =>
      simp only [Bool.false_eq_true, if_false, false_and] at h
      have hb := hbody _ hinv
      revert hb h
      cases innerBody P F c st with
      | ret s st1 => intro h hb; cases h; exact hb
      | brk st1 => intro h hb; exact ih true st1 r hb h
      | cont st1 => intro h hb; exact ih false st1 r hb h

/-- The loops terminate: when the Jacobian evaluation does not decrease `nfev`, a fuel of at least
one and at least `maxfev - nfev` is enough. -/
theorem iterate_isSome (P : Prims) (F : FunctorType σ) (jac : State σ → State σ) (c : Config)
    (hmono : ∀ st, st.nfev ≤ (jac st).nfev) :
    ∀ (fuel : Nat) (outer : Bool) (st : State σ),
      1 ≤ fuel → c.maxfev - st.nfev ≤ fuel → ∃ r, iterate P F jac c fuel outer st = some r := by
  intro fuel
  induction fuel with
  | zero => intro outer st h; omega
  | succ k ih =>
    intro outer st _ hk
    rw [iterate]
    by_cases hr : outer = true ∧ (if outer = true then jac st else st).iflag < 0
    · rw [if_pos hr]; exact ⟨_, rfl⟩
    · rw [if_neg hr]
      have hn : st.nfev ≤ (if outer = true then factorize P c (if outer = true then jac st else st)
          else (if outer = true then jac st else st)).nfev := by
        cases outer
        · simp
        · simpa using hmono st
      generalize (if outer = true then factorize P c (if outer = true then jac st else st)
          else (if outer = true then jac st else st)) = st0 at hn
      rcases innerBody_cases P F c st0 with ⟨_, e⟩ | ⟨_, s, _, e⟩ | ⟨_, ht, _, e⟩ | ⟨_, ht, _, e⟩
      · rw [e]; exact ⟨_, rfl⟩
      · rw [e]; exact ⟨_, rfl⟩
      · rw [e]
        have hlt := terminationTest_none P c _ ht
        simp at hlt
        apply ih
        · omega
        · simp; omega
      · rw [e]
        have hlt := terminationTest_none P c _ ht
        simp at hlt
        apply ih
        · omega
        · simp; omega

/-- More fuel does not change a result. -/
theorem iterate_mono (P : Prims) (F : FunctorType σ) (jac : State σ → State σ) (c : Config) :
    ∀ (fuel : Nat) (outer : Bool) (st : State σ) (r : Status × State σ) (k : Nat),
      iterate P F jac c fuel outer st = some r → iterate P F jac c (fuel + k) outer st = some r := by
  intro fuel
  induction fuel with
  | zero => intro outer st r k h; simp [iterate] at h
  | succ n ih =>
    intro outer st r k h
    rw [Nat.succ_add_eq_add_succ, Nat.add_succ]
    rw [iterate] at h ⊢
    cases outer with
    | true =>
      simp only [if_true, true_and] at h ⊢
      by_cases hf : (jac st).iflag < 0
      · rw [if_pos hf] at h ⊢; exact h
      · rw [if_neg hf] at h ⊢
        revert h
        cases innerBody P F c (factorize P c (jac st)) with
        | ret s st1 => exact id
        | brk st1 => intro h; exact ih true st1 r k h
        | cont st1 => intro h; exact ih false st1 r k h
    | false =>
      simp only [Bool.false_eq_true, if_false, false_and] at h ⊢
      revert h
      cases innerBody P F c st with
      | ret s st1 => exact id
      | brk st1 => intro h; exact ih true st1 r k h
      | cont st1 => intro h; exact ih false st1 r k h

end Loops

/-! ## Input validation -/

section Validation

variable {σ : Type}

/-- The test of lines 140-143 fires exactly when some `diag[j]`, `j < n`, is not positive. -/
theorem badDiag_iff (n : Nat) (diag : Vec) :
    badDiag n diag = true ↔ ∃ j, j < n ∧ vget diag j ≤ 0 := by
  simp [badDiag, List.any_eq_true]

/-- A call that fails the validation returns before anything else happens. -/
theorem solve_of_invalid (P : Prims) (F : FunctorType σ) (J : Junk) (fuel : Nat) (W : Workspace)
    (user : σ) (x diag : Vec) (mode maxfev : Int) (factor xtol : ℚ)
    (h : ¬ ValidInput x diag mode maxfev factor xtol) :
    solve P F J fuel W user x diag mode maxfev factor xtol =
      some (.RelativeErrorTooSmall, initState J W user x diag) := by
  unfold solve
  simp only []
  by_cases h1 : x.length ≤ 0 ∨ xtol < 0 ∨ maxfev ≤ 0 ∨ factor ≤ 0
  · rw [if_pos h1]
  · rw [if_neg h1]
    have h2 : mode = 2 ∧ badDiag x.length diag = true := by
      by_contra hc
      apply h
      simp only [not_or, not_le, not_lt] at h1
      refine ⟨h1.1, h1.2.1, h1.2.2.1, h1.2.2.2, ?_⟩
      intro hm j hj
      by_contra hd
      exact hc ⟨hm, (badDiag_iff _ _).2 ⟨j, hj, not_lt.1 hd⟩⟩
    rw [if_pos h2]

/-- A call that passes the validation evaluates `f` at the starting point and enters the loops. -/
theorem solve_of_valid (P : Prims) (F : FunctorType σ) (J : Junk) (fuel : Nat) (W : Workspace)
    (user : σ) (x diag : Vec) (mode maxfev : Int) (factor xtol : ℚ)
    (h : ValidInput x diag mode maxfev factor xtol) :
    solve P F J fuel W user x diag mode maxfev factor xtol =
      if (evalStart F (initState J W user x diag)).iflag < 0 then
        some (.UserAksed, evalStart F (initState J W user x diag))
      else iterate P F (jacobianAnalytic F)
        { n := x.length, mode := mode, maxfev := maxfev, factor := factor, xtol := xtol } fuel
        true (initCounters P (evalStart F (initState J W user x diag))) := by
  unfold solve
  simp only []
  obtain ⟨h1, h2, h3, h4, h5⟩ := h
  have e1 : ¬ (x.length ≤ 0 ∨ xtol < 0 ∨ maxfev ≤ 0 ∨ factor ≤ 0) := by
    simp only [not_or, not_le, not_lt]
    exact ⟨h1, h2, h3, h4⟩
  have e2 : ¬ (mode = 2 ∧ badDiag x.length diag = true) := by
    rintro ⟨hm, hb⟩
    obtain ⟨j, hj, hd⟩ := (badDiag_iff _ _).1 hb
    exact absurd (h5 hm j hj) (not_lt.2 hd)
  rw [if_neg e1, if_neg e2]

/-- C1. Full-form analytic `solve`: whenever `n <= 0`, or `xtol < 0`, or `maxfev <= 0`, or
`factor <= 0`, or `mode = 2` and some `diag[j] <= 0`, the call returns `RelativeErrorTooSmall`
with `nfev = 0` and `njev = 0`, the log of callback invocations is empty (neither `f` nor `df`
has been invoked, and the user state is the initial one), and `x` is unchanged. -/
theorem solve_rejects_bad_input (P : Prims) (F : FunctorType σ) (J : Junk) (fuel : Nat)
    (W : Workspace) (user : σ) (x diag : Vec) (mode maxfev : Int) (factor xtol : ℚ)
    (h : x.length ≤ 0 ∨ xtol < 0 ∨ maxfev ≤ 0 ∨ factor ≤ 0 ∨
      (mode = 2 ∧ ∃ j, j < x.length ∧ vget diag j ≤ 0)) :
    ∃ st, solve P (logged F) J fuel W (user, []) x diag mode maxfev factor xtol =
        some (.RelativeErrorTooSmall, st) ∧
      st.nfev = 0 ∧ st.njev = 0 ∧ st.user = (user, []) ∧ st.x = x := by
  refine ⟨initState J W (user, []) x diag, ?_, rfl, rfl, rfl, rfl⟩
  apply solve_of_invalid
  rintro ⟨h1, h2, h3, h4, h5⟩
  rcases h with h | h | h | h | ⟨hm, j, hj, hd⟩
  · omega
  · exact absurd h2 (not_le.2 h)
  · omega
  · exact absurd h4 (not_lt.2 h)
  · exact absurd (h5 hm j hj) (not_lt.2 hd)

/-- C1, at a concrete input: one unknown, `mode = 2` and `diag[0] = 0`. -/
theorem solve_rejects_bad_input_witness :
    (([5] : Vec).length ≤ 0 ∨ (0 : ℚ) < 0 ∨ (10 : Int) ≤ 0 ∨ (100 : ℚ) ≤ 0 ∨
      ((2 : Int) = 2 ∧ ∃ j, j < ([5] : Vec).length ∧ vget [0] j ≤ 0)) ∧
    ∃ st, solve prims1 (logged (pureFunctor (fun x => [vget x 0 - 3]) (fun _ => 0) (fun _ => [1])))
        junk0 4 emptyWorkspace ((), []) [5] [0] 2 10 100 0 = some (.RelativeErrorTooSmall, st) ∧
      st.nfev = 0 ∧ st.njev = 0 ∧ st.user = ((), []) ∧ st.x = [5] :=
  ⟨Or.inr (Or.inr (Or.inr (Or.inr ⟨rfl, 0, by decide, by decide!⟩))),
   solve_rejects_bad_input prims1 _ junk0 4 emptyWorkspace () [5] [0] 2 10 100 0
     (Or.inr (Or.inr (Or.inr (Or.inr ⟨rfl, 0, by decide, by decide!⟩))))⟩

end Validation


/-! ## The convenience forms -/

section Convenience

variable {σ : Type}

/-- The loops return neither `ImproperInputParameters` nor `Running`. -/
theorem iterate_status (P : Prims) (F : FunctorType σ) (jac : State σ → State σ) (c : Config)
    (fuel : Nat) (outer : Bool) (st : State σ) (r : Status × State σ)
    (h : iterate P F jac c fuel outer st = some r) :
    r.1 ≠ .ImproperInputParameters ∧ r.1 ≠ .Running := by
  refine iterate_induct P F jac c (fun _ _ => True)
    (fun r => r.1 ≠ .ImproperInputParameters ∧ r.1 ≠ .Running) ?_ ?_ ?_ fuel outer st r trivial h
  · intro st _ _; simp
  · intro st _ _; trivial
  · intro st _
    rcases innerBody_cases P F c st with ⟨_, e⟩ | ⟨_, s, hs, e⟩ | ⟨_, _, _, e⟩ | ⟨_, _, _, e⟩
    · rw [e]; simp
    · rw [e]
      rcases terminationTest_status P c _ s hs with h | h | h | h | h <;> simp [h]
    · rw [e]; trivial
    · rw [e]; trivial

/-- The full analytic form returns neither `ImproperInputParameters` nor `Running`. -/
theorem solve_status (P : Prims) (F : FunctorType σ) (J : Junk) (fuel : Nat) (W : Workspace)
    (user : σ) (x diag : Vec) (mode maxfev : Int) (factor xtol : ℚ) (r : Status × State σ)
    (h : solve P F J fuel W user x diag mode maxfev factor xtol = some r) :
    r.1 ≠ .ImproperInputParameters ∧ r.1 ≠ .Running := by
  unfold solve at h
  simp only [] at h
  split_ifs at h
  · cases h; simp
  · cases h; simp
  · cases h; simp
  · exact iterate_status _ _ _ _ _ _ _ _ h

/-- The full numeric form returns neither `ImproperInputParameters` nor `Running`. -/
theorem solveNumericalDiff_status (P : Prims) (F : FunctorType σ) (fd : Fdjac1 σ) (J : Junk)
    (fuel : Nat) (W : Workspace) (user : σ) (x diag : Vec) (mode ml mu maxfev : Int)
    (factor xtol epsfcn : ℚ) (r : Status × State σ)
    (h : solveNumericalDiff P F fd J fuel W user x diag mode ml mu maxfev factor xtol epsfcn =
      some r) :
    r.1 ≠ .ImproperInputParameters ∧ r.1 ≠ .Running := by
  unfold solveNumericalDiff at h
  simp only [] at h
  split_ifs at h <;> first | exact iterate_status _ _ _ _ _ _ _ _ h | (cases h; simp)

/-- C2. Both convenience forms `solve(x, tol)` and `solveNumericalDiff(x, tol)` return
`ImproperInputParameters` if and only if `n <= 0` or `tol < 0` (so for every other input the
returned status is never `ImproperInputParameters`), and in that case the log of callback
invocations is empty, the user state, `x` and the members of the solver being untouched. -/
theorem convenience_improper_iff (P : Prims) (F : FunctorType σ) (fd : Fdjac1 σ)
    (fdl : Fdjac1 (σ × List Call)) (J : Junk) (fuel : Nat) (W : Workspace) (user : σ) (x : Vec)
    (tol : ℚ) :
    (((solveTol P F J fuel W user x tol).map Outcome.status = some .ImproperInputParameters ↔
        (x.length ≤ 0 ∨ tol < 0)) ∧
      ((solveNumericalDiffTol P F fd J fuel W user x tol).map Outcome.status =
        some .ImproperInputParameters ↔ (x.length ≤ 0 ∨ tol < 0))) ∧
    ((x.length ≤ 0 ∨ tol < 0) →
      solveTol P (logged F) J fuel W (user, []) x tol =
        some { status := .ImproperInputParameters, user := (user, []), x := x, members := W } ∧
      solveNumericalDiffTol P (logged F) fdl J fuel W (user, []) x tol =
        some { status := .ImproperInputParameters, user := (user, []), x := x, members := W }) := by
  refine ⟨⟨⟨?_, ?_⟩, ⟨?_, ?_⟩⟩, ?_⟩
  · intro h
    by_contra hv
    unfold solveTol at h
    simp only [] at h
    rw [if_neg hv] at h
    cases hr : solve P F J fuel W user x (List.replicate x.length 1) 2 ((x.length + 1) * 100) 100
        tol with
    | none => rw [hr] at h; simp at h
    | some r =>
      rw [hr] at h
      simp [outcome] at h
      exact (solve_status _ _ _ _ _ _ _ _ _ _ _ _ r hr).1 h
  · intro hv
    unfold solveTol
    simp only []
    rw [if_pos hv]
    rfl
  · intro h
    by_contra hv
    unfold solveNumericalDiffTol at h
    simp only [] at h
    rw [if_neg hv] at h
    cases hr : solveNumericalDiff P F fd J fuel W user x (List.replicate x.length 1) 2 (-1) (-1)
        ((x.length + 1) * 200) 100 tol 0 with
    | none => rw [hr] at h; simp at h
    | some r =>
      rw [hr] at h
      simp [outcome] at h
      exact (solveNumericalDiff_status _ _ _ _ _ _ _ _ _ _ _ _ _ _ _ _ r hr).1 h
  · intro hv
    unfold solveNumericalDiffTol
    simp only []
    rw [if_pos hv]
    rfl
  · intro hv
    unfold solveTol solveNumericalDiffTol
    simp only []
    rw [if_pos hv, if_pos hv]
    exact ⟨rfl, rfl⟩

end Convenience


/-! ## Budget and termination: shared facts -/

section Budget

variable {σ : Type}

/-- Every pass through the inner loop adds exactly one to `nfev`, however it ends. -/
theorem innerBody_nfev (P : Prims) (F : FunctorType σ) (c : Config) (st : State σ) :
    (innerBody P F c st).state.nfev = st.nfev + 1 := by
  rcases innerBody_cases P F c st with ⟨_, e⟩ | ⟨_, s, _, e⟩ | ⟨_, _, _, e⟩ | ⟨_, _, _, e⟩ <;>
    rw [e] <;> simp [Flow.state]

/-- The bound `max(1, maxfev - 1)` as a number of passes. -/
theorem fuelBound_spec (maxfev : Int) : 1 ≤ fuelBound maxfev ∧ maxfev - 1 ≤ fuelBound maxfev := by
  unfold fuelBound
  constructor
  · have : (1 : Int) ≤ max 1 (maxfev - 1) := le_max_left _ _
    omega
  · have : maxfev - 1 ≤ max 1 (maxfev - 1) := le_max_right _ _
    omega

/-- A bound on `nfev` that holds at the heads of both loops is kept until the return. -/
theorem iterate_nfev_ge (P : Prims) (F : FunctorType σ) (jac : State σ → State σ) (c : Config)
    (hmono : ∀ st, st.nfev ≤ (jac st).nfev) (fuel : Nat) (outer : Bool) (st : State σ)
    (r : Status × State σ) (h1 : 1 ≤ st.nfev) (h : iterate P F jac c fuel outer st = some r) :
    1 ≤ r.2.nfev := by
  refine iterate_induct P F jac c (fun _ st => 1 ≤ st.nfev) (fun r => 1 ≤ r.2.nfev) ?_ ?_ ?_
    fuel outer st r h1 h
  · intro st hi _
    exact le_trans hi (hmono st)
  · intro st hi _
    simpa using le_trans hi (hmono st)
  · intro st hi
    have hn := innerBody_nfev P F c st
    revert hn
    cases innerBody P F c st <;> simp only [Flow.state] <;> intro hn <;> omega

end Budget

/-! ## The bandwidths of the numeric form -/

section Bandwidth

variable {σ : Type}

/-- C3, as stated, fails: with `n = 1`, `xtol = 0`, `maxfev = 2`, `factor = 100`, `mode = 1` and
both bandwidths `-1`, the numeric full form does not reject the input; it evaluates `F` three
times and returns `TooManyFunctionEvaluation`. -/
theorem negative_bandwidth_not_rejected :
    (0 < ([1] : Vec).length ∧ (0 : ℚ) ≤ 0 ∧ (0 : Int) < 2 ∧ (0 : ℚ) < 100 ∧ (-1 : Int) < 0) ∧
    (solveNumericalDiff prims1
        (pureFunctor (fun x => [vget x 0 * vget x 0 - 2]) (fun _ => 0) (fun x => [2 * vget x 0]))
        fdjac1One junk0 4 emptyWorkspace () [1] [1] 1 (-1) (-1) 2 100 0 0).map
      (fun r => (r.1, r.2.nfev)) = some (.TooManyFunctionEvaluation, 3) := by
  decide!

/-- Arithmetic on `int` is exact on results in the range of the type. -/
theorem wrapInt_of_range (a : Int) (h1 : -2147483648 ≤ a) (h2 : a < 2147483648) :
    wrapInt a = a := by
  unfold wrapInt
  omega

/-- The loops of a validated call return, with `nfev >= 1`, when the Jacobian evaluation does not
decrease `nfev` on the states in which it is reached: `1 <= nfev < max(2, maxfev)`. -/
theorem iterate_returns_bounded (P : Prims) (F : FunctorType σ) (jac : State σ → State σ)
    (c : Config)
    (hmono : ∀ st, 1 ≤ st.nfev → st.nfev < max 2 c.maxfev → st.nfev ≤ (jac st).nfev) :
    ∀ (fuel : Nat) (outer : Bool) (st : State σ),
      1 ≤ fuel → c.maxfev - st.nfev ≤ fuel → 1 ≤ st.nfev →
      (outer = true → st.nfev < max 2 c.maxfev) →
      ∃ r, iterate P F jac c fuel outer st = some r ∧ 1 ≤ r.2.nfev := by
  intro fuel
  induction fuel with
  | zero => intro outer st h; omega
  | succ k ih =>
    intro outer st _ hk h1 hb
    rw [iterate]
    have hj : outer = true → st.nfev ≤ (jac st).nfev := fun ho => hmono st h1 (hb ho)
    by_cases hr : outer = true ∧ (if outer = true then jac st else st).iflag < 0
    · rw [if_pos hr]
      refine ⟨_, rfl, ?_⟩
      have := hj hr.1
      simp only [hr.1, if_true]
      omega
    · rw [if_neg hr]
      have hn : st.nfev ≤ (if outer = true then factorize P c (if outer = true then jac st else st)
          else (if outer = true then jac st else st)).nfev := by
        cases outer
        · simp
        · simpa using hj rfl
      generalize (if outer = true then factorize P c (if outer = true then jac st else st)
          else (if outer = true then jac st else st)) = st0 at hn
      have e1 : (evalTrial F (direction P st0)).nfev = st0.nfev + 1 := by simp
      have e2 : (afterTrial P c (evalTrial F (direction P st0))).nfev = st0.nfev + 1 := by simp
      rcases innerBody_cases P F c st0 with ⟨_, e⟩ | ⟨_, s, _, e⟩ | ⟨_, ht, _, e⟩ | ⟨_, ht, _, e⟩
      · rw [e]
        exact ⟨_, rfl, by simp only [e1]; omega⟩
      · rw [e]
        exact ⟨_, rfl, by simp only [e2]; omega⟩
      · rw [e]
        have hlt := terminationTest_none P c _ ht
        rw [e2] at hlt
        have hmax : c.maxfev ≤ max 2 c.maxfev := le_max_right _ _
        apply ih
        · omega
        · rw [e2]; omega
        · rw [e2]; omega
        · intro _
          rw [e2]
          omega
      · rw [e]
        have hlt := terminationTest_none P c _ ht
        rw [e2] at hlt
        have e3 : (broydenUpdate P c (afterTrial P c (evalTrial F (direction P st0)))).nfev =
            st0.nfev + 1 := by simp
        apply ih
        · omega
        · rw [e3]; omega
        · rw [e3]; omega
        · intro h
          cases h

/-- The arithmetic on `int` of lines 481 and 500 when the sum of the bandwidths overflows: for
one unknown with `nb_of_subdiagonals = -1` (replaced by 0) and
`nb_of_superdiagonals = 2147483647` the sum wraps, `msum = -2147483648`, and the first Jacobian
evaluation takes `nfev` from 1 to `-2147483647`, whatever `ei_fdjac1` does. -/
theorem bandwidth_sum_overflow (F : FunctorType σ) (fd : Fdjac1 σ) (epsfcn : ℚ) (st : State σ)
    (h : st.nfev = 1) :
    min (wrapInt (wrapInt (0 + 2147483647) + 1)) (1 : Int) = -2147483648 ∧
    (jacobianNumeric F fd 0 2147483647 epsfcn
      (min (wrapInt (wrapInt (0 + 2147483647) + 1)) (1 : Int)) st).nfev = -2147483647 := by
  have e : min (wrapInt (wrapInt (0 + 2147483647) + 1)) (1 : Int) = -2147483648 := by decide
  refine ⟨e, ?_⟩
  simp only [jacobianNumeric_frame]
  rw [e, h]
  decide

/-- C3, amended. For the full-form `solveNumericalDiff` with `n > 0`, `xtol >= 0`, `maxfev > 0`,
`factor > 0` and a valid `diag`: a negative `nb_of_subdiagonals` or `nb_of_superdiagonals` is
replaced by `n - 1` before the input check, so the check passes whatever bandwidths are passed:
the call is the call with `n - 1` in place of each negative bandwidth, and it evaluates `F` at
the starting point and enters the loops unless that evaluation is aborted. When moreover the
sums `nb_of_subdiagonals + nb_of_superdiagonals + 1` (after the replacement) and `maxfev + n` do
not overflow the type `int`, the call returns and `F` has been evaluated (`nfev >= 1`). -/
theorem solveNumericalDiff_bandwidth_default (P : Prims) (F : FunctorType σ) (fd : Fdjac1 σ)
    (J : Junk) (W : Workspace) (user : σ) (x diag : Vec) (mode ml mu maxfev : Int)
    (factor xtol epsfcn : ℚ) (k : Nat) (hv : ValidInput x diag mode maxfev factor xtol) :
    (∀ fuel, solveNumericalDiff P F fd J fuel W user x diag mode ml mu maxfev factor xtol
        epsfcn =
      solveNumericalDiff P F fd J fuel W user x diag mode
        (if ml < 0 then (x.length : Int) - 1 else ml) (if mu < 0 then (x.length : Int) - 1 else mu)
        maxfev factor xtol epsfcn) ∧
    (∀ fuel, solveNumericalDiff P F fd J fuel W user x diag mode ml mu maxfev factor xtol
        epsfcn =
      if (evalStart F (initState J W user x diag)).iflag < 0 then
        some (.UserAksed, evalStart F (initState J W user x diag))
      else iterate P F
        (jacobianNumeric F fd (if ml < 0 then (x.length : Int) - 1 else ml)
          (if mu < 0 then (x.length : Int) - 1 else mu) epsfcn
          (min (wrapInt (wrapInt ((if ml < 0 then (x.length : Int) - 1 else ml) +
            (if mu < 0 then (x.length : Int) - 1 else mu)) + 1)) (x.length : Int)))
        { n := x.length, mode := mode, maxfev := maxfev, factor := factor, xtol := xtol } fuel
        true (initCounters P (evalStart F (initState J W user x diag)))) ∧
    ((if ml < 0 then (x.length : Int) - 1 else ml) +
        (if mu < 0 then (x.length : Int) - 1 else mu) + 1 < 2147483648 →
      maxfev + (x.length : Int) < 2147483648 →
      ∃ r, solveNumericalDiff P F fd J (fuelBound maxfev + k) W user x diag mode ml mu maxfev
        factor xtol epsfcn = some r ∧ 1 ≤ r.2.nfev) := by
  obtain ⟨h1, h2, h3, h4, h5⟩ := hv
  have hn : (0 : Int) ≤ (x.length : Int) - 1 := by omega
  have ha : ¬ (if ml < 0 then (x.length : Int) - 1 else ml) < 0 := by split <;> omega
  have hb : ¬ (if mu < 0 then (x.length : Int) - 1 else mu) < 0 := by split <;> omega
  have hcall : ∀ fuel, solveNumericalDiff P F fd J fuel W user x diag mode ml mu maxfev factor
        xtol epsfcn =
      if (evalStart F (initState J W user x diag)).iflag < 0 then
        some (.UserAksed, evalStart F (initState J W user x diag))
      else iterate P F
        (jacobianNumeric F fd (if ml < 0 then (x.length : Int) - 1 else ml)
          (if mu < 0 then (x.length : Int) - 1 else mu) epsfcn
          (min (wrapInt (wrapInt ((if ml < 0 then (x.length : Int) - 1 else ml) +
            (if mu < 0 then (x.length : Int) - 1 else mu)) + 1)) (x.length : Int)))
        { n := x.length, mode := mode, maxfev := maxfev, factor := factor, xtol := xtol } fuel
        true (initCounters P (evalStart F (initState J W user x diag))) := by
    intro fuel
    unfold solveNumericalDiff
    simp only []
    generalize (if ml < 0 then (x.length : Int) - 1 else ml) = a at ha
    generalize (if mu < 0 then (x.length : Int) - 1 else mu) = b at hb
    have e1 : ¬ (x.length ≤ 0 ∨ xtol < 0 ∨ maxfev ≤ 0 ∨ a < 0 ∨ b < 0 ∨ factor ≤ 0) := by
      simp only [not_or, not_le]
      exact ⟨h1, not_lt.2 h2, h3, ha, hb, h4⟩
    have e2 : ¬ (mode = 2 ∧ badDiag x.length diag = true) := by
      rintro ⟨hm, hd⟩
      obtain ⟨j, hj, hd⟩ := (badDiag_iff _ _).1 hd
      exact absurd (h5 hm j hj) (not_lt.2 hd)
    rw [if_neg e1, if_neg e2]
  refine ⟨?_, hcall, ?_⟩
  · intro fuel
    unfold solveNumericalDiff
    simp only [if_neg ha, if_neg hb]
  · intro hband hbudget
    rw [hcall]
    generalize (if ml < 0 then (x.length : Int) - 1 else ml) = a at ha hband
    generalize (if mu < 0 then (x.length : Int) - 1 else mu) = b at hb hband
    by_cases hf : (evalStart F (initState J W user x diag)).iflag < 0
    · rw [if_pos hf]
      exact ⟨_, rfl, by simp [evalStart]⟩
    · rw [if_neg hf]
      have w1 : wrapInt (a + b) = a + b := wrapInt_of_range _ (by omega) (by omega)
      have w2 : wrapInt (a + b + 1) = a + b + 1 := wrapInt_of_range _ (by omega) (by omega)
      have m0 : (1 : Int) ≤ min (wrapInt (wrapInt (a + b) + 1)) (x.length : Int) := by
        rw [w1, w2]
        exact le_min (by omega) (by omega)
      have m1 : min (wrapInt (wrapInt (a + b) + 1)) (x.length : Int) ≤ (x.length : Int) :=
        min_le_right _ _
      generalize min (wrapInt (wrapInt (a + b) + 1)) (x.length : Int) = msum at m0 m1
      have hm : ∀ st : State σ, 1 ≤ st.nfev → st.nfev < max 2 maxfev →
          st.nfev ≤ (jacobianNumeric F fd a b epsfcn msum st).nfev := by
        intro st s1 s2
        have s3 : st.nfev ≤ maxfev := by
          rcases max_cases (2 : Int) maxfev with ⟨e, _⟩ | ⟨e, _⟩ <;> rw [e] at s2 <;> omega
        simp only [jacobianNumeric_frame]
        rw [wrapInt_of_range _ (by omega) (by omega)]
        omega
      exact iterate_returns_bounded P F _
        { n := x.length, mode := mode, maxfev := maxfev, factor := factor, xtol := xtol } hm
        (fuelBound maxfev + k) true (initCounters P (evalStart F (initState J W user x diag)))
        (by have := (fuelBound_spec maxfev).1; omega)
        (by have := (fuelBound_spec maxfev).2; simp [initCounters, evalStart]; omega)
        (by simp [initCounters, evalStart])
        (fun _ => by
          have : (initCounters P (evalStart F (initState J W user x diag))).nfev = 1 := rfl
          rw [this]
          exact lt_of_lt_of_le (by decide) (le_max_left _ _))

/-- C3, amended, at a concrete input: both bandwidths `-1`, one unknown. -/
theorem solveNumericalDiff_bandwidth_default_witness :
    ValidInput [1] [1] 1 2 100 0 ∧
    ((if (-1 : Int) < 0 then (([1] : Vec).length : Int) - 1 else -1) +
        (if (-1 : Int) < 0 then (([1] : Vec).length : Int) - 1 else -1) + 1 < 2147483648 ∧
      (2 : Int) + (([1] : Vec).length : Int) < 2147483648) ∧
    ∃ r, solveNumericalDiff prims1
        (pureFunctor (fun x => [vget x 0 * vget x 0 - 2]) (fun _ => 0) (fun x => [2 * vget x 0]))
        fdjac1One junk0 (fuelBound 2 + 3) emptyWorkspace () [1] [1] 1 (-1) (-1) 2 100 0 0 =
          some r ∧ 1 ≤ r.2.nfev :=
  ⟨⟨by decide, by decide!, by decide, by decide!, by decide⟩, ⟨by decide, by decide⟩,
   (solveNumericalDiff_bandwidth_default prims1 _ fdjac1One junk0 emptyWorkspace () [1] [1] 1
      (-1) (-1) 2 100 0 0 3 ⟨by decide, by decide!, by decide, by decide!, by decide⟩).2.2
      (by decide) (by decide)⟩

end Bandwidth


/-! ## The options of the convenience forms -/

section Defaults

variable {σ : Type}

/-- C4, as stated, fails: for `F(x) = 2 x - 1000`, `x = (0)` and `tol = 1/2` the convenience form
`solve(x, tol)` leaves `qtf = (400)`, while the full form with `xtol = tol`, `maxfev = 100 (n+1)`,
`factor = 100` and `mode = 1` leaves `qtf = (300)`. -/
theorem solveTol_is_not_mode_one :
    (solveTol prims1 (pureFunctor (fun x => [2 * vget x 0 - 1000]) (fun _ => 0) (fun _ => [2]))
        junk0 200 emptyWorkspace () [0] (1 / 2)).map (fun o => o.members.qtf) = some [400] ∧
    ((solve prims1 (pureFunctor (fun x => [2 * vget x 0 - 1000]) (fun _ => 0) (fun _ => [2]))
        junk0 200 emptyWorkspace () [0] [1] 1 ((1 + 1) * 100) 100 (1 / 2)).map outcome).map
      (fun o => o.members.qtf) = some [300] := by
  decide!

/-- C4, amended. For every `x` with `n > 0` and `tol >= 0`, the convenience form `solve(x, tol)`
produces exactly the result (status, `x`, `fvec`, `fjac`, `R`, `qtf`) of the full form run with
`xtol = tol`, `maxfev = 100*(n+1)`, `factor = 100` and `mode = 2` with `diag = (1, ..., 1)` (the
user-supplied scaling, here the identity); likewise `solveNumericalDiff(x, tol)` equals the full
numeric form with `maxfev = 200*(n+1)`, `factor = 100`, `mode = 2` with `diag = (1, ..., 1)`,
bandwidths `n-1` and `epsfcn = 0`. -/
theorem convenience_defaults (P : Prims) (F : FunctorType σ) (fd : Fdjac1 σ) (J : Junk)
    (fuel : Nat) (W : Workspace) (user : σ) (x : Vec) (tol : ℚ) (hn : 0 < x.length)
    (htol : 0 ≤ tol) :
    solveTol P F J fuel W user x tol =
      (solve P F J fuel W user x (List.replicate x.length 1) 2 (100 * ((x.length : Int) + 1)) 100
        tol).map outcome ∧
    solveNumericalDiffTol P F fd J fuel W user x tol =
      (solveNumericalDiff P F fd J fuel W user x (List.replicate x.length 1) 2
        ((x.length : Int) - 1) ((x.length : Int) - 1) (200 * ((x.length : Int) + 1)) 100 tol
        0).map outcome := by
  have hv : ¬ (x.length ≤ 0 ∨ tol < 0) := by
    simp only [not_or, not_le, not_lt]
    exact ⟨hn, htol⟩
  have ha : ¬ ((x.length : Int) - 1 < 0) := by omega
  constructor
  · unfold solveTol
    simp only []
    rw [if_neg hv, mul_comm]
  · unfold solveNumericalDiffTol
    simp only []
    rw [if_neg hv, mul_comm]
    unfold solveNumericalDiff
    simp only [if_neg ha, show ((-1 : Int) < 0) from by decide, if_true]

/-- C4, amended, at a concrete input. -/
theorem convenience_defaults_witness :
    (0 < ([0] : Vec).length ∧ (0 : ℚ) ≤ 1 / 2) ∧
    solveTol prims1 (pureFunctor (fun x => [2 * vget x 0 - 1000]) (fun _ => 0) (fun _ => [2]))
        junk0 200 emptyWorkspace () [0] (1 / 2) =
      (solve prims1 (pureFunctor (fun x => [2 * vget x 0 - 1000]) (fun _ => 0) (fun _ => [2]))
        junk0 200 emptyWorkspace () [0] (List.replicate ([0] : Vec).length 1) 2
        (100 * ((([0] : Vec).length : Int) + 1)) 100 (1 / 2)).map outcome :=
  ⟨⟨by decide, by decide!⟩,
   (convenience_defaults prims1 _ fdjac1One junk0 200 emptyWorkspace () [0] (1 / 2) (by decide)
      (by decide!)).1⟩

end Defaults


/-! ## Reasoning about a whole call of the full analytic form -/

section WholeCall

variable {σ : Type}

/-- Induction over a call of the full analytic form: `Post` holds at the three kinds of `return`
before the loops and, through `iterate_induct`, at every `return` inside them. -/
theorem solve_induct (P : Prims) (F : FunctorType σ) (J : Junk) (W : Workspace) (user : σ)
    (x diag : Vec) (mode maxfev : Int) (factor xtol : ℚ)
    (Inv : Bool → State σ → Prop) (Post : Status × State σ → Prop)
    (hinvalid : ¬ ValidInput x diag mode maxfev factor xtol →
      Post (.RelativeErrorTooSmall, initState J W user x diag))
    (habort : ValidInput x diag mode maxfev factor xtol →
      (evalStart F (initState J W user x diag)).iflag < 0 →
      Post (.UserAksed, evalStart F (initState J W user x diag)))
    (hstart : ValidInput x diag mode maxfev factor xtol →
      ¬ (evalStart F (initState J W user x diag)).iflag < 0 →
      Inv true (initCounters P (evalStart F (initState J W user x diag))))
    (hret : ∀ st, Inv true st → (jacobianAnalytic F st).iflag < 0 →
      Post (.UserAksed, jacobianAnalytic F st))
    (hjac : ∀ st, Inv true st → ¬ (jacobianAnalytic F st).iflag < 0 →
      Inv false (factorize P
        { n := x.length, mode := mode, maxfev := maxfev, factor := factor, xtol := xtol }
        (jacobianAnalytic F st)))
    (hbody : ∀ st, Inv false st →
      match innerBody P F
        { n := x.length, mode := mode, maxfev := maxfev, factor := factor, xtol := xtol } st with
      | .ret s st1 => Post (s, st1)
      | .brk st1 => Inv true st1
      | .cont st1 => Inv false st1)
    (fuel : Nat) (r : Status × State σ)
    (h : solve P F J fuel W user x diag mode maxfev factor xtol = some r) : Post r := by
  by_cases hv : ValidInput x diag mode maxfev factor xtol
  · rw [solve_of_valid P F J fuel W user x diag mode maxfev factor xtol hv] at h
    by_cases hf : (evalStart F (initState J W user x diag)).iflag < 0
    · rw [if_pos hf] at h
      cases h
      exact habort hv hf
    · rw [if_neg hf] at h
      exact iterate_induct P F _ _ Inv Post hret hjac hbody fuel true _ r (hstart hv hf) h
  · rw [solve_of_invalid P F J fuel W user x diag mode maxfev factor xtol hv] at h
    cases h
    exact hinvalid hv

/-- A call of the full analytic form returns: `max(1, maxfev - 1)` passes through the inner loop
are always enough. -/
theorem solve_returns (P : Prims) (F : FunctorType σ) (J : Junk) (W : Workspace) (user : σ)
    (x diag : Vec) (mode maxfev : Int) (factor xtol : ℚ) (k : Nat) :
    ∃ r, solve P F J (fuelBound maxfev + k) W user x diag mode maxfev factor xtol = some r := by
  by_cases hv : ValidInput x diag mode maxfev factor xtol
  · rw [solve_of_valid P F J _ W user x diag mode maxfev factor xtol hv]
    by_cases hf : (evalStart F (initState J W user x diag)).iflag < 0
    · rw [if_pos hf]; exact ⟨_, rfl⟩
    · rw [if_neg hf]
      apply iterate_isSome
      · intro st; simp
      · have := (fuelBound_spec maxfev).1; omega
      · have := (fuelBound_spec maxfev).2
        simp [initCounters, evalStart]
        omega
  · rw [solve_of_invalid P F J _ W user x diag mode maxfev factor xtol hv]
    exact ⟨_, rfl⟩

/-- Fuel beyond `max(1, maxfev - 1)` is not used. -/
theorem solve_fuel (P : Prims) (F : FunctorType σ) (J : Junk) (W : Workspace) (user : σ)
    (x diag : Vec) (mode maxfev : Int) (factor xtol : ℚ) (k : Nat) :
    solve P F J (fuelBound maxfev + k) W user x diag mode maxfev factor xtol =
      solve P F J (fuelBound maxfev) W user x diag mode maxfev factor xtol := by
  obtain ⟨r, hr⟩ := solve_returns P F J W user x diag mode maxfev factor xtol 0
  rw [Nat.add_zero] at hr
  rw [hr]
  by_cases hv : ValidInput x diag mode maxfev factor xtol
  · rw [solve_of_valid P F J _ W user x diag mode maxfev factor xtol hv] at hr ⊢
    by_cases hf : (evalStart F (initState J W user x diag)).iflag < 0
    · rw [if_pos hf] at hr ⊢; exact hr
    · rw [if_neg hf] at hr ⊢
      exact iterate_mono P F _ _ _ _ _ r k hr
  · rw [solve_of_invalid P F J _ W user x diag mode maxfev factor xtol hv] at hr ⊢
    exact hr

end WholeCall

/-! ## The log of callback invocations -/

section Log

variable {σ : Type}

/-- An entry that is followed by another one does not come last. -/
theorem mem_of_append_cons_eq (e e' : Call) :
    ∀ (pre post pre' : List Call), pre ++ e :: post = pre' ++ [e'] → post = [] ∨ e ∈ pre' := by
  intro pre
  induction pre with
  | nil =>
    intro post pre' h
    cases pre' with
    | nil => left; simpa using (List.cons.inj h).2
    | cons a t => right; simp at h; simp [h.1]
  | cons p ps ih =>
    intro post pre' h
    cases pre' with
    | nil => simp at h
    | cons a t =>
      simp at h
      rcases ih post t h.2 with h1 | h1
      · left; exact h1
      · right; simp [h1]

/-- The count of `f` invocations after one more entry. -/
theorem countF_append (log : List Call) (e : Call) :
    countF (log ++ [e]) = countF log + (if e.isF then 1 else 0) := by
  unfold countF
  cases h : e.isF <;> simp [List.filter_append, h]

/-- The count of `df` invocations after one more entry. -/
theorem countDf_append (log : List Call) (e : Call) :
    countDf (log ++ [e]) = countDf log + (if e.isF then 0 else 1) := by
  unfold countDf
  cases h : e.isF <;> simp [List.filter_append, h]

/-- What holds of the log at every `return` of the full analytic form run on a logged functor:
the counters agree with the log, and either no flag is negative, or the status is `UserAksed`
and the only negative flag is that of the last invocation. -/
theorem solve_log (P : Prims) (F : FunctorType σ) (J : Junk) (W : Workspace) (user : σ)
    (x diag : Vec) (mode maxfev : Int) (factor xtol : ℚ) (fuel : Nat)
    (r : Status × State (σ × List Call))
    (h : solve P (logged F) J fuel W (user, []) x diag mode maxfev factor xtol = some r) :
    r.2.nfev = countF r.2.user.2 ∧ r.2.njev = countDf r.2.user.2 ∧
    ((∀ e ∈ r.2.user.2, 0 ≤ e.flag) ∨
      (r.1 = .UserAksed ∧ ∃ pre e, r.2.user.2 = pre ++ [e] ∧ e.flag < 0 ∧
        ∀ a ∈ pre, 0 ≤ a.flag)) := by
  refine solve_induct P (logged F) J W (user, []) x diag mode maxfev factor xtol
    (fun _ st => st.nfev = countF st.user.2 ∧ st.njev = countDf st.user.2 ∧
      ∀ e ∈ st.user.2, 0 ≤ e.flag)
    (fun r => r.2.nfev = countF r.2.user.2 ∧ r.2.njev = countDf r.2.user.2 ∧
      ((∀ e ∈ r.2.user.2, 0 ≤ e.flag) ∨
        (r.1 = .UserAksed ∧ ∃ pre e, r.2.user.2 = pre ++ [e] ∧ e.flag < 0 ∧
          ∀ a ∈ pre, 0 ≤ a.flag)))
    ?_ ?_ ?_ ?_ ?_ ?_ fuel r h
  · intro _
    exact ⟨rfl, rfl, Or.inl (by simp [initState])⟩
  · intro _ hf
    refine ⟨rfl, rfl, Or.inr ⟨rfl, [], _, rfl, hf, by simp⟩⟩
  · intro _ hf
    refine ⟨rfl, rfl, ?_⟩
    intro e he
    have he' : e = Call.f x (F.f user x (resize J.fill W.fvec x.length)).2.1 := by
      simpa [initCounters, evalStart, logged, initState] using he
    rw [he']
    exact not_lt.1 hf
  · intro st ⟨h1, h2, h3⟩ hf
    refine ⟨?_, ?_, Or.inr ⟨rfl, st.user.2, Call.df st.x (F.df st.user.1 st.x st.fjac).2.1, rfl,
      hf, h3⟩⟩
    · simp only [jacobianAnalytic_frame, logged, countF_append, Call.isF]
      simpa using h1
    · simp only [jacobianAnalytic_frame, logged, countDf_append, Call.isF]
      simpa using h2
  · intro st ⟨h1, h2, h3⟩ hf
    simp only [factorize_frame, jacobianAnalytic_frame, logged, countF_append, countDf_append,
      Call.isF]
    refine ⟨by simpa using h1, by simpa using h2, ?_⟩
    intro e he
    rcases List.mem_append.1 he with he | he
    · exact h3 e he
    · have he' := List.mem_singleton.1 he
      rw [he']
      exact not_lt.1 hf
  · intro st ⟨h1, h2, h3⟩
    have key : ∀ st1 : State (σ × List Call),
        st1.user = (evalTrial (logged F) (direction P st)).user →
        st1.nfev = st.nfev + 1 → st1.njev = st.njev →
        st1.nfev = countF st1.user.2 ∧ st1.njev = countDf st1.user.2 := by
      intro st1 e1 e2 e3
      rw [e1, e2, e3]
      simp only [evalTrial_frame, direction_frame, logged, countF_append, countDf_append,
        Call.isF]
      constructor
      · simpa using h1
      · simpa using h2
    have hlog : (evalTrial (logged F) (direction P st)).user.2 = st.user.2 ++
        [Call.f (direction P st).wa2 (evalTrial (logged F) (direction P st)).iflag] := rfl
    have hpos : ¬ (evalTrial (logged F) (direction P st)).iflag < 0 →
        ∀ e ∈ (evalTrial (logged F) (direction P st)).user.2, 0 ≤ e.flag := by
      intro hf e he
      rw [hlog] at he
      rcases List.mem_append.1 he with he | he
      · exact h3 e he
      · rw [List.mem_singleton.1 he]
        exact not_lt.1 hf
    rcases innerBody_cases P (logged F) _ st with ⟨hf, e⟩ | ⟨hf, s, _, e⟩ | ⟨hf, _, _, e⟩ |
      ⟨hf, _, _, e⟩
    · rw [e]
      obtain ⟨k1, k2⟩ := key _ rfl (by simp) (by simp)
      exact ⟨k1, k2, Or.inr ⟨rfl, st.user.2, _, hlog, hf, h3⟩⟩
    · rw [e]
      obtain ⟨k1, k2⟩ := key (afterTrial P _ (evalTrial (logged F) (direction P st)))
        (by simp) (by simp) (by simp)
      refine ⟨k1, k2, Or.inl ?_⟩
      simpa using hpos hf
    · rw [e]
      obtain ⟨k1, k2⟩ := key (afterTrial P _ (evalTrial (logged F) (direction P st)))
        (by simp) (by simp) (by simp)
      refine ⟨k1, k2, ?_⟩
      simpa using hpos hf
    · rw [e]
      obtain ⟨k1, k2⟩ := key (broydenUpdate P _ (afterTrial P _
        (evalTrial (logged F) (direction P st)))) (by simp) (by simp) (by simp)
      refine ⟨k1, k2, ?_⟩
      simpa using hpos hf

end Log


/-! ## User abort and the evaluation counters -/

section Abort

variable {σ : Type}

/-- C5. Full-form analytic `solve`, callbacks seen as the sequence of their invocations (the
log): the call returns, and if some invocation of `f` or `df` returned a negative flag, then the
status is `UserAksed` and that invocation is the last one of the log; the solver returns right
after the first negative flag and invokes no callback after it. -/
theorem no_call_after_negative_flag (P : Prims) (F : FunctorType σ) (J : Junk) (W : Workspace)
    (user : σ) (x diag : Vec) (mode maxfev : Int) (factor xtol : ℚ) (k : Nat) :
    ∃ r, solve P (logged F) J (fuelBound maxfev + k) W (user, []) x diag mode maxfev factor xtol =
        some r ∧
      ∀ pre e post, r.2.user.2 = pre ++ e :: post → e.flag < 0 →
        r.1 = .UserAksed ∧ post = [] := by
  obtain ⟨r, hr⟩ := solve_returns P (logged F) J W (user, []) x diag mode maxfev factor xtol k
  refine ⟨r, hr, ?_⟩
  intro pre e post hlog hneg
  obtain ⟨_, _, h3⟩ := solve_log P F J W user x diag mode maxfev factor xtol _ r hr
  rcases h3 with h3 | ⟨hs, pre', e', hl, _, hpre⟩
  · have : e ∈ r.2.user.2 := by rw [hlog]; simp
    exact absurd (h3 e this) (not_le.2 hneg)
  · rw [hl] at hlog
    rcases mem_of_append_cons_eq e e' pre post pre' hlog.symm with hp | hp
    · exact ⟨hs, hp⟩
    · exact absurd (hpre e hp) (not_le.2 hneg)

/-- C5 at a concrete input: `F(x) = x^2 - 2` from `x = 1`, the third invocation of `f` returns
`-1`; the run has a negative flag, it is the last entry of the log, and the status is
`UserAksed`. -/
theorem no_call_after_negative_flag_witness :
    ∃ r, solve prims1
        (logged (abortAt 3 (fun x => [vget x 0 * vget x 0 - 2]) (fun x => [2 * vget x 0])))
        junk0 (fuelBound 50 + 0) emptyWorkspace (0, []) [1] [1] 1 50 100 0 = some r ∧
      r.2.user.2 = [Call.f [1] 0, Call.df [1] 0, Call.f [3 / 2] 0] ++ Call.f [7 / 5] (-1) :: [] ∧
      r.1 = .UserAksed := by
  obtain ⟨r, hr, hp⟩ := no_call_after_negative_flag prims1
    (abortAt 3 (fun x => [vget x 0 * vget x 0 - 2]) (fun x => [2 * vget x 0]))
    junk0 emptyWorkspace 0 [1] [1] 1 50 100 0 0
  have hl : (solve prims1
      (logged (abortAt 3 (fun x => [vget x 0 * vget x 0 - 2]) (fun x => [2 * vget x 0])))
      junk0 (fuelBound 50 + 0) emptyWorkspace (0, []) [1] [1] 1 50 100 0).map
      (fun r => r.2.user.2) =
      some ([Call.f [1] 0, Call.df [1] 0, Call.f [3 / 2] 0] ++ Call.f [7 / 5] (-1) :: []) := by
    decide!
  rw [hr] at hl
  have hl' := Option.some.inj hl
  exact ⟨r, hr, hl', (hp _ _ _ hl' (by decide)).1⟩

/-- The entries of a list of non-negative flags that follow it can only be found past its end. -/
theorem index_of_negative (pre rest : List Call) (hpre : ∀ a ∈ pre, 0 ≤ a.flag) (i : Nat)
    (e : Call) (h : (pre.filter Call.isF ++ rest)[i]? = some e) (hneg : e.flag < 0) :
    (pre.filter Call.isF).length ≤ i := by
  by_contra hlt
  rw [List.getElem?_append_left (not_le.1 hlt)] at h
  have hm : e ∈ pre.filter Call.isF := List.getElem?_mem h
  exact absurd (hpre e (List.mem_filter.1 hm).1) (not_le.2 hneg)

/-- C6. Full-form analytic `solve`: the call returns, and on every return (any status) `nfev` is
the number of invocations of `f` and `njev` the number of invocations of `df` in the log; and if
the invocation number `i + 1` of `f` returned a negative flag, the status is `UserAksed` and
`nfev = i + 1`. -/
theorem counters_count_invocations (P : Prims) (F : FunctorType σ) (J : Junk) (W : Workspace)
    (user : σ) (x diag : Vec) (mode maxfev : Int) (factor xtol : ℚ) (k : Nat) :
    ∃ r, solve P (logged F) J (fuelBound maxfev + k) W (user, []) x diag mode maxfev factor xtol =
        some r ∧
      r.2.nfev = countF r.2.user.2 ∧ r.2.njev = countDf r.2.user.2 ∧
      ∀ (i : Nat) (e : Call), (r.2.user.2.filter Call.isF)[i]? = some e → e.flag < 0 →
        r.1 = .UserAksed ∧ r.2.nfev = (i : Int) + 1 := by
  obtain ⟨r, hr⟩ := solve_returns P (logged F) J W (user, []) x diag mode maxfev factor xtol k
  obtain ⟨h1, h2, h3⟩ := solve_log P F J W user x diag mode maxfev factor xtol _ r hr
  refine ⟨r, hr, h1, h2, ?_⟩
  intro i e hi hneg
  rcases h3 with h3 | ⟨hs, pre, e', hl, _, hpre⟩
  · have hm : e ∈ r.2.user.2.filter Call.isF := List.getElem?_mem hi
    exact absurd (h3 e (List.mem_filter.1 hm).1) (not_le.2 hneg)
  · refine ⟨hs, ?_⟩
    rw [h1, hl, countF_append]
    rw [hl, List.filter_append] at hi
    have hge := index_of_negative pre _ hpre i e hi hneg
    rw [List.getElem?_append_right hge] at hi
    cases hf : e'.isF with
    | false => simp [List.filter, hf] at hi
    | true =>
      simp only [List.filter, hf] at hi
      have hlt : i - (pre.filter Call.isF).length < 1 := by
        by_contra hc
        rw [List.getElem?_eq_none (by simp at hc ⊢; omega)] at hi
        cases hi
      simp only [countF, if_true]
      omega

/-- C6 at the input of the specification's scenario: the fifth invocation of `f` returns `-1`
(`F(x) = x^2 - 2` from `x = 1`); the call returns `UserAksed` with `nfev = 5`. -/
theorem counters_count_invocations_witness :
    ∃ r, solve prims1
        (logged (abortAt 5 (fun x => [vget x 0 * vget x 0 - 2]) (fun x => [2 * vget x 0])))
        junk0 (fuelBound 50 + 0) emptyWorkspace (0, []) [1] [1] 1 50 100 0 = some r ∧
      (r.2.user.2.filter Call.isF)[4]? = some (Call.f [577 / 408] (-1)) ∧
      r.1 = .UserAksed ∧ r.2.nfev = 5 := by
  obtain ⟨r, hr, _, _, hp⟩ := counters_count_invocations prims1
    (abortAt 5 (fun x => [vget x 0 * vget x 0 - 2]) (fun x => [2 * vget x 0]))
    junk0 emptyWorkspace 0 [1] [1] 1 50 100 0 0
  have hl : (solve prims1
      (logged (abortAt 5 (fun x => [vget x 0 * vget x 0 - 2]) (fun x => [2 * vget x 0])))
      junk0 (fuelBound 50 + 0) emptyWorkspace (0, []) [1] [1] 1 50 100 0).map
      (fun r => (r.2.user.2.filter Call.isF)[4]?) = some (some (Call.f [577 / 408] (-1))) := by
    decide!
  rw [hr] at hl
  have hl' := Option.some.inj hl
  exact ⟨r, hr, hl', hp 4 _ hl' (by decide)⟩

end Abort


/-! ## The evaluation budget -/

section MaxFev

variable {σ : Type}

/-- C7, as stated, fails: with `maxfev = 1` on a valid input (`F(x) = x^2 - 2` from `x = 1`) the
call evaluates `F` twice, at the starting point and at the first trial point, before the test
`nfev >= maxfev` of line 337 is reached; it returns `TooManyFunctionEvaluation` with `nfev = 2`. -/
theorem maxfev_one_exceeded :
    (0 < ([1] : Vec).length ∧ (0 : ℚ) ≤ 0 ∧ (0 : Int) < 1 ∧ (0 : ℚ) < 100) ∧
    (solve prims1
        (logged (pureFunctor (fun x => [vget x 0 * vget x 0 - 2]) (fun _ => 0)
          (fun x => [2 * vget x 0])))
        junk0 (fuelBound 1) emptyWorkspace ((), []) [1] [1] 1 1 100 0).map
      (fun r => (r.1, r.2.nfev, countF r.2.user.2)) = some (.TooManyFunctionEvaluation, 2, 2) ∧
    ¬ ((2 : Int) ≤ 1) := by
  decide!

/-- C7, amended. For every input of the full-form analytic `solve` the call returns and the
number of evaluations of `F` made by the call, which is `nfev` on return, is at most
`max(maxfev, 2)`; so `maxfev` bounds the evaluations of `F` whenever `maxfev >= 2`. -/
theorem nfev_le_budget (P : Prims) (F : FunctorType σ) (J : Junk) (W : Workspace) (user : σ)
    (x diag : Vec) (mode maxfev : Int) (factor xtol : ℚ) (k : Nat) :
    ∃ r, solve P (logged F) J (fuelBound maxfev + k) W (user, []) x diag mode maxfev factor xtol =
        some r ∧
      countF r.2.user.2 = r.2.nfev ∧ r.2.nfev ≤ max maxfev 2 ∧
      (2 ≤ maxfev → r.2.nfev ≤ maxfev) := by
  obtain ⟨r, hr⟩ := solve_returns P (logged F) J W (user, []) x diag mode maxfev factor xtol k
  have hle : r.2.nfev ≤ max maxfev 2 := by
    refine solve_induct P (logged F) J W (user, []) x diag mode maxfev factor xtol
      (fun _ st => st.nfev < maxfev ∨ st.nfev = 1) (fun r => r.2.nfev ≤ max maxfev 2)
      ?_ ?_ ?_ ?_ ?_ ?_ _ r hr
    · intro _
      show (0 : Int) ≤ max maxfev 2
      exact le_trans (by decide) (le_max_right _ _)
    · intro _ _
      show (1 : Int) ≤ max maxfev 2
      exact le_trans (by decide) (le_max_right _ _)
    · intro _ _
      right; rfl
    · intro st hi _
      simp only [jacobianAnalytic_frame]
      have h2 : (2 : Int) ≤ max maxfev 2 := le_max_right _ _
      have h3 : maxfev ≤ max maxfev 2 := le_max_left _ _
      omega
    · intro st hi _
      simpa using hi
    · intro st hi
      have h2 : (2 : Int) ≤ max maxfev 2 := le_max_right _ _
      have h3 : maxfev ≤ max maxfev 2 := le_max_left _ _
      rcases innerBody_cases P (logged F)
        { n := x.length, mode := mode, maxfev := maxfev, factor := factor, xtol := xtol } st with
        ⟨_, e⟩ | ⟨_, s, _, e⟩ | ⟨_, ht, _, e⟩ | ⟨_, ht, _, e⟩
      · rw [e]; simp; omega
      · rw [e]; simp; omega
      · rw [e]; left; exact terminationTest_none _ _ _ ht
      · rw [e]; left; simpa using terminationTest_none _ _ _ ht
  refine ⟨r, hr, (solve_log P F J W user x diag mode maxfev factor xtol _ r hr).1.symm, hle, ?_⟩
  intro h2
  rwa [max_eq_left h2] at hle

end MaxFev

/-! ## Termination -/

section Termination

variable {σ : Type}

/-- C8. For every input and every (total) callbacks and primitives the full-form analytic `solve`
terminates with a status (one other than `Running`): `max(1, maxfev - 1)` passes through the
inner loop are enough (the fuel counts these passes, and more fuel is not used); each pass
increases `nfev` by exactly one; a pass that does not return leaves `nfev < maxfev`; and the
number `njev` of Jacobian evaluations is at most `max(1, maxfev - 1)` as well. -/
theorem solve_terminates (P : Prims) (F : FunctorType σ) (J : Junk) (W : Workspace) (user : σ)
    (x diag : Vec) (mode maxfev : Int) (factor xtol : ℚ) :
    (∃ r, solve P F J (fuelBound maxfev) W user x diag mode maxfev factor xtol = some r ∧
      r.1 ≠ .Running ∧ r.2.njev ≤ max 1 (maxfev - 1)) ∧
    (∀ k, solve P F J (fuelBound maxfev + k) W user x diag mode maxfev factor xtol =
      solve P F J (fuelBound maxfev) W user x diag mode maxfev factor xtol) ∧
    (∀ (c : Config) (st : State σ), (innerBody P F c st).state.nfev = st.nfev + 1) ∧
    (∀ (c : Config) (st st1 : State σ),
      innerBody P F c st = .brk st1 ∨ innerBody P F c st = .cont st1 → st1.nfev < c.maxfev) := by
  refine ⟨?_, fun k => solve_fuel P F J W user x diag mode maxfev factor xtol k,
    fun c st => innerBody_nfev P F c st, ?_⟩
  · obtain ⟨r, hr⟩ := solve_returns P F J W user x diag mode maxfev factor xtol 0
    rw [Nat.add_zero] at hr
    refine ⟨r, hr, (solve_status _ _ _ _ _ _ _ _ _ _ _ _ r hr).2, ?_⟩
    have h1 : (1 : Int) ≤ max 1 (maxfev - 1) := le_max_left _ _
    have h2 : maxfev - 1 ≤ max 1 (maxfev - 1) := le_max_right _ _
    refine solve_induct P F J W user x diag mode maxfev factor xtol
      (fun outer st =>
        if outer = true then st.njev + 1 ≤ st.nfev ∧ (st.njev = 0 ∨ st.nfev < maxfev)
        else st.njev ≤ st.nfev ∧ st.njev ≤ max 1 (maxfev - 1))
      (fun r => r.2.njev ≤ max 1 (maxfev - 1)) ?_ ?_ ?_ ?_ ?_ ?_ _ r hr
    · intro _
      show (0 : Int) ≤ max 1 (maxfev - 1)
      omega
    · intro _ _
      show (0 : Int) ≤ max 1 (maxfev - 1)
      omega
    · intro _ _
      simp only [if_true]
      exact ⟨by simp [initCounters, evalStart, initState], Or.inl rfl⟩
    · intro st hi _
      simp only [if_true] at hi
      simp only [jacobianAnalytic_frame]
      omega
    · intro st hi _
      simp only [if_true] at hi
      simp only [Bool.false_eq_true, if_false, factorize_frame, jacobianAnalytic_frame]
      omega
    · intro st hi
      simp only [Bool.false_eq_true, if_false] at hi
      rcases innerBody_cases P F
        { n := x.length, mode := mode, maxfev := maxfev, factor := factor, xtol := xtol } st with
        ⟨_, e⟩ | ⟨_, s, _, e⟩ | ⟨_, ht, _, e⟩ | ⟨_, ht, _, e⟩
      · rw [e]; simp; omega
      · rw [e]; simp; omega
      · rw [e]
        have hlt := terminationTest_none _ _ _ ht
        simp only [afterTrial_frame, evalTrial_frame, direction_frame] at hlt
        simp only [if_true, afterTrial_frame, evalTrial_frame, direction_frame]
        omega
      · rw [e]
        simp only [Bool.false_eq_true, if_false, broydenUpdate_frame, afterTrial_frame,
          evalTrial_frame, direction_frame]
        omega
  · intro c st st1 h
    rcases innerBody_cases P F c st with ⟨_, e⟩ | ⟨_, s, _, e⟩ | ⟨_, ht, _, e⟩ | ⟨_, ht, _, e⟩
    · rw [e] at h; rcases h with h | h <;> cases h
    · rw [e] at h; rcases h with h | h <;> cases h
    · rw [e] at h
      rcases h with h | h
      · cases h; exact terminationTest_none _ _ _ ht
      · cases h
    · rw [e] at h
      rcases h with h | h
      · cases h
      · cases h; simpa using terminationTest_none _ _ _ ht

end Termination


/-! ## The accepted iterates -/

section Accepted

variable {σ : Type}

/-- What the acceptance test does to `x`, `fvec` and `fnorm`, after a trial evaluation. -/
theorem afterTrial_accept (P : Prims) (c : Config) (st : State σ)
    (h : (reductions P c st).ratio ≥ 1 / 10000) :
    (afterTrial P c st).x = st.wa2 ∧ (afterTrial P c st).fvec = st.wa4 ∧
    (afterTrial P c st).fnorm = P.stableNorm st.wa4 ∧ (afterTrial P c st).iter = st.iter + 1 := by
  have h' : (updateStepBound (reductions P c st)).ratio ≥ 1 / 10000 := by simpa using h
  simp only [afterTrial, progress_frame]
  unfold acceptStep
  rw [if_pos h']
  simp

/-- A trial point that fails the acceptance test leaves `x`, `fvec` and `fnorm` alone. -/
theorem afterTrial_reject (P : Prims) (c : Config) (st : State σ)
    (h : ¬ (reductions P c st).ratio ≥ 1 / 10000) :
    (afterTrial P c st).x = st.x ∧ (afterTrial P c st).fvec = st.fvec ∧
    (afterTrial P c st).fnorm = st.fnorm ∧ (afterTrial P c st).iter = st.iter := by
  have h' : ¬ (updateStepBound (reductions P c st)).ratio ≥ 1 / 10000 := by simpa using h
  simp only [afterTrial, progress_frame]
  unfold acceptStep
  rw [if_neg h']
  simp

/-- Line 266 and lines 288-290: a ratio that passes the acceptance test comes from a trial point
whose residual norm is smaller than the current one. -/
theorem ratio_accept_lt (P : Prims) (c : Config) (st : State σ)
    (h : (reductions P c st).ratio ≥ 1 / 10000) : P.stableNorm st.wa4 < st.fnorm := by
  by_contra hlt
  have hr : (reductions P c st).ratio =
      if (reductions P c st).prered > 0 then (reductions P c st).actred / (reductions P c st).prered
      else 0 := rfl
  have ha : (reductions P c st).actred = -1 := by
    show (if P.stableNorm st.wa4 < st.fnorm then 1 - abs2 (P.stableNorm st.wa4 / st.fnorm)
      else -1) = -1
    rw [if_neg hlt]
  rw [hr, ha] at h
  split_ifs at h with hp
  · have : (-1 : ℚ) / (reductions P c st).prered < 0 := div_neg_of_neg_of_pos (by norm_num) hp
    linarith
  · norm_num at h

/-- The state a pass through the inner loop leaves, for what concerns `x`, `fvec` and `fnorm`:
those of the accepted trial point, or unchanged. -/
theorem innerBody_accept (P : Prims) (F : FunctorType σ) (c : Config) (st : State σ) :
    (Accepts P F c st →
      (innerBody P F c st).state.x = trialPoint P st ∧
      (innerBody P F c st).state.fvec = (F.f st.user (trialPoint P st) st.wa4).2.2 ∧
      (innerBody P F c st).state.fnorm =
        P.stableNorm (F.f st.user (trialPoint P st) st.wa4).2.2 ∧
      (innerBody P F c st).state.fnorm < st.fnorm ∧
      (innerBody P F c st).state.iter = st.iter + 1) ∧
    (¬ Accepts P F c st →
      (innerBody P F c st).state.x = st.x ∧ (innerBody P F c st).state.fvec = st.fvec ∧
      (innerBody P F c st).state.fnorm = st.fnorm ∧
      (innerBody P F c st).state.iter = st.iter) := by
  constructor
  · rintro ⟨hf, hr⟩
    obtain ⟨a1, a2, a3, a4⟩ := afterTrial_accept P c _ hr
    have hlt := ratio_accept_lt P c _ hr
    have key : (afterTrial P c (evalTrial F (direction P st))).x = trialPoint P st ∧
        (afterTrial P c (evalTrial F (direction P st))).fvec =
          (F.f st.user (trialPoint P st) st.wa4).2.2 ∧
        (afterTrial P c (evalTrial F (direction P st))).fnorm =
          P.stableNorm (F.f st.user (trialPoint P st) st.wa4).2.2 ∧
        (afterTrial P c (evalTrial F (direction P st))).fnorm < st.fnorm ∧
        (afterTrial P c (evalTrial F (direction P st))).iter = st.iter + 1 := by
      refine ⟨a1, a2, a3, ?_, a4⟩
      rw [a3]
      exact hlt
    rcases innerBody_cases P F c st with ⟨hf', _⟩ | ⟨_, s, _, e⟩ | ⟨_, _, _, e⟩ | ⟨_, _, _, e⟩
    · exact absurd hf' hf
    · rw [e]; exact key
    · rw [e]; exact key
    · rw [e]; simpa [Flow.state] using key
  · intro hna
    rcases innerBody_cases P F c st with ⟨_, e⟩ | ⟨hf, s, _, e⟩ | ⟨hf, _, _, e⟩ | ⟨hf, _, _, e⟩
    · rw [e]; exact ⟨rfl, rfl, rfl, rfl⟩
    · have hr : ¬ (reductions P c (evalTrial F (direction P st))).ratio ≥ 1 / 10000 :=
        fun hr => hna ⟨hf, hr⟩
      rw [e]; exact afterTrial_reject P c _ hr
    · have hr : ¬ (reductions P c (evalTrial F (direction P st))).ratio ≥ 1 / 10000 :=
        fun hr => hna ⟨hf, hr⟩
      rw [e]; exact afterTrial_reject P c _ hr
    · have hr : ¬ (reductions P c (evalTrial F (direction P st))).ratio ≥ 1 / 10000 :=
        fun hr => hna ⟨hf, hr⟩
      rw [e]
      simp only [Flow.state, broydenUpdate_frame]
      exact afterTrial_reject P c _ hr

/-- From a head of a loop where `fvec = F(x)` and `fnorm = ‖fvec‖`, every `return` has
`fvec = F(x)` and a residual norm that is not larger. -/
theorem iterate_residual (P : Prims) (F : FunctorType σ) (c : Config) (Fv : Vec → Vec)
    (hF : ∀ s y buf, (F.f s y buf).2.2 = Fv y) (fuel : Nat) (outer : Bool) (st : State σ)
    (r : Status × State σ) (h1 : st.fvec = Fv st.x) (h2 : st.fnorm = P.stableNorm st.fvec)
    (h : iterate P F (jacobianAnalytic F) c fuel outer st = some r) :
    r.2.fvec = Fv r.2.x ∧ P.stableNorm (Fv r.2.x) ≤ P.stableNorm (Fv st.x) := by
  refine iterate_induct P F (jacobianAnalytic F) c
    (fun _ s => s.fvec = Fv s.x ∧ s.fnorm = P.stableNorm s.fvec ∧
      s.fnorm ≤ P.stableNorm (Fv st.x))
    (fun r => r.2.fvec = Fv r.2.x ∧ P.stableNorm (Fv r.2.x) ≤ P.stableNorm (Fv st.x))
    ?_ ?_ ?_ fuel outer st r ⟨h1, h2, by rw [h2, h1]⟩ h
  · intro s ⟨i1, i2, i3⟩ _
    simp only [jacobianAnalytic_frame]
    exact ⟨i1, by rw [← i1, ← i2]; exact i3⟩
  · intro s ⟨i1, i2, i3⟩ _
    simp only [factorize_frame, jacobianAnalytic_frame]
    exact ⟨i1, i2, i3⟩
  · intro s ⟨i1, i2, i3⟩
    have hb := innerBody_accept P F c s
    have key : (innerBody P F c s).state.fvec = Fv (innerBody P F c s).state.x ∧
        (innerBody P F c s).state.fnorm = P.stableNorm (innerBody P F c s).state.fvec ∧
        (innerBody P F c s).state.fnorm ≤ P.stableNorm (Fv st.x) := by
      by_cases ha : Accepts P F c s
      · obtain ⟨b1, b2, b3, b4, _⟩ := hb.1 ha
        rw [b1, b2, b3, hF]
        refine ⟨rfl, rfl, ?_⟩
        rw [b3, hF] at b4
        exact le_trans (le_of_lt b4) i3
      · obtain ⟨b1, b2, b3, _⟩ := hb.2 ha
        rw [b1, b2, b3]
        exact ⟨i1, i2, i3⟩
    revert key
    cases innerBody P F c s with
    | ret s1 st1 =>
      simp only [Flow.state]
      intro ⟨k1, k2, k3⟩
      exact ⟨k1, by rw [← k1, ← k2]; exact k3⟩
    | brk st1 => simp only [Flow.state]; exact id
    | cont st1 => simp only [Flow.state]; exact id

/-- A call of the full analytic form with a callback `f` that writes `Fv y` at every `y`: it
returns, the residual norm at the returned `x` is not larger than at the caller's `x`, and on
validated input `fvec = Fv x` on return. -/
theorem solve_residual (P : Prims) (F : FunctorType σ) (J : Junk) (W : Workspace) (user : σ)
    (x diag : Vec) (mode maxfev : Int) (factor xtol : ℚ) (k : Nat) (Fv : Vec → Vec)
    (hF : ∀ s y buf, (F.f s y buf).2.2 = Fv y) :
    ∃ r, solve P F J (fuelBound maxfev + k) W user x diag mode maxfev factor xtol = some r ∧
      (ValidInput x diag mode maxfev factor xtol → r.2.fvec = Fv r.2.x) ∧
      P.stableNorm (Fv r.2.x) ≤ P.stableNorm (Fv x) := by
  obtain ⟨r, hr⟩ := solve_returns P F J W user x diag mode maxfev factor xtol k
  refine ⟨r, hr, ?_⟩
  by_cases hv : ValidInput x diag mode maxfev factor xtol
  · rw [solve_of_valid P F J _ W user x diag mode maxfev factor xtol hv] at hr
    by_cases hf : (evalStart F (initState J W user x diag)).iflag < 0
    · rw [if_pos hf] at hr
      cases hr
      exact ⟨fun _ => hF _ _ _, le_refl _⟩
    · rw [if_neg hf] at hr
      obtain ⟨a, b⟩ := iterate_residual P F _ Fv hF _ _ _ r (hF _ _ _) rfl hr
      exact ⟨fun _ => a, b⟩
  · rw [solve_of_invalid P F J _ W user x diag mode maxfev factor xtol hv] at hr
    cases hr
    exact ⟨fun h => absurd h hv, le_refl _⟩

/-- The iteration counter `iter` is at least one in the loops, and it is one only as long as `x`
is the `x` the loops started with. -/
theorem iterate_iter (P : Prims) (F : FunctorType σ) (c : Config) (x : Vec) (fuel : Nat)
    (outer : Bool) (st : State σ) (r : Status × State σ) (h1 : st.x = x) (h2 : st.iter = 1)
    (h : iterate P F (jacobianAnalytic F) c fuel outer st = some r) :
    r.2.x = x ∨ 1 < r.2.iter := by
  refine iterate_induct P F (jacobianAnalytic F) c
    (fun _ s => 1 ≤ s.iter ∧ (s.x = x ∨ 1 < s.iter)) (fun r => r.2.x = x ∨ 1 < r.2.iter)
    ?_ ?_ ?_ fuel outer st r ⟨by omega, Or.inl h1⟩ h
  · intro s ⟨_, i2⟩ _
    simpa using i2
  · intro s i _
    simpa using i
  · intro s ⟨i1, i2⟩
    have hb := innerBody_accept P F c s
    have key : 1 ≤ (innerBody P F c s).state.iter ∧
        ((innerBody P F c s).state.x = x ∨ 1 < (innerBody P F c s).state.iter) := by
      by_cases ha : Accepts P F c s
      · obtain ⟨_, _, _, _, b5⟩ := hb.1 ha
        rw [b5]
        exact ⟨by omega, Or.inr (by omega)⟩
      · obtain ⟨b1, _, _, b4⟩ := hb.2 ha
        rw [b1, b4]
        exact ⟨i1, i2⟩
    revert key
    cases innerBody P F c s with
    | ret s1 st1 => simp only [Flow.state]; exact fun k => k.2
    | brk st1 => simp only [Flow.state]; exact id
    | cont st1 => simp only [Flow.state]; exact id

/-- C9, as stated, fails: a call that is rejected by the input check (`xtol = -1`) returns before
`f` is evaluated, so `fvec` keeps what the solver object held, here `(7)` from an earlier use,
while `F(x) = x^2 - 2` is `(-1)` at the returned `x = (1)`. -/
theorem fvec_stale_on_rejected_input :
    (solve prims1
        (pureFunctor (fun x => [vget x 0 * vget x 0 - 2]) (fun _ => 0) (fun x => [2 * vget x 0]))
        junk0 (fuelBound 10) { fvec := [7], fjac := [1], R := [1], qtf := [7] } () [1] [1] 1 10
        100 (-1)).map (fun r => (r.1, r.2.x, r.2.fvec)) =
      some (.RelativeErrorTooSmall, [1], [7]) ∧
    (fun x : Vec => [vget x 0 * vget x 0 - 2]) [1] = [-1] ∧ ([7] : Vec) ≠ [-1] := by
  decide!

/-- C9, amended. For every call of the full-form `solve` whose input passes the validation, with
a callback `f` that writes `Fv y` at `y` (the flag may be anything): the call returns and,
whatever the status, `fvec = Fv x` on return. As for `x`: the loops start at the caller's `x`; the
Jacobian evaluation and the factorization do not touch it; a pass through the inner loop that
accepts its trial point (`ratio >= 1e-4`) leaves `x` at that point, any other pass leaves `x`
unchanged; and on return `x` is the caller's `x` unless `iter > 1`, that is unless a step was
accepted. -/
theorem fvec_is_F_at_x (P : Prims) (F : FunctorType σ) (J : Junk) (W : Workspace) (user : σ)
    (x diag : Vec) (mode maxfev : Int) (factor xtol : ℚ) (k : Nat) (Fv : Vec → Vec)
    (hF : ∀ s y buf, (F.f s y buf).2.2 = Fv y)
    (hv : ValidInput x diag mode maxfev factor xtol) :
    (∃ r, solve P F J (fuelBound maxfev + k) W user x diag mode maxfev factor xtol = some r ∧
      r.2.fvec = Fv r.2.x ∧ (r.2.x = x ∨ 1 < r.2.iter)) ∧
    (initCounters P (evalStart F (initState J W user x diag))).x = x ∧
    (∀ (c : Config) (st : State σ),
      (jacobianAnalytic F st).x = st.x ∧ (factorize P c st).x = st.x) ∧
    (∀ (c : Config) (st : State σ),
      (Accepts P F c st → (innerBody P F c st).state.x = trialPoint P st) ∧
      (¬ Accepts P F c st → (innerBody P F c st).state.x = st.x)) := by
  refine ⟨?_, rfl, fun c st => ⟨rfl, by simp⟩, fun c st =>
    ⟨fun h => ((innerBody_accept P F c st).1 h).1, fun h => ((innerBody_accept P F c st).2 h).1⟩⟩
  obtain ⟨r, hr, h1, _⟩ := solve_residual P F J W user x diag mode maxfev factor xtol k Fv hF
  refine ⟨r, hr, h1 hv, ?_⟩
  rw [solve_of_valid P F J _ W user x diag mode maxfev factor xtol hv] at hr
  by_cases hf : (evalStart F (initState J W user x diag)).iflag < 0
  · rw [if_pos hf] at hr
    cases hr
    exact Or.inl rfl
  · rw [if_neg hf] at hr
    exact iterate_iter P F _ x _ _ _ r rfl rfl hr

/-- C9, amended, at a concrete input: `F(x) = x^2 - 2` from `x = 1`, with `maxfev = 3`. -/
theorem fvec_is_F_at_x_witness :
    ValidInput [1] [1] 1 3 100 0 ∧
    ∃ r, solve prims1
        (pureFunctor (fun x => [vget x 0 * vget x 0 - 2]) (fun _ => 0) (fun x => [2 * vget x 0]))
        junk0 (fuelBound 3 + 0) emptyWorkspace () [1] [1] 1 3 100 0 = some r ∧
      r.2.fvec = (fun x : Vec => [vget x 0 * vget x 0 - 2]) r.2.x ∧
      (r.2.x = [1] ∨ 1 < r.2.iter) :=
  ⟨⟨by decide, by decide!, by decide, by decide!, by decide⟩,
   (fvec_is_F_at_x prims1 _ junk0 emptyWorkspace () [1] [1] 1 3 100 0 0
      (fun x : Vec => [vget x 0 * vget x 0 - 2]) (fun _ _ _ => rfl)
      ⟨by decide, by decide!, by decide, by decide!, by decide⟩).1⟩

/-- C10. In the inner loop a trial point is accepted (`ratio >= 1e-4`) only if `fnorm1 < fnorm`,
and then the residual norm `fnorm` strictly decreases; with a callback `f` that writes `Fv y` at
`y`, the call returns with `‖F(x)‖` less than or equal to `‖F‖` at the starting point, and the
same holds from the head of a loop onwards, that is with respect to every iterate accepted
earlier. -/
theorem residual_norm_decreases (P : Prims) (F : FunctorType σ) (J : Junk) (W : Workspace)
    (user : σ) (x diag : Vec) (mode maxfev : Int) (factor xtol : ℚ) (k : Nat) (Fv : Vec → Vec)
    (hF : ∀ s y buf, (F.f s y buf).2.2 = Fv y) :
    (∀ (c : Config) (st : State σ), Accepts P F c st →
      (reductions P c (evalTrial F (direction P st))).fnorm1 < st.fnorm ∧
      (reductions P c (evalTrial F (direction P st))).fnorm1 = P.stableNorm (Fv (trialPoint P st)) ∧
      (innerBody P F c st).state.fnorm < st.fnorm) ∧
    (∃ r, solve P F J (fuelBound maxfev + k) W user x diag mode maxfev factor xtol = some r ∧
      P.stableNorm (Fv r.2.x) ≤ P.stableNorm (Fv x)) ∧
    (∀ (c : Config) (fuel : Nat) (outer : Bool) (st : State σ) (r : Status × State σ),
      st.fvec = Fv st.x → st.fnorm = P.stableNorm st.fvec →
      iterate P F (jacobianAnalytic F) c fuel outer st = some r →
      P.stableNorm (Fv r.2.x) ≤ P.stableNorm (Fv st.x)) := by
  refine ⟨?_, ?_, ?_⟩
  · intro c st ha
    refine ⟨ratio_accept_lt P c _ ha.2, ?_, ((innerBody_accept P F c st).1 ha).2.2.2.1⟩
    show P.stableNorm (F.f st.user (trialPoint P st) st.wa4).2.2 = _
    rw [hF]
  · obtain ⟨r, hr, _, h2⟩ := solve_residual P F J W user x diag mode maxfev factor xtol k Fv hF
    exact ⟨r, hr, h2⟩
  · intro c fuel outer st r h1 h2 h
    exact (iterate_residual P F c Fv hF fuel outer st r h1 h2 h).2

/-- C10 at a concrete input: `F(x) = x^2 - 2` from `x = 1`. -/
theorem residual_norm_decreases_witness :
    ∃ r, solve prims1
        (pureFunctor (fun x => [vget x 0 * vget x 0 - 2]) (fun _ => 0) (fun x => [2 * vget x 0]))
        junk0 (fuelBound 5 + 0) emptyWorkspace () [1] [1] 1 5 100 0 = some r ∧
      norm1 ((fun x : Vec => [vget x 0 * vget x 0 - 2]) r.2.x) ≤
        norm1 ((fun x : Vec => [vget x 0 * vget x 0 - 2]) [1]) :=
  (residual_norm_decreases prims1 _ junk0 emptyWorkspace () [1] [1] 1 5 100 0 0
    (fun x : Vec => [vget x 0 * vget x 0 - 2]) (fun _ _ _ => rfl)).2.1

end Accepted


/-! ## More of what each piece of the loops leaves unchanged -/

section Frames2

variable {σ : Type}

@[simp] theorem jacobianAnalytic_frame2 (F : FunctorType σ) (st : State σ) :
    (jacobianAnalytic F st).jeval = true ∧ (jacobianAnalytic F st).delta = st.delta ∧
    (jacobianAnalytic F st).xnorm = st.xnorm ∧ (jacobianAnalytic F st).diag = st.diag ∧
    (jacobianAnalytic F st).nslow1 = st.nslow1 ∧ (jacobianAnalytic F st).nslow2 = st.nslow2 ∧
    (jacobianAnalytic F st).ncfail = st.ncfail ∧ (jacobianAnalytic F st).ncsuc = st.ncsuc ∧
    (jacobianAnalytic F st).fjac = (F.df st.user st.x st.fjac).2.2 :=
  ⟨rfl, rfl, rfl, rfl, rfl, rfl, rfl, rfl, rfl⟩

@[simp] theorem firstIteration_frame2 (P : Prims) (c : Config) (st : State σ) :
    (firstIteration P c st).jeval = st.jeval ∧ (firstIteration P c st).nslow1 = st.nslow1 ∧
    (firstIteration P c st).nslow2 = st.nslow2 ∧ (firstIteration P c st).ncsuc = st.ncsuc ∧
    (firstIteration P c st).qtf = st.qtf ∧ (firstIteration P c st).wa4 = st.wa4 := by
  unfold firstIteration
  split <;> exact ⟨rfl, rfl, rfl, rfl, rfl, rfl⟩

@[simp] theorem factorize_frame2 (P : Prims) (c : Config) (st : State σ) :
    (factorize P c st).jeval = st.jeval ∧ (factorize P c st).nslow1 = st.nslow1 ∧
    (factorize P c st).nslow2 = st.nslow2 ∧ (factorize P c st).ncsuc = st.ncsuc ∧
    (factorize P c st).wa2 = (P.qrfac c.n st.fjac).2.2 := by
  unfold factorize
  simp only []
  split <;> simp

@[simp] theorem direction_frame2 (P : Prims) (st : State σ) :
    (direction P st).jeval = st.jeval ∧ (direction P st).nslow1 = st.nslow1 ∧
    (direction P st).nslow2 = st.nslow2 ∧ (direction P st).ncsuc = st.ncsuc ∧
    (direction P st).diag = st.diag ∧ (direction P st).xnorm = st.xnorm ∧
    (direction P st).R = st.R ∧ (direction P st).qtf = st.qtf ∧
    (direction P st).pnorm =
      P.stableNorm (cwiseMul st.diag (vneg (P.dogleg st.R st.diag st.qtf st.delta st.wa1))) ∧
    (direction P st).delta = (if st.iter = 1 then min st.delta (direction P st).pnorm
      else st.delta) ∧
    (direction P st).wa1 = vneg (P.dogleg st.R st.diag st.qtf st.delta st.wa1) ∧
    (direction P st).wa3 =
      cwiseMul st.diag (vneg (P.dogleg st.R st.diag st.qtf st.delta st.wa1)) :=
  ⟨rfl, rfl, rfl, rfl, rfl, rfl, rfl, rfl, rfl, rfl, rfl, rfl⟩

@[simp] theorem evalTrial_frame2 (F : FunctorType σ) (st : State σ) :
    (evalTrial F st).jeval = st.jeval ∧ (evalTrial F st).nslow1 = st.nslow1 ∧
    (evalTrial F st).nslow2 = st.nslow2 ∧ (evalTrial F st).ncsuc = st.ncsuc ∧
    (evalTrial F st).diag = st.diag ∧ (evalTrial F st).xnorm = st.xnorm ∧
    (evalTrial F st).R = st.R ∧ (evalTrial F st).qtf = st.qtf ∧
    (evalTrial F st).pnorm = st.pnorm ∧ (evalTrial F st).delta = st.delta ∧
    (evalTrial F st).wa1 = st.wa1 ∧ (evalTrial F st).wa3 = st.wa3 :=
  ⟨rfl, rfl, rfl, rfl, rfl, rfl, rfl, rfl, rfl, rfl, rfl, rfl⟩

@[simp] theorem reductions_frame2 (P : Prims) (c : Config) (st : State σ) :
    (reductions P c st).jeval = st.jeval ∧ (reductions P c st).nslow1 = st.nslow1 ∧
    (reductions P c st).nslow2 = st.nslow2 ∧ (reductions P c st).ncsuc = st.ncsuc ∧
    (reductions P c st).diag = st.diag ∧ (reductions P c st).xnorm = st.xnorm ∧
    (reductions P c st).pnorm = st.pnorm ∧ (reductions P c st).delta = st.delta :=
  ⟨rfl, rfl, rfl, rfl, rfl, rfl, rfl, rfl⟩

@[simp] theorem updateStepBound_frame2 (st : State σ) :
    (updateStepBound st).jeval = st.jeval ∧ (updateStepBound st).nslow1 = st.nslow1 ∧
    (updateStepBound st).nslow2 = st.nslow2 ∧ (updateStepBound st).diag = st.diag ∧
    (updateStepBound st).xnorm = st.xnorm ∧ (updateStepBound st).pnorm = st.pnorm := by
  unfold updateStepBound
  split <;> exact ⟨rfl, rfl, rfl, rfl, rfl, rfl⟩

@[simp] theorem acceptStep_frame2 (P : Prims) (st : State σ) :
    (acceptStep P st).jeval = st.jeval ∧ (acceptStep P st).nslow1 = st.nslow1 ∧
    (acceptStep P st).nslow2 = st.nslow2 ∧ (acceptStep P st).diag = st.diag ∧
    (acceptStep P st).pnorm = st.pnorm ∧ (acceptStep P st).ncsuc = st.ncsuc := by
  unfold acceptStep
  split <;> exact ⟨rfl, rfl, rfl, rfl, rfl, rfl⟩

@[simp] theorem progress_frame2 (st : State σ) :
    (progress st).jeval = st.jeval ∧ (progress st).diag = st.diag ∧
    (progress st).pnorm = st.pnorm ∧ (progress st).ncsuc = st.ncsuc ∧
    (progress st).nslow1 = (if st.actred ≥ 1 / 1000 then 0 else st.nslow1 + 1) ∧
    (progress st).nslow2 = (if st.actred ≥ 1 / 10 then 0
      else if st.jeval = true then st.nslow2 + 1 else st.nslow2) :=
  ⟨rfl, rfl, rfl, rfl, rfl, rfl⟩

@[simp] theorem broydenUpdate_frame2 (P : Prims) (c : Config) (st : State σ) :
    (broydenUpdate P c st).jeval = false ∧ (broydenUpdate P c st).nslow1 = st.nslow1 ∧
    (broydenUpdate P c st).nslow2 = st.nslow2 ∧ (broydenUpdate P c st).diag = st.diag ∧
    (broydenUpdate P c st).delta = st.delta ∧ (broydenUpdate P c st).xnorm = st.xnorm ∧
    (broydenUpdate P c st).pnorm = st.pnorm ∧ (broydenUpdate P c st).ncsuc = st.ncsuc :=
  ⟨rfl, rfl, rfl, rfl, rfl, rfl, rfl, rfl⟩

end Frames2

/-! ## The termination tests and the trust-radius update -/

section Tests

variable {σ : Type}

/-- A pass whose trial evaluation is not aborted ends as the termination tests say. -/
theorem innerBody_of_flag (P : Prims) (F : FunctorType σ) (c : Config) (st : State σ)
    (hf : ¬ (evalTrial F (direction P st)).iflag < 0) :
    innerBody P F c st =
      match terminationTest P c (passEnd P F c st) with
      | some s => .ret s (passEnd P F c st)
      | none => if (passEnd P F c st).ncfail = 2 then .brk (passEnd P F c st)
          else .cont (broydenUpdate P c (passEnd P F c st)) := by
  unfold innerBody passEnd
  simp only []
  rw [if_neg hf]

/-- C12. After every inner-loop iteration that reaches the tests (its trial evaluation is not
aborted) the outcome is decided by the first condition that holds, in this order:
`delta <= xtol*xnorm` or `fnorm = 0` gives `RelativeErrorTooSmall` (also when `nfev >= maxfev`
holds too); `nfev >= maxfev` gives `TooManyFunctionEvaluation`;
`0.1*max(0.1*delta, pnorm) <= eps*xnorm` gives `TolTooSmall`; `nslow2 = 5` gives
`NotMakingProgressJacobian`; `nslow1 = 10` gives `NotMakingProgressIterations`; otherwise the loop
continues. The values tested are those of the state `e` at the end of the pass: `delta` as left
by the trust-radius update, `xnorm` and `fnorm` as left by the acceptance step. The loops return
what the pass returns whatever the Jacobian evaluation is, in `solve` as in
`solveNumericalDiff`. -/
theorem termination_order (P : Prims) (F : FunctorType σ) (c : Config) (st e : State σ)
    (hf : ¬ (evalTrial F (direction P st)).iflag < 0) (he : e = passEnd P F c st) :
    (e.delta ≤ c.xtol * e.xnorm ∨ e.fnorm = 0 →
      innerBody P F c st = .ret .RelativeErrorTooSmall e) ∧
    (¬ (e.delta ≤ c.xtol * e.xnorm ∨ e.fnorm = 0) → e.nfev ≥ c.maxfev →
      innerBody P F c st = .ret .TooManyFunctionEvaluation e) ∧
    (¬ (e.delta ≤ c.xtol * e.xnorm ∨ e.fnorm = 0) → ¬ e.nfev ≥ c.maxfev →
      1 / 10 * max (1 / 10 * e.delta) e.pnorm ≤ P.epsilon * e.xnorm →
      innerBody P F c st = .ret .TolTooSmall e) ∧
    (¬ (e.delta ≤ c.xtol * e.xnorm ∨ e.fnorm = 0) → ¬ e.nfev ≥ c.maxfev →
      ¬ 1 / 10 * max (1 / 10 * e.delta) e.pnorm ≤ P.epsilon * e.xnorm → e.nslow2 = 5 →
      innerBody P F c st = .ret .NotMakingProgressJacobian e) ∧
    (¬ (e.delta ≤ c.xtol * e.xnorm ∨ e.fnorm = 0) → ¬ e.nfev ≥ c.maxfev →
      ¬ 1 / 10 * max (1 / 10 * e.delta) e.pnorm ≤ P.epsilon * e.xnorm → e.nslow2 ≠ 5 →
      e.nslow1 = 10 → innerBody P F c st = .ret .NotMakingProgressIterations e) ∧
    (¬ (e.delta ≤ c.xtol * e.xnorm ∨ e.fnorm = 0) → ¬ e.nfev ≥ c.maxfev →
      ¬ 1 / 10 * max (1 / 10 * e.delta) e.pnorm ≤ P.epsilon * e.xnorm → e.nslow2 ≠ 5 →
      e.nslow1 ≠ 10 →
      innerBody P F c st = .brk e ∨ innerBody P F c st = .cont (broydenUpdate P c e)) ∧
    e.delta = (updateStepBound (reductions P c (evalTrial F (direction P st)))).delta ∧
    e.xnorm =
      (acceptStep P (updateStepBound (reductions P c (evalTrial F (direction P st))))).xnorm ∧
    e.fnorm =
      (acceptStep P (updateStepBound (reductions P c (evalTrial F (direction P st))))).fnorm ∧
    (∀ (jac : State σ → State σ) (k : Nat) (s : Status),
      innerBody P F c st = .ret s e → iterate P F jac c (k + 1) false st = some (s, e)) := by
  subst he
  have hb := innerBody_of_flag P F c st hf
  refine ⟨?_, ?_, ?_, ?_, ?_, ?_, by simp [passEnd, afterTrial], by simp [passEnd, afterTrial],
    by simp [passEnd, afterTrial], ?_⟩
  · intro h1
    rw [hb]; simp only [terminationTest, if_pos h1]
  · intro h1 h2
    rw [hb]; simp only [terminationTest, if_neg h1, if_pos h2]
  · intro h1 h2 h3
    rw [hb]; simp only [terminationTest, if_neg h1, if_neg h2, if_pos h3]
  · intro h1 h2 h3 h4
    rw [hb]; simp only [terminationTest, if_neg h1, if_neg h2, if_neg h3, if_pos h4]
  · intro h1 h2 h3 h4 h5
    rw [hb]; simp only [terminationTest, if_neg h1, if_neg h2, if_neg h3, if_neg h4, if_pos h5]
  · intro h1 h2 h3 h4 h5
    rw [hb]
    simp only [terminationTest, if_neg h1, if_neg h2, if_neg h3, if_neg h4, if_neg h5]
    by_cases h6 : (passEnd P F c st).ncfail = 2
    · left; rw [if_pos h6]
    · right; rw [if_neg h6]
  · intro jac k s h
    rw [iterate]
    simp [h]

end Tests

section Tests2

variable {σ : Type}

/-- C12 at a concrete pass: `F(x) = x - 3` from `x = 0` with `maxfev = 1`. At the end of the
first pass `fnorm = 0` and `nfev = 2 >= maxfev` hold together, and the pass returns
`RelativeErrorTooSmall`. -/
theorem termination_order_witness :
    ¬ (evalTrial shiftFunctor (direction prims1
        (firstHead prims1 shiftFunctor junk0 emptyWorkspace () [0] [1] 1 1 100 0))).iflag < 0 ∧
    ((passEnd prims1 shiftFunctor
          { n := 1, mode := 1, maxfev := 1, factor := 100, xtol := 0 }
          (firstHead prims1 shiftFunctor junk0 emptyWorkspace () [0] [1] 1 1 100 0)).fnorm = 0 ∧
      (passEnd prims1 shiftFunctor
          { n := 1, mode := 1, maxfev := 1, factor := 100, xtol := 0 }
          (firstHead prims1 shiftFunctor junk0 emptyWorkspace () [0] [1] 1 1 100 0)).nfev ≥ 1) ∧
    innerBody prims1 shiftFunctor { n := 1, mode := 1, maxfev := 1, factor := 100, xtol := 0 }
        (firstHead prims1 shiftFunctor junk0 emptyWorkspace () [0] [1] 1 1 100 0) =
      .ret .RelativeErrorTooSmall
        (passEnd prims1 shiftFunctor { n := 1, mode := 1, maxfev := 1, factor := 100, xtol := 0 }
          (firstHead prims1 shiftFunctor junk0 emptyWorkspace () [0] [1] 1 1 100 0)) :=
  ⟨by decide!, by decide!,
   (termination_order prims1 shiftFunctor
      { n := 1, mode := 1, maxfev := 1, factor := 100, xtol := 0 }
      (firstHead prims1 shiftFunctor junk0 emptyWorkspace () [0] [1] 1 1 100 0) _
      (by decide!) rfl).1 (Or.inr (by decide!))⟩

/-- C13. The trust-radius update of one inner iteration is the function `stepBoundSpec` of
`(ratio, delta, pnorm, ncsuc, ncfail)`: if `ratio < 0.1` then `ncsuc' = 0`,
`ncfail' = ncfail + 1`, `delta' = delta/2`; otherwise `ncfail' = 0`, `ncsuc' = ncsuc + 1`, and
`delta' = 2*pnorm` if `|ratio - 1| <= 0.1`, else `max(delta, 2*pnorm)` if `ratio >= 0.5` or
`ncsuc' > 1`, else `delta`. Consequently a step with `|ratio - 1| <= 0.1` sets
`delta' = 2*pnorm`, also when that is smaller than `delta` (as for `ratio = 1`, `delta = 10`,
`pnorm = 1`). The rest of the pass leaves the three values alone, in `solve` as in
`solveNumericalDiff`, which share the inner loop. -/
theorem trust_radius_update (P : Prims) (F : FunctorType σ) (c : Config) (st : State σ) :
    ((updateStepBound st).delta, (updateStepBound st).ncsuc, (updateStepBound st).ncfail) =
      stepBoundSpec st.ratio st.delta st.pnorm st.ncsuc st.ncfail ∧
    (|st.ratio - 1| ≤ 1 / 10 → (updateStepBound st).delta = 2 * st.pnorm) ∧
    ((stepBoundSpec 1 10 1 0 0).1 = 2 ∧ (2 : ℚ) < 10) ∧
    ((passEnd P F c st).delta, (passEnd P F c st).ncsuc, (passEnd P F c st).ncfail) =
      stepBoundSpec (reductions P c (evalTrial F (direction P st))).ratio (direction P st).delta
        (direction P st).pnorm st.ncsuc st.ncfail := by
  have key : ∀ s : State σ,
      ((updateStepBound s).delta, (updateStepBound s).ncsuc, (updateStepBound s).ncfail) =
        stepBoundSpec s.ratio s.delta s.pnorm s.ncsuc s.ncfail := by
    intro s
    unfold updateStepBound stepBoundSpec
    by_cases h1 : s.ratio < 1 / 10
    · simp only [if_pos h1]
      congr 1
      ring
    · simp only [if_neg h1]
      by_cases h2 : |s.ratio - 1| ≤ 1 / 10
      · simp only [if_pos h2]
        congr 1
        rw [div_div_eq_mul_div, div_one, mul_comm]
      · simp only [if_neg h2]
        by_cases h3 : s.ratio ≥ 1 / 2 ∨ s.ncsuc + 1 > 1
        · simp only [if_pos h3]
          congr 2
          rw [div_div_eq_mul_div, div_one, mul_comm]
        · simp only [if_neg h3]
  refine ⟨key st, ?_, ⟨by decide!, by decide!⟩, ?_⟩
  · intro h
    have h1 : ¬ st.ratio < 1 / 10 := by
      intro hlt
      have := abs_le.1 h
      linarith [this.1]
    have e := key st
    unfold stepBoundSpec at e
    rw [if_neg h1, if_pos h] at e
    exact congrArg Prod.fst e
  · have e := key (reductions P c (evalTrial F (direction P st)))
    have r1 : (reductions P c (evalTrial F (direction P st))).delta = (direction P st).delta :=
      rfl
    have r2 : (reductions P c (evalTrial F (direction P st))).pnorm = (direction P st).pnorm :=
      rfl
    have r3 : (reductions P c (evalTrial F (direction P st))).ncsuc = st.ncsuc := rfl
    have r4 : (reductions P c (evalTrial F (direction P st))).ncfail = st.ncfail := rfl
    rw [r1, r2, r3, r4] at e
    rw [← e]
    simp [passEnd, afterTrial]

end Tests2

/-! ## The packed layout of the triangular factor -/

section Packed

/-- Reading a vector after one write. -/
theorem vget_vset (v : Vec) (o o' : Nat) (a : ℚ) :
    vget (vset v o a) o' = if o = o' ∧ o < v.length then a else vget v o' := by
  unfold vget vset
  by_cases h : o = o'
  · subst h
    by_cases hl : o < v.length
    · simp [hl, List.getD_eq_getElem?_getD, List.getElem?_set]
    · simp [hl, List.getD_eq_getElem?_getD, List.getElem?_set]
      rw [List.getElem?_eq_none (by omega)]
      rfl
  · simp [h, List.getD_eq_getElem?_getD, List.getElem?_set]

/-- A write does not change the length. -/
theorem vset_length (v : Vec) (o : Nat) (a : ℚ) : (vset v o a).length = v.length := by
  simp [vset]

theorem rowStart_succ (n i : Nat) : rowStart n (i + 1) = rowStart n i + (n - i) := by
  simp [rowStart, List.range_succ]

theorem strideOffset_succ (n i j : Nat) :
    strideOffset n (i + 1) j = strideOffset n i j + (n - i - 1) := by
  simp [strideOffset, List.range_succ]
  omega

theorem strideOffset_zero (n j : Nat) : strideOffset n 0 j = j := by
  simp [strideOffset]

/-- The offset the strides reach is the start of the row plus the distance to the diagonal. -/
theorem strideOffset_eq (n : Nat) : ∀ (i j : Nat), i ≤ j → i ≤ n →
    strideOffset n i j = rowStart n i + (j - i) := by
  intro i
  induction i with
  | zero => intro j _ _; simp [strideOffset, rowStart]
  | succ i ih =>
    intro j hj hn
    rw [strideOffset_succ, rowStart_succ, ih j (by omega) (by omega)]
    omega

theorem rowStart_mono (n : Nat) : ∀ (a b : Nat), a ≤ b → rowStart n a ≤ rowStart n b := by
  intro a b h
  induction b with
  | zero =>
    have : a = 0 := by omega
    subst this
    exact le_refl _
  | succ b ih =>
    by_cases hab : a = b + 1
    · subst hab; exact le_refl _
    · rw [rowStart_succ]
      have := ih (by omega)
      omega

/-- The rows of the packed factor fill `n (n + 1) / 2` cells. -/
theorem rowStart_total (n : Nat) : rowStart n n = n * (n + 1) / 2 := by
  have key : ∀ i, i ≤ n → 2 * rowStart n i + (n - i) * (n - i + 1) = n * (n + 1) := by
    intro i
    induction i with
    | zero => intro _; simp [rowStart]
    | succ i ih =>
      intro hi
      have h := ih (by omega)
      rw [rowStart_succ]
      obtain ⟨d, hd⟩ : ∃ d, n = i + 1 + d := ⟨n - (i + 1), by omega⟩
      subst hd
      have e1 : i + 1 + d - (i + 1) = d := by omega
      have e2 : i + 1 + d - i = d + 1 := by omega
      rw [e1]
      rw [e2] at h ⊢
      nlinarith
  have h := key n (le_refl n)
  simp at h
  omega

/-- A cell of row `i` lies before the start of row `i + 1`, hence inside the packed vector. -/
theorem cell_lt (n i j : Nat) (hij : i ≤ j) (hj : j < n) :
    rowStart n i + (j - i) < rowStart n (i + 1) ∧ rowStart n i + (j - i) < n * (n + 1) / 2 := by
  have h1 : rowStart n i + (j - i) < rowStart n (i + 1) := by
    rw [rowStart_succ]; omega
  refine ⟨h1, ?_⟩
  have h2 := rowStart_mono n (i + 1) n (by omega)
  rw [rowStart_total] at h2
  omega

/-- Two cells of the upper triangle with the same offset are the same cell. -/
theorem cell_inj (n i j i' j' : Nat) (hij : i ≤ j) (hj : j < n) (hij' : i' ≤ j') (hj' : j' < n)
    (h : rowStart n i + (j - i) = rowStart n i' + (j' - i')) : i = i' ∧ j = j' := by
  have a := (cell_lt n i j hij hj).1
  have a' := (cell_lt n i' j' hij' hj').1
  rcases Nat.lt_trichotomy i i' with hlt | heq | hgt
  · have := rowStart_mono n (i + 1) i' (by omega)
    omega
  · subst heq
    exact ⟨rfl, by omega⟩
  · have := rowStart_mono n (i' + 1) i (by omega)
    omega

/-- The inner loop of the packing loop (lines 217-220) after `m` rows of column `j`: `l` is the
offset the strides reach, the cells of the rows `0..m-1` hold the entries of the column, and no
other cell has changed. -/
theorem packInner_spec (n j : Nat) (fjac : Mat) (R : Vec) (hj : j < n)
    (hR : R.length = n * (n + 1) / 2) : ∀ m, m ≤ j →
    ((List.range m).foldl
        (fun (a : Vec × Nat) i => (vset a.1 a.2 (mget n fjac i j), a.2 + n - i - 1)) (R, j)).2 =
      strideOffset n m j ∧
    ((List.range m).foldl
        (fun (a : Vec × Nat) i => (vset a.1 a.2 (mget n fjac i j), a.2 + n - i - 1))
        (R, j)).1.length = R.length ∧
    (∀ i, i < m → vget ((List.range m).foldl
        (fun (a : Vec × Nat) i => (vset a.1 a.2 (mget n fjac i j), a.2 + n - i - 1)) (R, j)).1
        (rowStart n i + (j - i)) = mget n fjac i j) ∧
    (∀ o, (∀ i, i < m → o ≠ rowStart n i + (j - i)) → vget ((List.range m).foldl
        (fun (a : Vec × Nat) i => (vset a.1 a.2 (mget n fjac i j), a.2 + n - i - 1)) (R, j)).1 o =
      vget R o) := by
  intro m
  induction m with
  | zero =>
    intro _
    refine ⟨by simp [strideOffset_zero], rfl, fun i hi => absurd hi (Nat.not_lt_zero i),
      fun o _ => rfl⟩
  | succ m ih =>
    intro hm
    obtain ⟨h1, h2, h3, h4⟩ := ih (by omega)
    rw [List.range_succ, List.foldl_append]
    simp only [List.foldl_cons, List.foldl_nil]
    generalize (List.range m).foldl
      (fun (a : Vec × Nat) i => (vset a.1 a.2 (mget n fjac i j), a.2 + n - i - 1)) (R, j) = r
      at h1 h2 h3 h4
    have hpos : r.2 = rowStart n m + (j - m) := by
      rw [h1, strideOffset_eq n m j (by omega) (by omega)]
    have hin : r.2 < r.1.length := by
      rw [hpos, h2, hR]
      exact (cell_lt n m j (by omega) hj).2
    refine ⟨?_, ?_, ?_, ?_⟩
    · rw [strideOffset_succ, h1]; omega
    · rw [vset_length, h2]
    · intro i hi
      rw [vget_vset]
      by_cases him : i = m
      · subst him
        rw [if_pos ⟨hpos, hin⟩]
      · have hne : ¬ (r.2 = rowStart n i + (j - i) ∧ r.2 < r.1.length) := by
          rintro ⟨he, _⟩
          rw [hpos] at he
          have := (cell_inj n m j i j (by omega) hj (by omega) hj he).1
          omega
        rw [if_neg hne]
        exact h3 i (by omega)
    · intro o ho
      rw [vget_vset]
      have hne : ¬ (r.2 = o ∧ r.2 < r.1.length) := by
        rintro ⟨he, _⟩
        exact ho m (by omega) (by rw [← he, hpos])
      rw [if_neg hne]
      exact h4 o (fun i hi => ho i (by omega))

/-- The packing of one column (lines 215-223): its cells hold the entries of the triangular
factor, and no other cell has changed. -/
theorem packColumn_spec (n j : Nat) (fjac : Mat) (wa1 : Vec) (Rs : Vec × Bool) (hj : j < n)
    (hR : Rs.1.length = n * (n + 1) / 2) :
    (packColumn n fjac wa1 Rs j).1.length = Rs.1.length ∧
    (∀ i, i ≤ j → vget (packColumn n fjac wa1 Rs j).1 (rowStart n i + (j - i)) =
      factorEntry n fjac wa1 i j) ∧
    (∀ o, (∀ i, i ≤ j → o ≠ rowStart n i + (j - i)) →
      vget (packColumn n fjac wa1 Rs j).1 o = vget Rs.1 o) := by
  obtain ⟨h1, h2, h3, h4⟩ := packInner_spec n j fjac Rs.1 hj hR j (le_refl j)
  unfold packColumn
  simp only []
  generalize (List.range j).foldl
    (fun (a : Vec × Nat) i => (vset a.1 a.2 (mget n fjac i j), a.2 + n - i - 1)) (Rs.1, j) = r
    at h1 h2 h3 h4
  have hpos : r.2 = rowStart n j + (j - j) := by
    rw [h1, strideOffset_eq n j j (le_refl j) (by omega)]
  have hin : r.2 < r.1.length := by
    rw [hpos, h2, hR]
    exact (cell_lt n j j (le_refl j) hj).2
  refine ⟨by rw [vset_length, h2], ?_, ?_⟩
  · intro i hi
    rw [vget_vset]
    by_cases hij : i = j
    · subst hij
      rw [if_pos ⟨hpos, hin⟩]
      simp [factorEntry]
    · have hne : ¬ (r.2 = rowStart n i + (j - i) ∧ r.2 < r.1.length) := by
        rintro ⟨he, _⟩
        rw [hpos] at he
        have := (cell_inj n j j i j (le_refl j) hj hi hj he).1
        omega
      rw [if_neg hne, h3 i (by omega)]
      simp [factorEntry, hij]
  · intro o ho
    rw [vget_vset]
    have hne : ¬ (r.2 = o ∧ r.2 < r.1.length) := by
      rintro ⟨he, _⟩
      exact ho j (le_refl j) (by rw [← he, hpos])
    rw [if_neg hne]
    exact h4 o (fun i hi => ho i (by omega))

/-- The packing loop after `m` columns: every cell of the columns `0..m-1` holds its entry of the
triangular factor, and no other cell has changed. -/
theorem packColumns_spec (n : Nat) (fjac : Mat) (wa1 : Vec) (R : Vec)
    (hR : R.length = n * (n + 1) / 2) : ∀ m, m ≤ n →
    ((List.range m).foldl (packColumn n fjac wa1) (R, false)).1.length = R.length ∧
    (∀ i j, i ≤ j → j < m →
      vget ((List.range m).foldl (packColumn n fjac wa1) (R, false)).1 (rowStart n i + (j - i)) =
        factorEntry n fjac wa1 i j) ∧
    (∀ o, (∀ i j, i ≤ j → j < m → o ≠ rowStart n i + (j - i)) →
      vget ((List.range m).foldl (packColumn n fjac wa1) (R, false)).1 o = vget R o) := by
  intro m
  induction m with
  | zero =>
    intro _
    exact ⟨rfl, fun i j _ hj => absurd hj (Nat.not_lt_zero j), fun o _ => rfl⟩
  | succ m ih =>
    intro hm
    obtain ⟨h1, h2, h3⟩ := ih (by omega)
    rw [List.range_succ, List.foldl_append]
    simp only [List.foldl_cons, List.foldl_nil]
    generalize (List.range m).foldl (packColumn n fjac wa1) (R, false) = r at h1 h2 h3
    obtain ⟨c1, c2, c3⟩ := packColumn_spec n m fjac wa1 r (by omega) (by rw [h1, hR])
    refine ⟨by rw [c1, h1], ?_, ?_⟩
    · intro i j hij hj
      by_cases hjm : j = m
      · subst hjm
        exact c2 i hij
      · rw [c3]
        · exact h2 i j hij (by omega)
        · intro i' hi' he
          have := (cell_inj n i j i' m hij (by omega) hi' (by omega) he).2
          omega
    · intro o ho
      rw [c3 o (fun i hi => ho i m hi (by omega))]
      exact h3 o (fun i j hij hj => ho i j hij (by omega))

end Packed

section Predicted

/-- The inner loop of the predicted-reduction loop (lines 274-277) over `m` columns from column
`i` on: it reads the `m` consecutive cells from `l` on, and leaves `l + m`. -/
theorem predInner_spec (R p : Vec) (i : Nat) : ∀ (m : Nat) (a : ℚ) (l : Nat),
    (List.range' i m).foldl
        (fun (s : ℚ × Nat) j => (s.1 + vget R s.2 * vget p j, s.2 + 1)) (a, l) =
      (a + ∑ t ∈ Finset.range m, vget R (l + t) * vget p (i + t), l + m) := by
  intro m
  induction m with
  | zero => intro a l; simp
  | succ m ih =>
    intro a l
    rw [List.range'_concat, List.foldl_append, ih]
    simp [Finset.sum_range_succ, add_assoc]

/-- Row `i` of the predicted-reduction loop: it reads the cells of row `i` of the packed factor,
from `l` on, and leaves `l` at the start of the next row. -/
theorem predRow_spec (n : Nat) (R p qtf : Vec) (a : Vec × Nat) (i : Nat) :
    predRow n R p qtf a i =
      (vset a.1 i (vget qtf i + ∑ t ∈ Finset.range (n - i), vget R (a.2 + t) * vget p (i + t)),
        a.2 + (n - i)) := by
  unfold predRow
  simp only []
  rw [predInner_spec]
  simp

/-- The predicted-reduction loop after `m` rows: `l` is the start of row `m`, and the entries
`0..m-1` of `wa3` hold `qtf + R p`, with `R` read in the packed layout. -/
theorem predRows_spec (n : Nat) (R p qtf wa3 : Vec) (h3 : wa3.length = n) : ∀ m, m ≤ n →
    ((List.range m).foldl (predRow n R p qtf) (wa3, 0)).2 = rowStart n m ∧
    ((List.range m).foldl (predRow n R p qtf) (wa3, 0)).1.length = n ∧
    (∀ i, i < m → vget ((List.range m).foldl (predRow n R p qtf) (wa3, 0)).1 i =
      vget qtf i + ∑ j ∈ Finset.Ico i n, upper n R i j * vget p j) ∧
    (∀ i, m ≤ i → vget ((List.range m).foldl (predRow n R p qtf) (wa3, 0)).1 i = vget wa3 i) := by
  intro m
  induction m with
  | zero =>
    intro _
    exact ⟨by simp [rowStart], h3, fun i hi => absurd hi (Nat.not_lt_zero i), fun i _ => rfl⟩
  | succ m ih =>
    intro hm
    obtain ⟨h1, h2, h4, h5⟩ := ih (by omega)
    rw [List.range_succ, List.foldl_append]
    simp only [List.foldl_cons, List.foldl_nil]
    generalize (List.range m).foldl (predRow n R p qtf) (wa3, 0) = r at h1 h2 h4 h5
    rw [predRow_spec]
    refine ⟨by simp only []; rw [h1, rowStart_succ], by simp only []; rw [vset_length, h2],
      ?_, ?_⟩
    · intro i hi
      simp only []
      rw [vget_vset]
      by_cases him : i = m
      · subst him
        rw [if_pos ⟨rfl, by omega⟩, h1, Finset.sum_Ico_eq_sum_range]
        congr 1
        apply Finset.sum_congr rfl
        intro t _
        simp [upper]
      · rw [if_neg (by omega)]
        exact h4 i (by omega)
    · intro i hi
      simp only []
      rw [vget_vset, if_neg (by omega)]
      exact h5 i (by omega)

end Predicted

section Layout

/-- C17, as stated, fails: for `n = 2` the diagonal entry of column `1` (here `wa1[1] = 8`) is
stored at offset `2`, while `j + sum_{k<j} (n - k)` is `3`, which lies outside `R`. -/
theorem diagonal_offset_is_not_j_plus_sum :
    (packR 2 [1, 2, 3, 4] [7, 8] [0, 0, 0]).1 = [7, 3, 8] ∧ 1 + rowStart 2 1 = 3 ∧
    vget (packR 2 [1, 2, 3, 4] [7, 8] [0, 0, 0]).1 2 = 8 ∧
    vget (packR 2 [1, 2, 3, 4] [7, 8] [0, 0, 0]).1 (1 + rowStart 2 1) ≠ 8 := by
  decide!

/-- C17, amended. In the packing loop that copies the triangular factor into `R` (length
`n(n+1)/2`), for every `n >= 1` and every column `j` in `0..n-1` the diagonal entry of column `j`
is stored at offset `sum_{k<j} (n - k)`, which is `j + sum_{k<j} (n - k - 1)`, and the entry
`(i, j)` with `i < j` is stored at the offset reached from `j` by adding the strides
`n - i' - 1` for `i' = 0..i-1`, which is the value of `l` when row `i` is written; all these
offsets lie inside `R`. -/
theorem packing_offsets (n : Nat) (fjac : Mat) (wa1 R : Vec) (j : Nat)
    (hR : R.length = n * (n + 1) / 2) (hj : j < n) :
    (rowStart n j = strideOffset n j j ∧ rowStart n j < n * (n + 1) / 2 ∧
      vget (packR n fjac wa1 R).1 (rowStart n j) = vget wa1 j) ∧
    (∀ i, i < j →
      strideOffset n i j < n * (n + 1) / 2 ∧
      vget (packR n fjac wa1 R).1 (strideOffset n i j) = mget n fjac i j ∧
      ((List.range i).foldl
        (fun (a : Vec × Nat) k => (vset a.1 a.2 (mget n fjac k j), a.2 + n - k - 1)) (R, j)).2 =
        strideOffset n i j) := by
  obtain ⟨_, h2, _⟩ := packColumns_spec n fjac wa1 R hR n (le_refl n)
  refine ⟨⟨?_, ?_, ?_⟩, ?_⟩
  · rw [strideOffset_eq n j j (le_refl j) (by omega)]; simp
  · simpa using (cell_lt n j j (le_refl j) hj).2
  · have := h2 j j (le_refl j) hj
    simpa [factorEntry, packR] using this
  · intro i hi
    have he := strideOffset_eq n i j (by omega) (by omega)
    refine ⟨?_, ?_, (packInner_spec n j fjac R hj hR i (by omega)).1⟩
    · rw [he]; exact (cell_lt n i j (by omega) hj).2
    · rw [he]
      have := h2 i j (by omega) hj
      simpa [factorEntry, packR, Nat.ne_of_lt hi] using this

/-- C17, amended, at a concrete input: `n = 2`, column `1`. -/
theorem packing_offsets_witness :
    (([0, 0, 0] : Vec).length = 2 * (2 + 1) / 2 ∧ 1 < 2) ∧
    rowStart 2 1 = strideOffset 2 1 1 ∧ rowStart 2 1 < 2 * (2 + 1) / 2 ∧
    vget (packR 2 [1, 2, 3, 4] [7, 8] [0, 0, 0]).1 (rowStart 2 1) = vget [7, 8] 1 :=
  ⟨⟨by decide, by decide⟩,
   (packing_offsets 2 [1, 2, 3, 4] [7, 8] [0, 0, 0] 1 (by decide) (by decide)).1⟩

/-- C18. The packing loop and the predicted-reduction loop agree on the layout of `R`: for every
`n`, every factor (`fjac(i,j)` for `i < j`, `wa1[j]` on the diagonal) and every `qtf` and `p`, if
`R` is filled by the packing loop then the predicted-reduction loop computes
`wa3[i] = qtf[i] + sum_{j >= i} U(i,j) p[j]` for every `i`. For any `R`, row `i` of the loop
starts reading at `l = sum_{k<i} (n - k)` and reads `n - i` consecutive cells, the cell
`l + (j - i)` for column `j`; `l` ends at `n(n+1)/2`, the length of `R`: every cell is read
exactly once and none outside `R`. -/
theorem predicted_agrees_with_packing (n : Nat) (fjac : Mat) (wa1 R qtf p wa3 : Vec)
    (hR : R.length = n * (n + 1) / 2) (h3 : wa3.length = n) :
    (∀ i, i < n → vget (predicted n (packR n fjac wa1 R).1 p qtf wa3) i =
      vget qtf i + ∑ j ∈ Finset.Ico i n, factorEntry n fjac wa1 i j * vget p j) ∧
    (∀ (R' : Vec) (i : Nat), i < n → vget (predicted n R' p qtf wa3) i =
      vget qtf i + ∑ j ∈ Finset.Ico i n, vget R' (rowStart n i + (j - i)) * vget p j) ∧
    (∀ (R' : Vec) (i : Nat), i ≤ n →
      ((List.range i).foldl (predRow n R' p qtf) (wa3, 0)).2 = rowStart n i) ∧
    (∀ (R' : Vec) (a : Vec × Nat) (i : Nat), (predRow n R' p qtf a i).2 = a.2 + (n - i)) ∧
    ((List.range n).foldl (predRow n (packR n fjac wa1 R).1 p qtf) (wa3, 0)).2 =
      (packR n fjac wa1 R).1.length := by
  obtain ⟨c1, c2, _⟩ := packColumns_spec n fjac wa1 R hR n (le_refl n)
  have gen : ∀ (R' : Vec) (i : Nat), i < n → vget (predicted n R' p qtf wa3) i =
      vget qtf i + ∑ j ∈ Finset.Ico i n, vget R' (rowStart n i + (j - i)) * vget p j := by
    intro R' i hi
    obtain ⟨_, _, h4, _⟩ := predRows_spec n R' p qtf wa3 h3 n (le_refl n)
    unfold predicted
    rw [h4 i hi]
    congr 1
    apply Finset.sum_congr rfl
    intro j hj
    have := (Finset.mem_Ico.1 hj).1
    simp [upper, this]
  refine ⟨?_, gen, ?_, ?_, ?_⟩
  · intro i hi
    rw [gen _ i hi]
    congr 1
    apply Finset.sum_congr rfl
    intro j hj
    obtain ⟨h1, h2⟩ := Finset.mem_Ico.1 hj
    have := c2 i j h1 h2
    unfold packR
    rw [this]
  · intro R' i hi
    exact (predRows_spec n R' p qtf wa3 h3 i hi).1
  · intro R' a i
    rw [predRow_spec]
  · rw [(predRows_spec n _ p qtf wa3 h3 n (le_refl n)).1, rowStart_total]
    unfold packR
    rw [c1, hR]

/-- C18 at a concrete input: `n = 2`. -/
theorem predicted_agrees_with_packing_witness :
    (([0, 0, 0] : Vec).length = 2 * (2 + 1) / 2 ∧ ([0, 0] : Vec).length = 2) ∧
    ∀ i, i < 2 → vget (predicted 2 (packR 2 [1, 2, 3, 4] [7, 8] [0, 0, 0]).1 [10, 100] [5, 6]
        [0, 0]) i =
      vget [5, 6] i + ∑ j ∈ Finset.Ico i 2, factorEntry 2 [1, 2, 3, 4] [7, 8] i j *
        vget [10, 100] j :=
  ⟨⟨by decide, by decide⟩,
   (predicted_agrees_with_packing 2 [1, 2, 3, 4] [7, 8] [0, 0, 0] [5, 6] [10, 100] [0, 0]
      (by decide) (by decide)).1⟩

end Layout

/-! ## Induction over the passes of the inner loop -/

section Passes

variable {σ : Type}

/-- Induction over the passes: `Inv outer h st` speaks of a head of a loop reached in the state
`st` after the passes that started in the states `h`; it then holds, with `outer = false`, of
every pass of the run and the passes before it. -/
theorem passes_induct (P : Prims) (F : FunctorType σ) (jac : State σ → State σ) (c : Config)
    (Inv : Bool → List (State σ) → State σ → Prop)
    (hjac : ∀ h st, Inv true h st → ¬ (jac st).iflag < 0 → Inv false h (factorize P c (jac st)))
    (hbody : ∀ h st, Inv false h st →
      match innerBody P F c st with
      | .ret _ _ => True
      | .brk st1 => Inv true (h ++ [st]) st1
      | .cont st1 => Inv false (h ++ [st]) st1) :
    ∀ (fuel : Nat) (outer : Bool) (h : List (State σ)) (st : State σ), Inv outer h st →
      ∀ pre s post, passes P F jac c fuel outer st = pre ++ s :: post → Inv false (h ++ pre) s := by
  intro fuel
  induction fuel with
  | zero => intro outer h st _ pre s post e; simp [passes] at e
  | succ k ih =>
    intro outer h st hinv pre s post e
    rw [passes] at e
    have main : ∀ hd : State σ, Inv false h hd →
        (hd :: match innerBody P F c hd with
          | .ret _ _ => []
          | .brk st1 => passes P F jac c k true st1
          | .cont st1 => passes P F jac c k false st1) = pre ++ s :: post →
        Inv false (h ++ pre) s := by
      intro hd hhd e
      have hb := hbody h hd hhd
      cases pre with
      | nil =>
        simp only [List.nil_append, List.cons.injEq] at e
        rw [List.append_nil, ← e.1]
        exact hhd
      | cons a pre' =>
        simp only [List.cons_append, List.cons.injEq] at e
        obtain ⟨ea, et⟩ := e
        subst ea
        revert hb et
        cases innerBody P F c hd with
        | ret s1 st1 => intro _ et; simp at et
        | brk st1 =>
          intro hb et
          have := ih true (h ++ [hd]) st1 hb pre' s post et
          simpa using this
        | cont st1 =>
          intro hb et
          have := ih false (h ++ [hd]) st1 hb pre' s post et
          simpa using this
    cases outer with
    | true =>
      simp only [if_true, true_and] at e
      by_cases hf : (jac st).iflag < 0
      · rw [if_pos hf] at e
        simp at e
      · rw [if_neg hf] at e
        exact main _ (hjac h st hinv hf) e
    | false =>
      simp only [Bool.false_eq_true, if_false, false_and] at e
      exact main _ hinv e

/-- Induction over the loops with the history of the passes: as `passes_induct`, and `Post h r`
holds of every `return`, where `h` lists the passes of the whole run. -/
theorem iterate_passes_induct (P : Prims) (F : FunctorType σ) (jac : State σ → State σ)
    (c : Config) (Inv : Bool → List (State σ) → State σ → Prop)
    (Post : List (State σ) → Status × State σ → Prop)
    (hret : ∀ h st, Inv true h st → (jac st).iflag < 0 → Post h (.UserAksed, jac st))
    (hjac : ∀ h st, Inv true h st → ¬ (jac st).iflag < 0 → Inv false h (factorize P c (jac st)))
    (hbody : ∀ h st, Inv false h st →
      match innerBody P F c st with
      | .ret s st1 => Post (h ++ [st]) (s, st1)
      | .brk st1 => Inv true (h ++ [st]) st1
      | .cont st1 => Inv false (h ++ [st]) st1) :
    ∀ (fuel : Nat) (outer : Bool) (h : List (State σ)) (st : State σ) (r : Status × State σ),
      Inv outer h st → iterate P F jac c fuel outer st = some r →
      Post (h ++ passes P F jac c fuel outer st) r := by
  intro fuel
  induction fuel with
  | zero => intro outer h st r _ e; simp [iterate] at e
  | succ k ih =>
    intro outer h st r hinv e
    rw [iterate] at e
    rw [passes]
    have main : ∀ hd : State σ, Inv false h hd →
        (match innerBody P F c hd with
          | .ret s st1 => some (s, st1)
          | .brk st1 => iterate P F jac c k true st1
          | .cont st1 => iterate P F jac c k false st1) = some r →
        Post (h ++ (hd :: match innerBody P F c hd with
          | .ret _ _ => []
          | .brk st1 => passes P F jac c k true st1
          | .cont st1 => passes P F jac c k false st1)) r := by
      intro hd hhd e
      have hb := hbody h hd hhd
      revert e hb
      cases innerBody P F c hd with
      | ret s1 st1 =>
        intro e hb
        simp only [Option.some.injEq] at e
        rw [← e]
        exact hb
      | brk st1 =>
        intro e hb
        have := ih true (h ++ [hd]) st1 r hb e
        simpa using this
      | cont st1 =>
        intro e hb
        have := ih false (h ++ [hd]) st1 r hb e
        simpa using this
    cases outer with
    | true =>
      simp only [if_true, true_and] at e ⊢
      by_cases hf : (jac st).iflag < 0
      · rw [if_pos hf] at e ⊢
        simp only [Option.some.injEq] at e
        rw [← e, List.append_nil]
        exact hret h st hinv hf
      · rw [if_neg hf] at e ⊢
        exact main _ (hjac h st hinv hf) e
    | false =>
      simp only [Bool.false_eq_true, if_false, false_and] at e ⊢
      exact main _ hinv e

/-- Membership form of `passes_induct`, for invariants that do not use the history. -/
theorem passes_forall (P : Prims) (F : FunctorType σ) (jac : State σ → State σ) (c : Config)
    (Inv : Bool → State σ → Prop)
    (hjac : ∀ st, Inv true st → ¬ (jac st).iflag < 0 → Inv false (factorize P c (jac st)))
    (hbody : ∀ st, Inv false st →
      match innerBody P F c st with
      | .ret _ _ => True
      | .brk st1 => Inv true st1
      | .cont st1 => Inv false st1)
    (fuel : Nat) (outer : Bool) (st : State σ) (h0 : Inv outer st) :
    ∀ s ∈ passes P F jac c fuel outer st, Inv false s := by
  intro s hs
  obtain ⟨pre, post, e⟩ := List.append_of_mem hs
  exact passes_induct P F jac c (fun o _ t => Inv o t) (fun _ t => hjac t)
    (fun _ t ht => by
      have := hbody t ht
      revert this
      cases innerBody P F c t <;> exact id)
    fuel outer [] st h0 pre s post e

end Passes

/-! ## The passes of a whole call -/

section CallPasses

variable {σ : Type}

/-- A call has passes only on validated input whose starting evaluation is not aborted. -/
theorem solvePasses_cases (P : Prims) (F : FunctorType σ) (J : Junk) (fuel : Nat) (W : Workspace)
    (user : σ) (x diag : Vec) (mode maxfev : Int) (factor xtol : ℚ) :
    solvePasses P F J fuel W user x diag mode maxfev factor xtol = [] ∨
    (ValidInput x diag mode maxfev factor xtol ∧
      ¬ (evalStart F (initState J W user x diag)).iflag < 0 ∧
      solvePasses P F J fuel W user x diag mode maxfev factor xtol =
        passes P F (jacobianAnalytic F)
          { n := x.length, mode := mode, maxfev := maxfev, factor := factor, xtol := xtol }
          fuel true (initCounters P (evalStart F (initState J W user x diag)))) := by
  unfold solvePasses
  simp only []
  by_cases h1 : x.length ≤ 0 ∨ xtol < 0 ∨ maxfev ≤ 0 ∨ factor ≤ 0
  · left
    rw [if_pos h1]
  · rw [if_neg h1]
    by_cases h2 : mode = 2 ∧ badDiag x.length diag = true
    · left
      rw [if_pos h2]
    · rw [if_neg h2]
      by_cases h3 : (evalStart F (initState J W user x diag)).iflag < 0
      · left
        rw [if_pos h3]
      · right
        rw [if_neg h3]
        simp only [not_or, not_le, not_lt] at h1
        refine ⟨⟨h1.1, h1.2.1, h1.2.2.1, h1.2.2.2, ?_⟩, h3, rfl⟩
        intro hm j hj
        by_contra hd
        exact h2 ⟨hm, (badDiag_iff _ _).2 ⟨j, hj, not_lt.1 hd⟩⟩

/-- The passes of a validated call whose starting evaluation is not aborted. -/
theorem solvePasses_of_valid (P : Prims) (F : FunctorType σ) (J : Junk) (fuel : Nat)
    (W : Workspace) (user : σ) (x diag : Vec) (mode maxfev : Int) (factor xtol : ℚ)
    (h : ValidInput x diag mode maxfev factor xtol)
    (hf : ¬ (evalStart F (initState J W user x diag)).iflag < 0) :
    solvePasses P F J fuel W user x diag mode maxfev factor xtol =
      passes P F (jacobianAnalytic F)
        { n := x.length, mode := mode, maxfev := maxfev, factor := factor, xtol := xtol }
        fuel true (initCounters P (evalStart F (initState J W user x diag))) := by
  unfold solvePasses
  simp only []
  obtain ⟨h1, h2, h3, h4, h5⟩ := h
  have e1 : ¬ (x.length ≤ 0 ∨ xtol < 0 ∨ maxfev ≤ 0 ∨ factor ≤ 0) := by
    simp only [not_or, not_le, not_lt]
    exact ⟨h1, h2, h3, h4⟩
  have e2 : ¬ (mode = 2 ∧ badDiag x.length diag = true) := by
    rintro ⟨hm, hb⟩
    obtain ⟨j, hj, hd⟩ := (badDiag_iff _ _).1 hb
    exact absurd (h5 hm j hj) (not_lt.2 hd)
  rw [if_neg e1, if_neg e2, if_neg hf]

/-- The three ways a pass can end, as a rule for a `match` on its result. -/
theorem innerBody_match (P : Prims) (F : FunctorType σ) (c : Config) (st : State σ)
    (A : Status → State σ → Prop) (B C : State σ → Prop)
    (hA1 : (evalTrial F (direction P st)).iflag < 0 →
      A .UserAksed (evalTrial F (direction P st)))
    (hA2 : ¬ (evalTrial F (direction P st)).iflag < 0 →
      ∀ s, terminationTest P c (passEnd P F c st) = some s → A s (passEnd P F c st))
    (hB : ¬ (evalTrial F (direction P st)).iflag < 0 →
      terminationTest P c (passEnd P F c st) = none → (passEnd P F c st).ncfail = 2 →
      B (passEnd P F c st))
    (hC : ¬ (evalTrial F (direction P st)).iflag < 0 →
      terminationTest P c (passEnd P F c st) = none → (passEnd P F c st).ncfail ≠ 2 →
      C (broydenUpdate P c (passEnd P F c st))) :
    match innerBody P F c st with
    | .ret s st1 => A s st1
    | .brk st1 => B st1
    | .cont st1 => C st1 := by
  rcases innerBody_cases P F c st with ⟨hf, e⟩ | ⟨hf, s, ht, e⟩ | ⟨hf, ht, hn, e⟩ | ⟨hf, ht, hn, e⟩
  · rw [e]
    exact hA1 hf
  · rw [e]
    exact hA2 hf s ht
  · rw [e]
    exact hB hf ht hn
  · rw [e]
    exact hC hf ht hn

end CallPasses

/-! ## The trust radius at the calls of `dogleg` -/

section Radius

variable {σ : Type}

/-- Lines 188-196: what the factorization step does to `xnorm` and `delta`. -/
theorem factorize_radius (P : Prims) (c : Config) (st : State σ) :
    (st.iter = 1 →
      (factorize P c st).xnorm = P.stableNorm (cwiseMul
        (if c.mode ≠ 2 then initDiag c.n (P.qrfac c.n st.fjac).2.2 st.diag else st.diag) st.x) ∧
      (factorize P c st).delta =
        (if c.factor * (factorize P c st).xnorm = 0 then c.factor
          else c.factor * (factorize P c st).xnorm)) ∧
    (st.iter ≠ 1 →
      (factorize P c st).xnorm = st.xnorm ∧ (factorize P c st).delta = st.delta) := by
  constructor
  · intro h
    unfold factorize firstIteration
    simp only [if_pos h]
    split <;> exact ⟨rfl, rfl⟩
  · intro h
    unfold factorize firstIteration
    simp only [if_neg h]
    split <;> exact ⟨rfl, rfl⟩

/-- Lines 310-318: with non-negative norms, `xnorm` stays non-negative over a pass. -/
theorem passEnd_xnorm_nonneg (P : Prims) (F : FunctorType σ) (c : Config) (st : State σ)
    (hnorm : ∀ v, 0 ≤ P.stableNorm v) (h : 0 ≤ st.xnorm) : 0 ≤ (passEnd P F c st).xnorm := by
  unfold passEnd afterTrial
  simp only [progress_frame]
  unfold acceptStep
  split
  · exact hnorm _
  · simpa using h

/-- The trust radius at the end of a pass is the one the update of the step bound leaves. -/
theorem passEnd_delta (P : Prims) (F : FunctorType σ) (c : Config) (st : State σ) :
    (passEnd P F c st).delta =
      (updateStepBound (reductions P c (evalTrial F (direction P st)))).delta := by
  unfold passEnd afterTrial
  simp

/-- The largest absolute value of a list is not negative. -/
theorem foldl_max_ge (l : List ℚ) : ∀ a : ℚ, a ≤ l.foldl max a := by
  induction l with
  | nil => intro a; exact le_refl a
  | cons b l ih => intro a; exact le_trans (le_max_left a b) (ih (max a b))

/-- The norm of the one-dimensional instance is not negative. -/
theorem norm1_nonneg (v : Vec) : 0 ≤ norm1 v := foldl_max_ge _ 0

/-- C14. With non-negative norms, `delta > 0` holds at every call of `dogleg` of a call of the
full analytic form (which has such calls only on valid input: `factor > 0`, `xtol >= 0`). At the
first call `delta` is `factor * xnorm` or `factor`; every pass that ends with
`delta <= xtol * xnorm` returns instead of looping; and on the first iteration a step with
`pnorm = 0` leaves `delta = 0` at the end of the pass, which then returns. -/
theorem delta_positive_at_dogleg (P : Prims) (F : FunctorType σ) (J : Junk) (fuel : Nat)
    (W : Workspace) (user : σ) (x diag : Vec) (mode maxfev : Int) (factor xtol : ℚ)
    (hnorm : ∀ v, 0 ≤ P.stableNorm v) :
    (∀ s ∈ solvePasses P F J fuel W user x diag mode maxfev factor xtol, 0 < s.delta) ∧
    ((firstHead P F J W user x diag mode maxfev factor xtol).delta =
        factor * (firstHead P F J W user x diag mode maxfev factor xtol).xnorm ∨
      (firstHead P F J W user x diag mode maxfev factor xtol).delta = factor) ∧
    (∀ (c : Config) (st : State σ),
      (passEnd P F c st).delta ≤ c.xtol * (passEnd P F c st).xnorm →
      ∃ s e, innerBody P F c st = .ret s e) ∧
    (∀ (c : Config) (st : State σ), st.iter = 1 → 0 ≤ st.delta → (direction P st).pnorm = 0 →
      (passEnd P F c st).delta = 0 ∧
      (0 ≤ c.xtol → 0 ≤ st.xnorm → ∃ s e, innerBody P F c st = .ret s e)) := by
  have ret : ∀ (c : Config) (st : State σ),
      (passEnd P F c st).delta ≤ c.xtol * (passEnd P F c st).xnorm →
      ∃ s e, innerBody P F c st = .ret s e := by
    intro c st h
    rcases innerBody_cases P F c st with ⟨_, e⟩ | ⟨_, s, _, e⟩ | ⟨_, ht, _, _⟩ | ⟨_, ht, _, _⟩
    · exact ⟨_, _, e⟩
    · exact ⟨_, _, e⟩
    · exfalso
      have ht' : terminationTest P c (passEnd P F c st) = none := ht
      unfold terminationTest at ht'
      rw [if_pos (Or.inl h)] at ht'
      cases ht'
    · exfalso
      have ht' : terminationTest P c (passEnd P F c st) = none := ht
      unfold terminationTest at ht'
      rw [if_pos (Or.inl h)] at ht'
      cases ht'
  refine ⟨?_, ?_, ret, ?_⟩
  · intro s hs
    rcases solvePasses_cases P F J fuel W user x diag mode maxfev factor xtol with e | ⟨hv, _, e⟩
    · rw [e] at hs
      cases hs
    · rw [e] at hs
      obtain ⟨_, hxtol, _, hfac, _⟩ := hv
      refine (passes_forall P F (jacobianAnalytic F)
        { n := x.length, mode := mode, maxfev := maxfev, factor := factor, xtol := xtol }
        (fun o t => if o = true then t.iter = 1 ∨ (0 < t.delta ∧ 0 ≤ t.xnorm)
          else (0 < t.delta ∧ 0 ≤ t.xnorm)) ?_ ?_ fuel true _ ?_ s hs).1
      · intro t ht _
        simp only [if_true] at ht
        simp only [Bool.false_eq_true, if_false]
        by_cases h1 : (jacobianAnalytic F t).iter = 1
        · obtain ⟨a, b⟩ := (factorize_radius P _ (jacobianAnalytic F t)).1 h1
          have hx : 0 ≤ (factorize P
              { n := x.length, mode := mode, maxfev := maxfev, factor := factor, xtol := xtol }
              (jacobianAnalytic F t)).xnorm := by
            rw [a]
            exact hnorm _
          refine ⟨?_, hx⟩
          rw [b]
          split
          · exact hfac
          · exact lt_of_le_of_ne (mul_nonneg (le_of_lt hfac) hx) (Ne.symm (by assumption))
        · obtain ⟨a, b⟩ := (factorize_radius P _ (jacobianAnalytic F t)).2 h1
          rw [a, b]
          have h1' : ¬ t.iter = 1 := by simpa using h1
          rcases ht with ht | ht
          · exact absurd ht h1'
          · simpa using ht
      · intro t ht
        simp only [Bool.false_eq_true, if_false] at ht
        have hx := passEnd_xnorm_nonneg P F
          { n := x.length, mode := mode, maxfev := maxfev, factor := factor, xtol := xtol } t
          hnorm ht.2
        have pos : terminationTest P
            { n := x.length, mode := mode, maxfev := maxfev, factor := factor, xtol := xtol }
            (passEnd P F
              { n := x.length, mode := mode, maxfev := maxfev, factor := factor, xtol := xtol }
              t) = none →
            0 < (passEnd P F
              { n := x.length, mode := mode, maxfev := maxfev, factor := factor, xtol := xtol }
              t).delta := by
          intro hn
          unfold terminationTest at hn
          split_ifs at hn with h1
          simp only [not_or, not_le] at h1
          exact lt_of_le_of_lt (mul_nonneg hxtol hx) h1.1
        apply innerBody_match
        · intro _; trivial
        · intro _ _ _; trivial
        · intro _ hn _
          simp only [if_true]
          exact Or.inr ⟨pos hn, hx⟩
        · intro _ hn _
          simp only [Bool.false_eq_true, if_false, broydenUpdate_frame2]
          exact ⟨pos hn, hx⟩
      · simp only [if_true]
        left
        rfl
  · have h1 : (jacobianAnalytic F (initCounters P (evalStart F (initState J W user x diag)))).iter
        = 1 := rfl
    obtain ⟨_, b⟩ := (factorize_radius P
      { n := x.length, mode := mode, maxfev := maxfev, factor := factor, xtol := xtol } _).1 h1
    unfold firstHead
    rw [b]
    split
    · right; rfl
    · left; rfl
  · intro c st hi hd hp
    have h0 : (passEnd P F c st).delta = 0 := by
      rw [passEnd_delta]
      have d0 : (reductions P c (evalTrial F (direction P st))).delta = 0 := by
        simp only [reductions_frame2, evalTrial_frame2, direction_frame2, if_pos hi]
        have hp' := hp
        simp only [direction_frame2] at hp'
        rw [hp']
        exact min_eq_right hd
      have p0 : (reductions P c (evalTrial F (direction P st))).pnorm = 0 := by
        simp only [reductions_frame2, evalTrial_frame2]
        exact hp
      unfold updateStepBound
      split
      · simp only [d0]
        norm_num
      · simp only [d0, p0]
        split_ifs <;> simp
    refine ⟨h0, ?_⟩
    intro hx hn
    apply ret
    rw [h0]
    have := passEnd_xnorm_nonneg P F c st hnorm hn
    exact mul_nonneg hx this

/-- C14 on a run: `F(x) = x^2 + 1` from `x = 1` with the one-dimensional primitives, whose norm is
not negative; the call makes eleven passes and `delta > 0` at each. -/
theorem delta_positive_at_dogleg_witness :
    (solvePasses prims1 noZeroFunctor junk0 30 emptyWorkspace () [1] [1] 1 30 100 0).length = 11 ∧
    ∀ s ∈ solvePasses prims1 noZeroFunctor junk0 30 emptyWorkspace () [1] [1] 1 30 100 0,
      0 < s.delta :=
  ⟨by decide!,
   (delta_positive_at_dogleg prims1 noZeroFunctor junk0 30 emptyWorkspace () [1] [1] 1 30 100 0
      (fun v => norm1_nonneg v)).1⟩

end Radius

/-! ## The scaling and the first trust radius -/

section Scaling

variable {σ : Type}

/-- Reading a componentwise combination of two vectors. -/
theorem vget_zipWith (f : ℚ → ℚ → ℚ) (a b : Vec) (i : Nat) (ha : i < a.length)
    (hb : i < b.length) : vget (List.zipWith f a b) i = f (vget a i) (vget b i) := by
  unfold vget
  simp [List.getD_eq_getElem?_getD, List.getElem?_zipWith, List.getElem?_eq_getElem ha,
    List.getElem?_eq_getElem hb]

/-- Two vectors of the same length with the same entries are equal. -/
theorem vec_ext (n : Nat) (a b : Vec) (ha : a.length = n) (hb : b.length = n)
    (h : ∀ i, i < n → vget a i = vget b i) : a = b := by
  apply List.ext_getElem (by rw [ha, hb])
  intro i h1 h2
  have := h i (by omega)
  unfold vget at this
  simpa [List.getD_eq_getElem?_getD, List.getElem?_eq_getElem h1,
    List.getElem?_eq_getElem h2] using this

/-- Lines 181-186 after `m` columns. -/
theorem initDiag_loop (w d : Vec) : ∀ m, m ≤ d.length →
    ((List.range m).foldl
      (fun d j => if vget w j = 0 then vset (vset d j (vget w j)) j 1 else vset d j (vget w j))
      d).length = d.length ∧
    (∀ j, j < m → vget ((List.range m).foldl
      (fun d j => if vget w j = 0 then vset (vset d j (vget w j)) j 1 else vset d j (vget w j))
      d) j = if vget w j = 0 then 1 else vget w j) ∧
    (∀ j, m ≤ j → vget ((List.range m).foldl
      (fun d j => if vget w j = 0 then vset (vset d j (vget w j)) j 1 else vset d j (vget w j))
      d) j = vget d j) := by
  intro m
  induction m with
  | zero => intro _; exact ⟨rfl, fun j hj => absurd hj (Nat.not_lt_zero j), fun _ _ => rfl⟩
  | succ m ih =>
    intro hm
    obtain ⟨h1, h2, h3⟩ := ih (by omega)
    rw [List.range_succ, List.foldl_append]
    simp only [List.foldl_cons, List.foldl_nil]
    generalize (List.range m).foldl
      (fun d j => if vget w j = 0 then vset (vset d j (vget w j)) j 1 else vset d j (vget w j))
      d = r at h1 h2 h3
    have hmr : m < r.length := by omega
    by_cases hz : vget w m = 0
    · simp only [if_pos hz]
      refine ⟨by rw [vset_length, vset_length, h1], ?_, ?_⟩
      · intro j hj
        rw [vget_vset, vget_vset, vset_length]
        by_cases hjm : m = j
        · subst hjm
          simp [hmr, hz]
        · rw [if_neg (fun h => hjm h.1), if_neg (fun h => hjm h.1)]
          exact h2 j (by omega)
      · intro j hj
        rw [vget_vset, vget_vset, if_neg (fun h => by omega), if_neg (fun h => by omega)]
        exact h3 j (by omega)
    · simp only [if_neg hz]
      refine ⟨by rw [vset_length, h1], ?_, ?_⟩
      · intro j hj
        rw [vget_vset]
        by_cases hjm : m = j
        · subst hjm
          simp [hmr, hz]
        · rw [if_neg (fun h => hjm h.1)]
          exact h2 j (by omega)
      · intro j hj
        rw [vget_vset, if_neg (fun h => by omega)]
        exact h3 j (by omega)

/-- Lines 181-186: the first-iteration scaling replaces `diag` by the column norms, with `1` in
the place of a zero. -/
theorem initDiag_spec (n : Nat) (w d : Vec) (hd : d.length = n) :
    (initDiag n w d).length = n ∧
    ∀ j, j < n → vget (initDiag n w d) j = if vget w j = 0 then 1 else vget w j := by
  obtain ⟨h1, h2, _⟩ := initDiag_loop w d n (by omega)
  unfold initDiag
  exact ⟨by rw [h1, hd], h2⟩

/-- Lines 180-234: the scaling after the factorization step. -/
theorem factorize_diag (P : Prims) (c : Config) (st : State σ) :
    (factorize P c st).diag =
      if c.mode ≠ 2 then
        cwiseMax (if st.iter = 1 then initDiag c.n (P.qrfac c.n st.fjac).2.2 st.diag else st.diag)
          (P.qrfac c.n st.fjac).2.2
      else st.diag := by
  unfold factorize firstIteration
  by_cases hm : c.mode ≠ 2
  · by_cases hi : st.iter = 1
    · simp only [if_pos hm, if_pos hi]
    · simp only [if_pos hm, if_neg hi]
  · by_cases hi : st.iter = 1
    · simp only [if_neg hm, if_pos hi]
    · simp only [if_neg hm, if_neg hi]

/-- The rescaling of line 234 leaves the first-iteration scaling as it is. -/
theorem cwiseMax_initDiag (n : Nat) (w d : Vec) (hd : d.length = n) (hw : w.length = n) :
    cwiseMax (initDiag n w d) w = initDiag n w d := by
  obtain ⟨h1, h2⟩ := initDiag_spec n w d hd
  apply vec_ext n _ _ (by simp [cwiseMax, h1, hw]) h1
  intro i hi
  unfold cwiseMax
  rw [vget_zipWith _ _ _ _ (by omega) (by omega), h2 i hi]
  by_cases hz : vget w i = 0
  · rw [if_pos hz, hz]
    norm_num
  · rw [if_neg hz]
    exact max_self _

end Scaling

section FirstRadius

variable {σ : Type}

/-- The norm of the one-dimensional instance vanishes on the zero vector only. -/
theorem norm1_eq_zero (v : Vec) (h : v.length = 1) :
    norm1 v = 0 ↔ ∀ i, i < 1 → vget v i = 0 := by
  match v, h with
  | [a], _ =>
    have e : norm1 [a] = max 0 |a| := rfl
    have g : vget [a] 0 = a := rfl
    rw [e]
    constructor
    · intro h0 i hi
      have hi0 : i = 0 := by omega
      subst hi0
      rw [g]
      have : |a| ≤ 0 := by
        rw [← h0]
        exact le_max_right _ _
      exact abs_eq_zero.1 (le_antisymm this (abs_nonneg a))
    · intro h0
      have := h0 0 (by omega)
      rw [g] at this
      rw [this]
      simp

end FirstRadius

/-! ## The scaling over a whole call -/

section Trace

variable {σ : Type}

/-- Induction over the passes and the returns together. -/
theorem trace_induct (P : Prims) (F : FunctorType σ) (jac : State σ → State σ)
    (c : Config) (Inv : Bool → List (State σ) → State σ → Prop)
    (Post : List (State σ) → Status × State σ → Prop)
    (hret : ∀ h st, Inv true h st → (jac st).iflag < 0 → Post h (.UserAksed, jac st))
    (hjac : ∀ h st, Inv true h st → ¬ (jac st).iflag < 0 → Inv false h (factorize P c (jac st)))
    (hbody : ∀ h st, Inv false h st →
      match innerBody P F c st with
      | .ret s st1 => Post (h ++ [st]) (s, st1)
      | .brk st1 => Inv true (h ++ [st]) st1
      | .cont st1 => Inv false (h ++ [st]) st1)
    (fuel : Nat) (outer : Bool) (h : List (State σ)) (st : State σ) (h0 : Inv outer h st) :
    (∀ pre s post, passes P F jac c fuel outer st = pre ++ s :: post → Inv false (h ++ pre) s) ∧
    (∀ r, iterate P F jac c fuel outer st = some r →
      Post (h ++ passes P F jac c fuel outer st) r) := by
  constructor
  · refine passes_induct P F jac c Inv hjac ?_ fuel outer h st h0
    intro h1 t ht
    have := hbody h1 t ht
    revert this
    cases innerBody P F c t with
    | ret s st1 => intro _; trivial
    | brk st1 => exact id
    | cont st1 => exact id
  · intro r hr
    exact iterate_passes_induct P F jac c Inv Post hret hjac hbody fuel outer h st r h0 hr

/-- Lines 310-318: a pass either accepts its trial point, and `iter` is incremented, or leaves
`x` and `iter` alone. -/
theorem passEnd_step (P : Prims) (F : FunctorType σ) (c : Config) (st : State σ) :
    (passEnd P F c st).iter = st.iter + 1 ∨
    ((passEnd P F c st).iter = st.iter ∧ (passEnd P F c st).x = st.x) := by
  unfold passEnd
  by_cases hr : (reductions P c (evalTrial F (direction P st))).ratio ≥ 1 / 10000
  · left
    rw [(afterTrial_accept P c _ hr).2.2.2]
    simp
  · right
    obtain ⟨a, _, _, b⟩ := afterTrial_reject P c _ hr
    rw [a, b]
    simp

/-- A pass leaves the scaling alone. -/
theorem passEnd_diag (P : Prims) (F : FunctorType σ) (c : Config) (st : State σ) :
    (passEnd P F c st).diag = st.diag := by
  unfold passEnd afterTrial
  simp

/-- The first-iteration scaling overwrites every entry. -/
theorem initDiag_indep (n : Nat) (w d d2 : Vec) (hd : d.length = n) (hd2 : d2.length = n) :
    initDiag n w d = initDiag n w d2 := by
  obtain ⟨a1, a2⟩ := initDiag_spec n w d hd
  obtain ⟨b1, b2⟩ := initDiag_spec n w d2 hd2
  apply vec_ext n _ _ a1 b1
  intro i hi
  rw [a2 i hi, b2 i hi]

end Trace

section DiagMonotone

variable {σ : Type}

/-- C15 as stated fails: `F(x) = x - 3` from `x0 = 0` in mode 1 with the caller's `diag = [5]`.
The Jacobian has the column norm 1, the first-iteration assignment sets `diag[0] = 1`, below the
value 5 that the caller passed in, and the call returns with `diag[0] = 1`. -/
theorem diag_lowered_below_caller_value :
    vget (firstHead prims1 shiftFunctor junk0 emptyWorkspace () [0] [5] 1 30 100 0).diag 0 = 1 ∧
    (∃ r, solve prims1 shiftFunctor junk0 (fuelBound 30) emptyWorkspace () [0] [5] 1 30 100 0 =
        some r ∧ vget r.2.diag 0 = 1 ∧ vget r.2.diag 0 < vget [5] 0) ∧
    ¬ (∀ s ∈ solvePasses prims1 shiftFunctor junk0 (fuelBound 30) emptyWorkspace () [0] [5] 1 30
        100 0, vget [5] 0 ≤ vget s.diag 0) := by
  refine ⟨by decide!, ?_, ?_⟩
  · have h : (solve prims1 shiftFunctor junk0 (fuelBound 30) emptyWorkspace () [0] [5] 1 30 100
        0).isSome = true := by decide!
    obtain ⟨r, hr⟩ := Option.isSome_iff_exists.1 h
    refine ⟨r, hr, ?_, ?_⟩
    · have e : (solve prims1 shiftFunctor junk0 (fuelBound 30) emptyWorkspace () [0] [5] 1 30 100
          0).map (fun r => vget r.2.diag 0) = some 1 := by decide!
      rw [hr] at e
      simpa using e
    · have e : (solve prims1 shiftFunctor junk0 (fuelBound 30) emptyWorkspace () [0] [5] 1 30 100
          0).map (fun r => decide (vget r.2.diag 0 < vget [5] 0)) = some true := by decide!
      rw [hr] at e
      simpa using e
  · intro h
    have e : (solvePasses prims1 shiftFunctor junk0 (fuelBound 30) emptyWorkspace () [0] [5] 1 30
        100 0).all (fun s => decide (vget [5] 0 ≤ vget s.diag 0)) = false := by decide!
    rw [List.all_eq_false] at e
    obtain ⟨s, hs, hn⟩ := e
    exact hn (by simpa using h s hs)

/-- C15, amended. When `mode` is not 2, the Jacobian callback writes a function `Jv` of the point,
`diag` has `n` entries and `qrfac` returns `n` column norms: the first-iteration assignment
overwrites the caller's `diag` with the column norms (zeros replaced by 1), and from then on
`diag` is componentwise non-decreasing: the scaling at a call of `dogleg` is at least the scaling
at every earlier call, the scaling on return is at least the scaling at every call, and after
each Jacobian evaluation `diag[j] >= wa2[j]`, the column norm of that Jacobian. -/
theorem diag_monotone_after_first_scaling (P : Prims) (F : FunctorType σ) (J : Junk)
    (fuel : Nat) (W : Workspace) (user : σ) (x diag : Vec) (mode maxfev : Int)
    (factor xtol : ℚ) (Jv : Vec → Mat) (hmode : mode ≠ 2)
    (hdf : ∀ u y buf, (F.df u y buf).2.2 = Jv y) (hd : diag.length = x.length)
    (hw : ∀ A, (P.qrfac x.length A).2.2.length = x.length) :
    (∀ j, j < x.length →
      vget (firstHead P F J W user x diag mode maxfev factor xtol).diag j =
        if vget (P.qrfac x.length (Jv x)).2.2 j = 0 then 1
        else vget (P.qrfac x.length (Jv x)).2.2 j) ∧
    (∀ pre s post, solvePasses P F J fuel W user x diag mode maxfev factor xtol =
        pre ++ s :: post →
      ∀ a ∈ pre, ∀ j, j < x.length → vget a.diag j ≤ vget s.diag j) ∧
    (∀ s ∈ solvePasses P F J fuel W user x diag mode maxfev factor xtol, s.jeval = true →
      s.wa2 = (P.qrfac x.length (Jv s.x)).2.2 ∧
      ∀ j, j < x.length → vget s.wa2 j ≤ vget s.diag j) ∧
    (∀ r, solve P F J fuel W user x diag mode maxfev factor xtol = some r →
      ∀ s ∈ solvePasses P F J fuel W user x diag mode maxfev factor xtol,
        ∀ j, j < x.length → vget s.diag j ≤ vget r.2.diag j) := by
  have hmax : ∀ (a b : Vec), a.length = x.length → b.length = x.length →
      (cwiseMax a b).length = x.length ∧
      ∀ j, j < x.length → vget (cwiseMax a b) j = max (vget a j) (vget b j) := by
    intro a b ha hb
    refine ⟨by simp [cwiseMax, ha, hb], ?_⟩
    intro j hj
    unfold cwiseMax
    rw [vget_zipWith _ _ _ _ (by omega) (by omega)]
  have hfd : ∀ t : State σ,
      (factorize P
        { n := x.length, mode := mode, maxfev := maxfev, factor := factor, xtol := xtol }
        (jacobianAnalytic F t)).diag =
      cwiseMax (if t.iter = 1 then initDiag x.length (P.qrfac x.length (Jv t.x)).2.2 t.diag
        else t.diag) (P.qrfac x.length (Jv t.x)).2.2 := by
    intro t
    rw [factorize_diag]
    simp only [jacobianAnalytic_frame, jacobianAnalytic_frame2, hdf]
    rw [if_pos hmode]
  have hfw : ∀ t : State σ,
      (factorize P
        { n := x.length, mode := mode, maxfev := maxfev, factor := factor, xtol := xtol }
        (jacobianAnalytic F t)).wa2 = (P.qrfac x.length (Jv t.x)).2.2 := by
    intro t
    simp only [factorize_frame2, jacobianAnalytic_frame2, hdf]
  have hfirst : (firstHead P F J W user x diag mode maxfev factor xtol).diag =
      initDiag x.length (P.qrfac x.length (Jv x)).2.2 diag := by
    unfold firstHead
    rw [hfd]
    have h1 : (initCounters P (evalStart F (initState J W user x diag))).iter = 1 := rfl
    have h2 : (initCounters P (evalStart F (initState J W user x diag))).x = x := rfl
    have h3 : (initCounters P (evalStart F (initState J W user x diag))).diag = diag := rfl
    rw [if_pos h1, h2, h3]
    exact cwiseMax_initDiag _ _ _ hd (hw _)
  have key := trace_induct P F (jacobianAnalytic F)
    { n := x.length, mode := mode, maxfev := maxfev, factor := factor, xtol := xtol }
    (fun o h t => t.diag.length = x.length ∧ 1 ≤ t.iter ∧ (t.iter = 1 → t.x = x) ∧
      (∀ s ∈ h, ∀ j, j < x.length → vget s.diag j ≤ vget t.diag j) ∧
      ((o = false ∨ h ≠ []) → t.iter = 1 →
        t.diag = initDiag x.length (P.qrfac x.length (Jv x)).2.2 diag) ∧
      (∀ s ∈ h, s.jeval = true → s.wa2 = (P.qrfac x.length (Jv s.x)).2.2 ∧
        ∀ j, j < x.length → vget s.wa2 j ≤ vget s.diag j) ∧
      (o = false → t.jeval = true → t.wa2 = (P.qrfac x.length (Jv t.x)).2.2 ∧
        ∀ j, j < x.length → vget t.wa2 j ≤ vget t.diag j))
    (fun h r => ∀ s ∈ h, ∀ j, j < x.length → vget s.diag j ≤ vget r.2.diag j)
    (by
      rintro h t ⟨_, _, _, i4, _, _, _⟩ _
      exact i4)
    (by
      rintro h t ⟨i1, i2, i3, i4, i5, i6, _⟩ _
      have e1 : (factorize P
          { n := x.length, mode := mode, maxfev := maxfev, factor := factor, xtol := xtol }
          (jacobianAnalytic F t)).iter = t.iter := by simp
      have e2 : (factorize P
          { n := x.length, mode := mode, maxfev := maxfev, factor := factor, xtol := xtol }
          (jacobianAnalytic F t)).x = t.x := by simp
      have e3 : (factorize P
          { n := x.length, mode := mode, maxfev := maxfev, factor := factor, xtol := xtol }
          (jacobianAnalytic F t)).jeval = true := by simp
      rw [e1, e2, hfd, hfw]
      by_cases hi : t.iter = 1
      · rw [if_pos hi, i3 hi, initDiag_indep _ _ t.diag diag i1 hd,
          cwiseMax_initDiag _ _ _ hd (hw _)]
        obtain ⟨s1, s2⟩ := initDiag_spec x.length (P.qrfac x.length (Jv x)).2.2 diag hd
        refine ⟨s1, i2, fun _ => rfl, ?_, fun _ _ => rfl, i6, fun _ _ => ⟨rfl, ?_⟩⟩
        · intro s hs j hj
          have := i4 s hs j hj
          rw [i5 (Or.inr (List.ne_nil_of_mem hs)) hi] at this
          exact this
        · intro j hj
          rw [s2 j hj]
          split
          · rename_i hz
            rw [hz]
            norm_num
          · exact le_refl _
      · rw [if_neg hi]
        obtain ⟨m1, m2⟩ := hmax t.diag (P.qrfac x.length (Jv t.x)).2.2 i1 (hw _)
        refine ⟨m1, i2, fun h1 => absurd h1 hi, ?_, fun _ h1 => absurd h1 hi, i6,
          fun _ _ => ⟨rfl, ?_⟩⟩
        · intro s hs j hj
          rw [m2 j hj]
          exact le_trans (i4 s hs j hj) (le_max_left _ _)
        · intro j hj
          rw [m2 j hj]
          exact le_max_right _ _)
    (by
      rintro h t ⟨i1, i2, i3, i4, i5, i6, i7⟩
      have hmem : ∀ (d : Vec), d = t.diag →
          ∀ s ∈ h ++ [t], ∀ j, j < x.length → vget s.diag j ≤ vget d j := by
        intro d hd s hs j hj
        rw [hd]
        rcases List.mem_append.1 hs with hs | hs
        · exact i4 s hs j hj
        · rw [List.mem_singleton.1 hs]
      have hjev : ∀ s ∈ h ++ [t], s.jeval = true →
          s.wa2 = (P.qrfac x.length (Jv s.x)).2.2 ∧
          ∀ j, j < x.length → vget s.wa2 j ≤ vget s.diag j := by
        intro s hs
        rcases List.mem_append.1 hs with hs | hs
        · exact i6 s hs
        · rw [List.mem_singleton.1 hs]
          exact i7 rfl
      have hstep : ∀ e : State σ,
          (e.iter = t.iter + 1 ∨ (e.iter = t.iter ∧ e.x = t.x)) → e.diag = t.diag →
          e.diag.length = x.length ∧ 1 ≤ e.iter ∧ (e.iter = 1 → e.x = x) ∧
          (e.iter = 1 → e.diag = initDiag x.length (P.qrfac x.length (Jv x)).2.2 diag) := by
        intro e he hde
        rcases he with he | ⟨he, hx⟩
        · refine ⟨by rw [hde, i1], by omega, fun h1 => ?_, fun h1 => ?_⟩ <;>
          · exfalso
            omega
        · refine ⟨by rw [hde, i1], by omega, fun h1 => ?_, fun h1 => ?_⟩
          · rw [hx]
            exact i3 (by omega)
          · rw [hde]
            exact i5 (Or.inl rfl) (by omega)
      apply innerBody_match
      · intro _
        exact hmem _ rfl
      · intro _ _ _
        exact hmem _ (passEnd_diag P F _ t)
      · intro _ _ _
        obtain ⟨a, b, c, d⟩ := hstep _
          (passEnd_step P F
            { n := x.length, mode := mode, maxfev := maxfev, factor := factor, xtol := xtol } t)
          (passEnd_diag P F
            { n := x.length, mode := mode, maxfev := maxfev, factor := factor, xtol := xtol } t)
        exact ⟨a, b, c, hmem _ (passEnd_diag P F _ t), fun _ => d, hjev,
          fun h1 => absurd h1 (by simp)⟩
      · intro _ _ _
        have f1 : ∀ e : State σ, (broydenUpdate P
            { n := x.length, mode := mode, maxfev := maxfev, factor := factor, xtol := xtol }
            e).diag = e.diag := fun e => by simp
        have f2 : ∀ e : State σ, (broydenUpdate P
            { n := x.length, mode := mode, maxfev := maxfev, factor := factor, xtol := xtol }
            e).iter = e.iter := fun e => by simp
        have f3 : ∀ e : State σ, (broydenUpdate P
            { n := x.length, mode := mode, maxfev := maxfev, factor := factor, xtol := xtol }
            e).x = e.x := fun e => by simp
        have f4 : ∀ e : State σ, (broydenUpdate P
            { n := x.length, mode := mode, maxfev := maxfev, factor := factor, xtol := xtol }
            e).jeval = false := fun e => by simp
        obtain ⟨a, b, c, d⟩ := hstep _
          (passEnd_step P F
            { n := x.length, mode := mode, maxfev := maxfev, factor := factor, xtol := xtol } t)
          (passEnd_diag P F
            { n := x.length, mode := mode, maxfev := maxfev, factor := factor, xtol := xtol } t)
        beta_reduce
        rw [f1, f2, f3, f4]
        exact ⟨a, b, c, hmem _ (passEnd_diag P F _ t), fun _ => d, hjev,
          fun _ h1 => absurd h1 (by simp)⟩)
    fuel true [] (initCounters P (evalStart F (initState J W user x diag)))
    ⟨hd, le_refl _, fun _ => rfl, fun s hs => absurd hs (List.not_mem_nil s),
      fun h1 => by simp at h1, fun s hs => absurd hs (List.not_mem_nil s),
      fun h1 => by simp at h1⟩
  refine ⟨?_, ?_, ?_, ?_⟩
  · intro j hj
    rw [hfirst]
    exact (initDiag_spec _ _ _ hd).2 j hj
  · intro pre s post e a ha j hj
    rcases solvePasses_cases P F J fuel W user x diag mode maxfev factor xtol with e0 | ⟨_, _, e0⟩
    · rw [e0] at e
      simp at e
    · rw [e0] at e
      have := (key.1 pre s post e).2.2.2.1 a (by simpa using ha) j hj
      exact this
  · intro s hs
    rcases solvePasses_cases P F J fuel W user x diag mode maxfev factor xtol with e0 | ⟨_, _, e0⟩
    · rw [e0] at hs
      cases hs
    · rw [e0] at hs
      obtain ⟨pre, post, e⟩ := List.append_of_mem hs
      exact (key.1 pre s post e).2.2.2.2.2.2 rfl
  · intro r hr s hs j hj
    rcases solvePasses_cases P F J fuel W user x diag mode maxfev factor xtol with e0 | ⟨hv, hf, e0⟩
    · rw [e0] at hs
      cases hs
    · rw [e0] at hs
      rw [solve_of_valid P F J fuel W user x diag mode maxfev factor xtol hv, if_neg hf] at hr
      exact key.2 r hr s (by simpa using hs) j hj

/-- C15, amended, on a run: `F(x) = x^2 + 1` from `x0 = 1` in mode 1, whose Jacobian `2 x`
changes along the run; the call makes eleven passes. -/
theorem diag_monotone_after_first_scaling_witness :
    (solvePasses prims1 noZeroFunctor junk0 30 emptyWorkspace () [1] [1] 1 30 100 0).length = 11 ∧
    ∀ s ∈ solvePasses prims1 noZeroFunctor junk0 30 emptyWorkspace () [1] [1] 1 30 100 0,
      s.jeval = true →
      s.wa2 = (prims1.qrfac 1 ((fun y : Vec => [2 * vget y 0]) s.x)).2.2 ∧
      ∀ j, j < 1 → vget s.wa2 j ≤ vget s.diag j :=
  ⟨by decide!,
   (diag_monotone_after_first_scaling prims1 noZeroFunctor junk0 30 emptyWorkspace () [1] [1] 1
      30 100 0 (fun y : Vec => [2 * vget y 0]) (by decide) (fun _ _ _ => rfl) rfl
      (fun _ => rfl)).2.2.1⟩

end DiagMonotone

/-! ## The progress monitors over a whole call -/

section Monitors

variable {σ : Type}

/-- The count of the most recent consecutive entries after one more entry. -/
theorem trailing_append {α : Type} (p : α → Bool) (h : List α) (s : α) :
    trailing p (h ++ [s]) = if p s = true then trailing p h + 1 else 0 := by
  unfold trailing
  rw [List.reverse_append]
  simp only [List.reverse_cons, List.reverse_nil, List.nil_append, List.singleton_append,
    List.takeWhile_cons]
  split <;> simp

/-- The count of the marked entries among the most recent consecutive entries after one more
entry. -/
theorem trailingCount_append {α : Type} (p q : α → Bool) (h : List α) (s : α) :
    trailingCount p q (h ++ [s]) =
      if p s = true then (if q s = true then trailingCount p q h + 1 else trailingCount p q h)
      else 0 := by
  unfold trailingCount
  rw [List.reverse_append]
  simp only [List.reverse_cons, List.reverse_nil, List.nil_append, List.singleton_append,
    List.takeWhile_cons]
  by_cases hp : p s = true
  · by_cases hq : q s = true
    · simp [hp, hq]
    · simp [hp, hq]
  · simp [hp]

/-- When the count of the most recent consecutive entries is at least `k`, the history has `k`
entries and each of the `k` most recent ones satisfies the predicate. -/
theorem trailing_take {α : Type} (p : α → Bool) (h : List α) (k : Nat)
    (hk : k ≤ trailing p h) : k ≤ h.length ∧ ∀ s ∈ h.reverse.take k, p s = true := by
  unfold trailing at hk
  obtain ⟨t, ht⟩ := List.takeWhile_prefix p (l := h.reverse)
  constructor
  · have := congrArg List.length ht
    simp only [List.length_append, List.length_reverse] at this
    omega
  · intro s hs
    rw [← ht, List.take_append_of_le_length hk] at hs
    exact List.mem_takeWhile_imp (List.mem_of_mem_take hs)

/-- Lines 322-328: the monitors at the end of a pass. -/
theorem passEnd_monitors (P : Prims) (F : FunctorType σ) (c : Config) (st : State σ) :
    (passEnd P F c st).nslow1 = (if lowGain P F c st = true then st.nslow1 + 1 else 0) ∧
    (passEnd P F c st).nslow2 =
      (if lowGainJac P F c st = true then (if st.jeval = true then st.nslow2 + 1 else st.nslow2)
        else 0) := by
  have a : (passEnd P F c st).nslow1 =
      if (passEnd P F c st).actred ≥ 1 / 1000 then 0 else st.nslow1 + 1 := by
    unfold passEnd afterTrial
    simp
  have b : (passEnd P F c st).nslow2 =
      if (passEnd P F c st).actred ≥ 1 / 10 then 0
      else if st.jeval = true then st.nslow2 + 1 else st.nslow2 := by
    unfold passEnd afterTrial
    simp
  constructor
  · rw [a]
    unfold lowGain
    by_cases h : (passEnd P F c st).actred < 1 / 1000
    · rw [if_neg (not_le.2 h), if_pos (by simpa using h)]
    · rw [if_pos (not_lt.1 h), if_neg (by simpa using h)]
  · rw [b]
    unfold lowGainJac
    by_cases h : (passEnd P F c st).actred < 1 / 10
    · have hd : decide ((passEnd P F c st).actred < 1 / 10) = true := decide_eq_true h
      rw [if_neg (not_le.2 h), if_pos hd]
    · have hd : ¬ decide ((passEnd P F c st).actred < 1 / 10) = true := by simpa using h
      rw [if_pos (not_lt.1 h), if_neg hd]

/-- Lines 332-345: what the termination tests say about the monitors. -/
theorem terminationTest_monitors (P : Prims) (c : Config) (st : State σ) :
    (terminationTest P c st = none → st.nslow2 ≠ 5 ∧ st.nslow1 ≠ 10) ∧
    (terminationTest P c st = some .NotMakingProgressJacobian → st.nslow2 = 5) ∧
    (terminationTest P c st = some .NotMakingProgressIterations → st.nslow1 = 10) := by
  unfold terminationTest
  refine ⟨?_, ?_, ?_⟩
  · intro h
    split_ifs at h with h1 h2 h3 h4 h5
    exact ⟨h4, h5⟩
  · intro h
    split_ifs at h with h1 h2 h3 h4 h5 <;> first | exact h4 | cases h
  · intro h
    split_ifs at h with h1 h2 h3 h4 h5 <;> first | exact h5 | cases h

/-- The monitors along the passes of the loops: at the head of a pass `nslow1` counts the most
recent consecutive passes with `actred < 1e-3` and is below 10, `nslow2` counts, among the most
recent consecutive passes with `actred < 0.1`, those that directly follow a Jacobian evaluation
and is below 5; and a `return` made by the termination tests is made at the end of the last
pass. -/
theorem monitors_trace (P : Prims) (F : FunctorType σ) (c : Config) (fuel : Nat)
    (st : State σ) (h1 : st.nslow1 = 0) (h2 : st.nslow2 = 0) :
    (∀ pre s post, passes P F (jacobianAnalytic F) c fuel true st = pre ++ s :: post →
      s.nslow1 = (trailing (lowGain P F c) pre : Int) ∧ s.nslow1 < 10 ∧
      s.nslow2 = (trailingCount (lowGainJac P F c) (fun t => t.jeval) pre : Int) ∧
      s.nslow2 < 5) ∧
    (∀ r, iterate P F (jacobianAnalytic F) c fuel true st = some r →
      r.2.nslow1 ≤ 10 ∧ r.2.nslow2 ≤ 5 ∧
      (r.1 ≠ .UserAksed → ∃ pre s,
        passes P F (jacobianAnalytic F) c fuel true st = pre ++ [s] ∧
        r.2 = passEnd P F c s ∧ terminationTest P c (passEnd P F c s) = some r.1)) := by
  have key := trace_induct P F (jacobianAnalytic F) c
    (fun _ h t => t.nslow1 = (trailing (lowGain P F c) h : Int) ∧ t.nslow1 < 10 ∧
      t.nslow2 = (trailingCount (lowGainJac P F c) (fun t => t.jeval) h : Int) ∧ t.nslow2 < 5)
    (fun h r => r.2.nslow1 ≤ 10 ∧ r.2.nslow2 ≤ 5 ∧
      (r.1 ≠ .UserAksed → ∃ pre s, h = pre ++ [s] ∧
        r.2 = passEnd P F c s ∧ terminationTest P c (passEnd P F c s) = some r.1))
    (by
      rintro h t ⟨a, b, d, e⟩ _
      refine ⟨?_, ?_, fun hne => absurd rfl hne⟩
      · simp only [jacobianAnalytic_frame2]
        omega
      · simp only [jacobianAnalytic_frame2]
        omega)
    (by
      rintro h t ⟨a, b, d, e⟩ _
      simpa using ⟨a, b, d, e⟩)
    (by
      rintro h t ⟨a, b, d, e⟩
      obtain ⟨m1, m2⟩ := passEnd_monitors P F c t
      have n1 : (passEnd P F c t).nslow1 = (trailing (lowGain P F c) (h ++ [t]) : Int) := by
        rw [m1, trailing_append]
        split
        · rw [a]
          push_cast
          rfl
        · rfl
      have n2 : (passEnd P F c t).nslow2 =
          (trailingCount (lowGainJac P F c) (fun t => t.jeval) (h ++ [t]) : Int) := by
        rw [m2, trailingCount_append]
        split
        · split
          · rw [d]
            push_cast
            rfl
          · exact d
        · rfl
      have b1 : (passEnd P F c t).nslow1 ≤ 10 := by
        rw [m1]
        split <;> omega
      have b2 : (passEnd P F c t).nslow2 ≤ 5 := by
        rw [m2]
        split
        · split <;> omega
        · omega
      apply innerBody_match
      · intro _
        refine ⟨?_, ?_, fun hne => absurd rfl hne⟩
        · simp only [evalTrial_frame2, direction_frame2]
          omega
        · simp only [evalTrial_frame2, direction_frame2]
          omega
      · intro _ s hs
        exact ⟨b1, b2, fun _ => ⟨h, t, rfl, rfl, hs⟩⟩
      · intro _ hn _
        obtain ⟨t1, t2⟩ := (terminationTest_monitors P c _).1 hn
        exact ⟨n1, by omega, n2, by omega⟩
      · intro _ hn _
        obtain ⟨t1, t2⟩ := (terminationTest_monitors P c _).1 hn
        simp only [broydenUpdate_frame2]
        exact ⟨n1, by omega, n2, by omega⟩)
    fuel true [] st
    ⟨by rw [h1]; rfl, by omega, by rw [h2]; rfl, by omega⟩
  constructor
  · intro pre s post e
    have := key.1 pre s post e
    simpa using this
  · intro r hr
    have := key.2 r hr
    simpa using this

end Monitors

section SlowIterations

variable {σ : Type}

/-- C19. At the end of every inner iteration `nslow1` equals the number of the most recent
consecutive inner iterations with `actred < 1e-3` (and at the head of an iteration the number for
the iterations before it); so when `NotMakingProgressIterations` is returned `nslow1 = 10`, the
call has made at least 10 inner iterations and each of the 10 most recent ones had
`actred < 1e-3`; and `nslow1` never exceeds 10, on return from a validated call whose starting
evaluation is not aborted as at the end of every inner iteration. -/
theorem nslow1_counts_recent_low_gain (P : Prims) (F : FunctorType σ) (J : Junk) (fuel : Nat)
    (W : Workspace) (user : σ) (x diag : Vec) (mode maxfev : Int) (factor xtol : ℚ) :
    (∀ pre s post, solvePasses P F J fuel W user x diag mode maxfev factor xtol =
        pre ++ s :: post →
      s.nslow1 = (trailing (lowGain P F
        { n := x.length, mode := mode, maxfev := maxfev, factor := factor, xtol := xtol })
        pre : Int) ∧
      (passEnd P F
        { n := x.length, mode := mode, maxfev := maxfev, factor := factor, xtol := xtol }
        s).nslow1 = (trailing (lowGain P F
        { n := x.length, mode := mode, maxfev := maxfev, factor := factor, xtol := xtol })
        (pre ++ [s]) : Int) ∧
      (passEnd P F
        { n := x.length, mode := mode, maxfev := maxfev, factor := factor, xtol := xtol }
        s).nslow1 ≤ 10) ∧
    (∀ r, solve P F J fuel W user x diag mode maxfev factor xtol = some r →
      r.1 = .NotMakingProgressIterations →
      r.2.nslow1 = 10 ∧
      10 ≤ (solvePasses P F J fuel W user x diag mode maxfev factor xtol).length ∧
      ∀ s ∈ (solvePasses P F J fuel W user x diag mode maxfev factor xtol).reverse.take 10,
        (passEnd P F
          { n := x.length, mode := mode, maxfev := maxfev, factor := factor, xtol := xtol }
          s).actred < 1 / 1000) ∧
    (∀ r, solve P F J fuel W user x diag mode maxfev factor xtol = some r →
      ValidInput x diag mode maxfev factor xtol →
      ¬ (evalStart F (initState J W user x diag)).iflag < 0 → r.2.nslow1 ≤ 10) := by
  have mt := monitors_trace P F
    { n := x.length, mode := mode, maxfev := maxfev, factor := factor, xtol := xtol } fuel
    (initCounters P (evalStart F (initState J W user x diag))) rfl rfl
  have head : ∀ pre s post, passes P F (jacobianAnalytic F)
        { n := x.length, mode := mode, maxfev := maxfev, factor := factor, xtol := xtol } fuel
        true (initCounters P (evalStart F (initState J W user x diag))) = pre ++ s :: post →
      s.nslow1 = (trailing (lowGain P F
        { n := x.length, mode := mode, maxfev := maxfev, factor := factor, xtol := xtol })
        pre : Int) ∧
      (passEnd P F
        { n := x.length, mode := mode, maxfev := maxfev, factor := factor, xtol := xtol }
        s).nslow1 = (trailing (lowGain P F
        { n := x.length, mode := mode, maxfev := maxfev, factor := factor, xtol := xtol })
        (pre ++ [s]) : Int) ∧
      (passEnd P F
        { n := x.length, mode := mode, maxfev := maxfev, factor := factor, xtol := xtol }
        s).nslow1 ≤ 10 := by
    intro pre s post e
    obtain ⟨a, b, _, _⟩ := mt.1 pre s post e
    have m1 := (passEnd_monitors P F
      { n := x.length, mode := mode, maxfev := maxfev, factor := factor, xtol := xtol } s).1
    refine ⟨a, ?_, ?_⟩
    · rw [m1, trailing_append]
      split
      · rw [a]
        push_cast
        rfl
      · rfl
    · rw [m1]
      split <;> omega
  refine ⟨?_, ?_, ?_⟩
  · intro pre s post e
    rcases solvePasses_cases P F J fuel W user x diag mode maxfev factor xtol with e0 | ⟨_, _, e0⟩
    · rw [e0] at e
      simp at e
    · rw [e0] at e
      exact head pre s post e
  · intro r hr hs
    by_cases hv : ValidInput x diag mode maxfev factor xtol
    · rw [solve_of_valid P F J fuel W user x diag mode maxfev factor xtol hv] at hr
      by_cases hf : (evalStart F (initState J W user x diag)).iflag < 0
      · rw [if_pos hf] at hr
        simp only [Option.some.injEq] at hr
        rw [← hr] at hs
        cases hs
      · rw [if_neg hf] at hr
        rw [solvePasses_of_valid P F J fuel W user x diag mode maxfev factor xtol hv hf]
        obtain ⟨_, _, h3⟩ := mt.2 r hr
        obtain ⟨pre, s, e, er, et⟩ := h3 (by rw [hs]; intro h; cases h)
        rw [hs] at et
        have t10 := (terminationTest_monitors P _ _).2.2 et
        obtain ⟨_, b, _⟩ := head pre s [] e
        rw [t10] at b
        have hk : 10 ≤ trailing (lowGain P F
            { n := x.length, mode := mode, maxfev := maxfev, factor := factor, xtol := xtol })
            (pre ++ [s]) := by
          omega
        obtain ⟨k1, k2⟩ := trailing_take _ _ 10 hk
        rw [e]
        refine ⟨by rw [er]; exact t10, k1, ?_⟩
        intro t ht
        have := k2 t ht
        unfold lowGain at this
        simpa using this
    · rw [solve_of_invalid P F J fuel W user x diag mode maxfev factor xtol hv] at hr
      simp only [Option.some.injEq] at hr
      rw [← hr] at hs
      cases hs
  · intro r hr hv hf
    rw [solve_of_valid P F J fuel W user x diag mode maxfev factor xtol hv, if_neg hf] at hr
    exact (mt.2 r hr).1

/-- C19 on a run: `F(x) = x^2 + 1` from `x0 = 1`, which returns `NotMakingProgressIterations`
after 11 inner iterations, the last 10 of them with `actred < 1e-3`. -/
theorem nslow1_counts_recent_low_gain_witness :
    (solve prims1 noZeroFunctor junk0 30 emptyWorkspace () [1] [1] 1 30 100 0).map
        (fun r => r.1) = some .NotMakingProgressIterations ∧
    ∀ r, solve prims1 noZeroFunctor junk0 30 emptyWorkspace () [1] [1] 1 30 100 0 = some r →
      r.1 = .NotMakingProgressIterations →
      r.2.nslow1 = 10 ∧
      10 ≤ (solvePasses prims1 noZeroFunctor junk0 30 emptyWorkspace () [1] [1] 1 30 100
        0).length ∧
      ∀ s ∈ (solvePasses prims1 noZeroFunctor junk0 30 emptyWorkspace () [1] [1] 1 30 100
          0).reverse.take 10,
        (passEnd prims1 noZeroFunctor
          { n := [(1 : ℚ)].length, mode := 1, maxfev := 30, factor := 100, xtol := 0 }
          s).actred < 1 / 1000 :=
  ⟨by decide!,
   (nslow1_counts_recent_low_gain prims1 noZeroFunctor junk0 30 emptyWorkspace () [1] [1] 1 30
      100 0).2.1⟩

end SlowIterations

section SlowJacobian

variable {σ : Type}

/-- C20 as stated fails, in both directions. `F(x) = x^2 + 1` from `x0 = 1`: the fourth inner
iteration directly follows a Jacobian evaluation, the iterations 4 to 8 all have `actred < 0.1`
and no test fires at the end of the eighth, the fifth of them; the call makes three more
iterations and returns `NotMakingProgressIterations`. `F(x) = 3 x^2 - 2 x + 2` from `x0 = 1/2`:
the call returns `NotMakingProgressJacobian` at the end of iteration 14, and among the last five
iterations, 10 to 14, iteration 11 and iteration 14 each directly follow a Jacobian evaluation. -/
theorem low_gain_steps_without_jacobian_status :
    ((solvePasses prims1 noZeroFunctor junk0 30 emptyWorkspace () [1] [1] 1 30 100 0).map
        (fun s => s.jeval) =
      [true, false, false, true, false, false, false, false, false, false, false] ∧
    (solvePasses prims1 noZeroFunctor junk0 30 emptyWorkspace () [1] [1] 1 30 100 0).map
        (fun s => lowGainJac prims1 noZeroFunctor exampleConfig s) =
      [false, true, true, true, true, true, true, true, true, true, true] ∧
    (solvePasses prims1 noZeroFunctor junk0 30 emptyWorkspace () [1] [1] 1 30 100 0).map
        (fun s => terminationTest prims1 exampleConfig
          (passEnd prims1 noZeroFunctor exampleConfig s)) =
      [none, none, none, none, none, none, none, none, none, none,
        some .NotMakingProgressIterations] ∧
    (solve prims1 noZeroFunctor junk0 30 emptyWorkspace () [1] [1] 1 30 100 0).map
        (fun r => r.1) = some .NotMakingProgressIterations) ∧
    ((solvePasses prims1 stallFunctor junk0 30 emptyWorkspace () [1 / 2] [1] 1 30 100 0).map
        (fun s => s.jeval) =
      [true, false, true, false, false, false, false, true, false, false, true, false, false,
        true] ∧
    (solve prims1 stallFunctor junk0 30 emptyWorkspace () [1 / 2] [1] 1 30 100 0).map
        (fun r => r.1) = some .NotMakingProgressJacobian) :=
  ⟨⟨by decide!, by decide!, by decide!, by decide!⟩, by decide!, by decide!⟩

/-- C20, amended. `nslow2` counts, among the most recent consecutive inner iterations with
`actred < 0.1`, those that directly follow a Jacobian evaluation (`jeval` is set), and is below 5
at the head of every iteration. Whenever that count reaches 5 at the end of an iteration whose
trial evaluation is not aborted and none of the earlier tests (convergence, `maxfev`,
`TolTooSmall`) fires, the solver returns `NotMakingProgressJacobian` at that iteration; and
whenever `NotMakingProgressJacobian` is returned, the last iteration directly follows a Jacobian
evaluation, has `actred < 0.1`, and the count is 5. -/
theorem nslow2_counts_low_gain_after_jacobian (P : Prims) (F : FunctorType σ) (J : Junk)
    (fuel : Nat) (W : Workspace) (user : σ) (x diag : Vec) (mode maxfev : Int)
    (factor xtol : ℚ) :
    (∀ pre s post, solvePasses P F J fuel W user x diag mode maxfev factor xtol =
        pre ++ s :: post →
      s.nslow2 = (trailingCount (lowGainJac P F
        { n := x.length, mode := mode, maxfev := maxfev, factor := factor, xtol := xtol })
        (fun t => t.jeval) pre : Int) ∧
      s.nslow2 < 5 ∧
      (passEnd P F
        { n := x.length, mode := mode, maxfev := maxfev, factor := factor, xtol := xtol }
        s).nslow2 = (trailingCount (lowGainJac P F
        { n := x.length, mode := mode, maxfev := maxfev, factor := factor, xtol := xtol })
        (fun t => t.jeval) (pre ++ [s]) : Int)) ∧
    (∀ pre s post e, solvePasses P F J fuel W user x diag mode maxfev factor xtol =
        pre ++ s :: post →
      e = passEnd P F
        { n := x.length, mode := mode, maxfev := maxfev, factor := factor, xtol := xtol } s →
      ¬ (evalTrial F (direction P s)).iflag < 0 →
      trailingCount (lowGainJac P F
        { n := x.length, mode := mode, maxfev := maxfev, factor := factor, xtol := xtol })
        (fun t => t.jeval) (pre ++ [s]) = 5 →
      ¬ (e.delta ≤ xtol * e.xnorm ∨ e.fnorm = 0) → ¬ e.nfev ≥ maxfev →
      ¬ 1 / 10 * max (1 / 10 * e.delta) e.pnorm ≤ P.epsilon * e.xnorm →
      innerBody P F
        { n := x.length, mode := mode, maxfev := maxfev, factor := factor, xtol := xtol } s =
        .ret .NotMakingProgressJacobian e) ∧
    (∀ r, solve P F J fuel W user x diag mode maxfev factor xtol = some r →
      r.1 = .NotMakingProgressJacobian →
      ∃ pre s, solvePasses P F J fuel W user x diag mode maxfev factor xtol = pre ++ [s] ∧
        s.jeval = true ∧
        (passEnd P F
          { n := x.length, mode := mode, maxfev := maxfev, factor := factor, xtol := xtol }
          s).actred < 1 / 10 ∧
        trailingCount (lowGainJac P F
          { n := x.length, mode := mode, maxfev := maxfev, factor := factor, xtol := xtol })
          (fun t => t.jeval) (pre ++ [s]) = 5) := by
  have mt := monitors_trace P F
    { n := x.length, mode := mode, maxfev := maxfev, factor := factor, xtol := xtol } fuel
    (initCounters P (evalStart F (initState J W user x diag))) rfl rfl
  have head : ∀ pre s post, passes P F (jacobianAnalytic F)
        { n := x.length, mode := mode, maxfev := maxfev, factor := factor, xtol := xtol } fuel
        true (initCounters P (evalStart F (initState J W user x diag))) = pre ++ s :: post →
      s.nslow2 = (trailingCount (lowGainJac P F
        { n := x.length, mode := mode, maxfev := maxfev, factor := factor, xtol := xtol })
        (fun t => t.jeval) pre : Int) ∧
      s.nslow2 < 5 ∧
      (passEnd P F
        { n := x.length, mode := mode, maxfev := maxfev, factor := factor, xtol := xtol }
        s).nslow2 = (trailingCount (lowGainJac P F
        { n := x.length, mode := mode, maxfev := maxfev, factor := factor, xtol := xtol })
        (fun t => t.jeval) (pre ++ [s]) : Int) := by
    intro pre s post e
    obtain ⟨_, _, a, b⟩ := mt.1 pre s post e
    have m2 := (passEnd_monitors P F
      { n := x.length, mode := mode, maxfev := maxfev, factor := factor, xtol := xtol } s).2
    refine ⟨a, b, ?_⟩
    rw [m2, trailingCount_append]
    split
    · split
      · rw [a]
        push_cast
        rfl
      · exact a
    · rfl
  refine ⟨?_, ?_, ?_⟩
  · intro pre s post e
    rcases solvePasses_cases P F J fuel W user x diag mode maxfev factor xtol with e0 | ⟨_, _, e0⟩
    · rw [e0] at e
      simp at e
    · rw [e0] at e
      exact head pre s post e
  · intro pre s post e hsp he hf h5 t1 t2 t3
    rcases solvePasses_cases P F J fuel W user x diag mode maxfev factor xtol with e0 | ⟨_, _, e0⟩
    · rw [e0] at hsp
      simp at hsp
    · rw [e0] at hsp
      obtain ⟨_, _, c⟩ := head pre s post hsp
      rw [h5, ← he] at c
      have hc : e.nslow2 = 5 := by simpa using c
      have ht : terminationTest P
          { n := x.length, mode := mode, maxfev := maxfev, factor := factor, xtol := xtol } e =
          some .NotMakingProgressJacobian := by
        unfold terminationTest
        rw [if_neg t1, if_neg t2, if_neg t3, if_pos hc]
      rw [innerBody_of_flag P F _ s hf, ← he, ht]
  · intro r hr hs
    by_cases hv : ValidInput x diag mode maxfev factor xtol
    · rw [solve_of_valid P F J fuel W user x diag mode maxfev factor xtol hv] at hr
      by_cases hf : (evalStart F (initState J W user x diag)).iflag < 0
      · rw [if_pos hf] at hr
        simp only [Option.some.injEq] at hr
        rw [← hr] at hs
        cases hs
      · rw [if_neg hf] at hr
        rw [solvePasses_of_valid P F J fuel W user x diag mode maxfev factor xtol hv hf]
        obtain ⟨_, _, h3⟩ := mt.2 r hr
        obtain ⟨pre, s, e, er, et⟩ := h3 (by rw [hs]; intro h; cases h)
        rw [hs] at et
        have t5 := (terminationTest_monitors P _ _).2.1 et
        obtain ⟨a, b, c⟩ := head pre s [] e
        have m2 := (passEnd_monitors P F
          { n := x.length, mode := mode, maxfev := maxfev, factor := factor, xtol := xtol } s).2
        refine ⟨pre, s, e, ?_, ?_, ?_⟩
        · by_contra hj
          rw [t5] at m2
          split_ifs at m2 <;> omega
        · by_contra hl
          rw [t5] at m2
          have hd : ¬ lowGainJac P F
              { n := x.length, mode := mode, maxfev := maxfev, factor := factor, xtol := xtol }
              s = true := by
            unfold lowGainJac
            simpa using hl
          rw [if_neg hd] at m2
          omega
        · rw [t5] at c
          exact_mod_cast c.symm
    · rw [solve_of_invalid P F J fuel W user x diag mode maxfev factor xtol hv] at hr
      simp only [Option.some.injEq] at hr
      rw [← hr] at hs
      cases hs

/-- C20, amended, on a run: `F(x) = 3 x^2 - 2 x + 2` from `x0 = 1/2` returns
`NotMakingProgressJacobian`, and its last inner iteration directly follows a Jacobian
evaluation. -/
theorem nslow2_counts_low_gain_after_jacobian_witness :
    (solve prims1 stallFunctor junk0 30 emptyWorkspace () [1 / 2] [1] 1 30 100 0).map
        (fun r => r.1) = some .NotMakingProgressJacobian ∧
    ∀ r, solve prims1 stallFunctor junk0 30 emptyWorkspace () [1 / 2] [1] 1 30 100 0 = some r →
      r.1 = .NotMakingProgressJacobian →
      ∃ pre s, solvePasses prims1 stallFunctor junk0 30 emptyWorkspace () [1 / 2] [1] 1 30 100 0 =
          pre ++ [s] ∧
        s.jeval = true ∧
        (passEnd prims1 stallFunctor
          { n := [(1 / 2 : ℚ)].length, mode := 1, maxfev := 30, factor := 100, xtol := 0 }
          s).actred < 1 / 10 ∧
        trailingCount (lowGainJac prims1 stallFunctor
          { n := [(1 / 2 : ℚ)].length, mode := 1, maxfev := 30, factor := 100, xtol := 0 })
          (fun t => t.jeval) (pre ++ [s]) = 5 :=
  ⟨by decide!,
   (nslow2_counts_low_gain_after_jacobian prims1 stallFunctor junk0 30 emptyWorkspace ()
      [1 / 2] [1] 1 30 100 0).2.2⟩

end SlowJacobian

/-! ## Affine systems -/

section Affine

variable {σ : Type}

/-- A sum over `List.range` as a sum over `Finset.range`. -/
theorem list_sum_range (f : Nat → ℚ) (n : Nat) :
    ((List.range n).map f).sum = ∑ i ∈ Finset.range n, f i := by
  induction n with
  | zero => simp
  | succ n ih =>
    rw [List.range_succ, List.map_append, List.sum_append, ih, Finset.sum_range_succ]
    simp

/-- The entries of `A y - b`. -/
theorem affine_spec (n : Nat) (A : Mat) (b y : Vec) :
    (affine n A b y).length = n ∧
    ∀ i, i < n → vget (affine n A b y) i =
      ∑ j ∈ Finset.range n, mget n A i j * vget y j - vget b i := by
  constructor
  · simp [affine]
  · intro i hi
    unfold affine vget
    simp [List.getD_eq_getElem?_getD, hi, list_sum_range]

/-- The entries of the trial point `x + (-w)`. -/
theorem vget_trial (n : Nat) (x w : Vec) (hx : x.length = n) (hw : w.length = n) (j : Nat)
    (hj : j < n) : vget (vadd x (vneg w)) j = vget x j - vget w j := by
  unfold vadd
  rw [vget_zipWith _ _ _ _ (by omega) (by simp [vneg]; omega)]
  have : vget (vneg w) j = - vget w j := by
    unfold vneg vget
    simp [List.getD_eq_getElem?_getD, List.getElem?_map, List.getElem?_eq_getElem (hw ▸ hj)]
  rw [this]
  ring

/-- A row of an upper triangular matrix only has entries from the diagonal on. -/
theorem upper_sum (n : Nat) (R : Vec) (f : Nat → ℚ) (i : Nat) (hi : i ≤ n) :
    ∑ j ∈ Finset.range n, upper n R i j * f j = ∑ j ∈ Finset.Ico i n, upper n R i j * f j := by
  rw [Finset.range_eq_Ico, ← Finset.sum_Ico_consecutive _ (Nat.zero_le i) hi]
  have : ∑ j ∈ Finset.Ico 0 i, upper n R i j * f j = 0 := by
    apply Finset.sum_eq_zero
    intro j hj
    have := (Finset.mem_Ico.1 hj).2
    simp [upper, Nat.not_le.2 this]
  rw [this, zero_add]

/-- When `A = Q R` with `Q Qᵀ = 1` and `R w = Qᵀ F`, then `A w = F`. -/
theorem qr_solve (n : Nat) (A Q R : Nat → Nat → ℚ) (q w Fv : Nat → ℚ)
    (hQ : ∀ i l, i < n → l < n → ∑ k ∈ Finset.range n, Q i k * Q l k = if i = l then 1 else 0)
    (hQR : ∀ i j, i < n → j < n → A i j = ∑ k ∈ Finset.range n, Q i k * R k j)
    (hq : ∀ k, k < n → q k = ∑ l ∈ Finset.range n, Q l k * Fv l)
    (hstep : ∀ k, k < n → ∑ j ∈ Finset.range n, R k j * w j = q k) :
    ∀ i, i < n → ∑ j ∈ Finset.range n, A i j * w j = Fv i := by
  intro i hi
  calc ∑ j ∈ Finset.range n, A i j * w j
      = ∑ j ∈ Finset.range n, ∑ k ∈ Finset.range n, Q i k * (R k j * w j) := by
        apply Finset.sum_congr rfl
        intro j hj
        rw [hQR i j hi (Finset.mem_range.1 hj), Finset.sum_mul]
        apply Finset.sum_congr rfl
        intro k _
        ring
    _ = ∑ k ∈ Finset.range n, ∑ j ∈ Finset.range n, Q i k * (R k j * w j) := Finset.sum_comm
    _ = ∑ k ∈ Finset.range n, Q i k * ∑ l ∈ Finset.range n, Q l k * Fv l := by
        apply Finset.sum_congr rfl
        intro k hk
        rw [← Finset.mul_sum, hstep k (Finset.mem_range.1 hk), hq k (Finset.mem_range.1 hk)]
    _ = ∑ k ∈ Finset.range n, ∑ l ∈ Finset.range n, (Q i k * Q l k) * Fv l := by
        apply Finset.sum_congr rfl
        intro k _
        rw [Finset.mul_sum]
        apply Finset.sum_congr rfl
        intro l _
        ring
    _ = ∑ l ∈ Finset.range n, ∑ k ∈ Finset.range n, (Q i k * Q l k) * Fv l := Finset.sum_comm
    _ = ∑ l ∈ Finset.range n, (if i = l then 1 else 0) * Fv l := by
        apply Finset.sum_congr rfl
        intro l hl
        rw [← Finset.sum_mul, hQ i l hi (Finset.mem_range.1 hl)]
    _ = Fv i := by
        simp [Finset.sum_ite_eq, hi]

/-- Lines 261-290: when the residual at the trial point and the predicted residual both have the
norm zero and the current residual does not, the ratio of the reductions is 1. -/
theorem reductions_ratio_one (P : Prims) (c : Config) (st : State σ)
    (h1 : P.stableNorm st.wa4 = 0)
    (h2 : P.stableNorm (predicted c.n st.R st.wa1 st.qtf st.wa3) = 0) (h3 : 0 < st.fnorm) :
    (reductions P c st).ratio = 1 := by
  unfold reductions
  simp only [h1, h2, if_pos h3]
  norm_num [abs2]

end Affine

section AffineStep

variable {σ : Type}

/-- The entries of `-w`. -/
theorem vget_vneg (w : Vec) (j : Nat) : vget (vneg w) j = - vget w j := by
  unfold vneg vget
  by_cases h : j < w.length
  · simp [List.getD_eq_getElem?_getD, List.getElem?_map, List.getElem?_eq_getElem h]
  · simp [List.getD_eq_getElem?_getD, List.getElem?_map, List.getElem?_eq_none (not_lt.1 h)]

/-- A pass on an affine system whose `dogleg` call returns the Gauss-Newton step, from a point
that is not a zero: the trial point is the zero, the ratio is 1, the point is accepted and the
pass returns `RelativeErrorTooSmall`. -/
theorem affine_pass (P : Prims) (F : FunctorType σ) (c : Config) (s : State σ) (A : Mat)
    (b : Vec)
    (hF : ∀ u y buf, (F.f u y buf).2.2 = affine c.n A b y)
    (hFflag : ∀ u y buf, ¬ (F.f u y buf).2.1 < 0)
    (hnorm0 : ∀ v : Vec, v.length = c.n → (P.stableNorm v = 0 ↔ ∀ i, i < c.n → vget v i = 0))
    (hnn : ∀ v, 0 ≤ P.stableNorm v)
    (hx0 : ∃ i, i < c.n ∧ vget (affine c.n A b s.x) i ≠ 0)
    (hfn : s.fnorm = P.stableNorm (affine c.n A b s.x)) (hxl : s.x.length = c.n)
    (hQ : ∀ i l, i < c.n → l < c.n →
      ∑ k ∈ Finset.range c.n, mget c.n s.fjac i k * mget c.n s.fjac l k = if i = l then 1 else 0)
    (hQR : ∀ i j, i < c.n → j < c.n →
      mget c.n A i j = ∑ k ∈ Finset.range c.n, mget c.n s.fjac i k * upper c.n s.R k j)
    (hqtf : ∀ k, k < c.n →
      vget s.qtf k = ∑ l ∈ Finset.range c.n, mget c.n s.fjac l k * vget (affine c.n A b s.x) l)
    (hD : s.diag.length = c.n)
    (hw : (P.dogleg s.R s.diag s.qtf s.delta s.wa1).length = c.n)
    (hstep : ∀ k, k < c.n →
      ∑ j ∈ Finset.range c.n,
        upper c.n s.R k j * vget (P.dogleg s.R s.diag s.qtf s.delta s.wa1) j = vget s.qtf k) :
    innerBody P F c s = .ret .RelativeErrorTooSmall (passEnd P F c s) ∧
    (passEnd P F c s).iter = s.iter + 1 ∧ (passEnd P F c s).ratio = 1 ∧
    (passEnd P F c s).fnorm = 0 ∧ (passEnd P F c s).x = trialPoint P s ∧
    ∀ i, i < c.n → vget (affine c.n A b (trialPoint P s)) i = 0 := by
  -- the trial point is the zero
  have hAw := qr_solve c.n (fun i j => mget c.n A i j) (fun i k => mget c.n s.fjac i k)
    (fun k j => upper c.n s.R k j) (fun k => vget s.qtf k)
    (fun j => vget (P.dogleg s.R s.diag s.qtf s.delta s.wa1) j)
    (fun l => vget (affine c.n A b s.x) l) hQ hQR hqtf hstep
  have hzero : ∀ i, i < c.n → vget (affine c.n A b (trialPoint P s)) i = 0 := by
    intro i hi
    have e : trialPoint P s = vadd s.x (vneg (P.dogleg s.R s.diag s.qtf s.delta s.wa1)) := rfl
    rw [e, (affine_spec c.n A b _).2 i hi]
    have e2 : ∑ j ∈ Finset.range c.n, mget c.n A i j *
          vget (vadd s.x (vneg (P.dogleg s.R s.diag s.qtf s.delta s.wa1))) j =
        ∑ j ∈ Finset.range c.n, mget c.n A i j * vget s.x j -
          ∑ j ∈ Finset.range c.n, mget c.n A i j *
            vget (P.dogleg s.R s.diag s.qtf s.delta s.wa1) j := by
      rw [← Finset.sum_sub_distrib]
      apply Finset.sum_congr rfl
      intro j hj
      rw [vget_trial c.n _ _ hxl hw j (Finset.mem_range.1 hj)]
      ring
    have e3 := hAw i hi
    simp only [] at e3
    rw [e2, e3, (affine_spec c.n A b s.x).2 i hi]
    ring
  have hwa4 : (evalTrial F (direction P s)).wa4 = affine c.n A b (trialPoint P s) := by
    simp only [evalTrial_frame, hF]
    rfl
  have h1 : P.stableNorm (evalTrial F (direction P s)).wa4 = 0 := by
    rw [hwa4]
    exact (hnorm0 _ (affine_spec c.n A b _).1).2 hzero
  -- the predicted residual is zero
  have hp3 : (cwiseMul s.diag (vneg (P.dogleg s.R s.diag s.qtf s.delta s.wa1))).length = c.n := by
    simp [cwiseMul, vneg, hD, hw]
  have h2 : P.stableNorm (predicted c.n (evalTrial F (direction P s)).R
      (evalTrial F (direction P s)).wa1 (evalTrial F (direction P s)).qtf
      (evalTrial F (direction P s)).wa3) = 0 := by
    simp only [evalTrial_frame2, direction_frame2]
    obtain ⟨_, p2, p3, _⟩ := predRows_spec c.n s.R
      (vneg (P.dogleg s.R s.diag s.qtf s.delta s.wa1)) s.qtf _ hp3 c.n (le_refl _)
    apply (hnorm0 _ p2).2
    intro i hi
    have := p3 i hi
    rw [this, ← upper_sum c.n s.R _ i (le_of_lt hi)]
    have e : ∑ j ∈ Finset.range c.n, upper c.n s.R i j *
          vget (vneg (P.dogleg s.R s.diag s.qtf s.delta s.wa1)) j =
        - ∑ j ∈ Finset.range c.n, upper c.n s.R i j *
          vget (P.dogleg s.R s.diag s.qtf s.delta s.wa1) j := by
      rw [← Finset.sum_neg_distrib]
      apply Finset.sum_congr rfl
      intro j _
      rw [vget_vneg]
      ring
    rw [e, hstep i hi]
    ring
  -- the current residual is not zero
  have h3 : 0 < (evalTrial F (direction P s)).fnorm := by
    simp only [evalTrial_frame, direction_frame]
    rw [hfn]
    apply lt_of_le_of_ne (hnn _)
    intro h0
    obtain ⟨i, hi, hne⟩ := hx0
    exact hne ((hnorm0 _ (affine_spec c.n A b _).1).1 h0.symm i hi)
  have hr := reductions_ratio_one P c _ h1 h2 h3
  have hge : (reductions P c (evalTrial F (direction P s))).ratio ≥ 1 / 10000 := by
    rw [hr]
    norm_num
  obtain ⟨a1, _, a3, a4⟩ := afterTrial_accept P c _ hge
  have hfn0 : (passEnd P F c s).fnorm = 0 := by
    unfold passEnd
    rw [a3]
    exact h1
  have hratio : (passEnd P F c s).ratio = 1 := by
    unfold passEnd afterTrial
    simp only [progress_frame, acceptStep_frame, updateStepBound_frame]
    exact hr
  have ht : terminationTest P c (passEnd P F c s) = some .RelativeErrorTooSmall := by
    unfold terminationTest
    rw [if_pos (Or.inr hfn0)]
  have hflag : ¬ (evalTrial F (direction P s)).iflag < 0 := by
    simp only [evalTrial_frame]
    exact hFflag _ _ _
  refine ⟨?_, ?_, hratio, hfn0, ?_, hzero⟩
  · rw [innerBody_of_flag P F c s hflag, ht]
  · unfold passEnd
    rw [a4]
    simp
  · unfold passEnd
    rw [a1]
    rfl

end AffineStep

section AffineCall

variable {σ : Type}

/-- C11 as stated fails, with the primitives for one unknown, which meet their contracts.
`F(x) = x - 3` from its zero `x0 = 3`: the call returns `RelativeErrorTooSmall` with `iter = 1`,
no step is accepted. `F(x) = 2 x - 1000` from `x0 = 0` with `factor = 100`: the Gauss-Newton step
lies outside the initial trust region, four steps are accepted and the call returns with
`iter = 5`. -/
theorem affine_needs_other_than_one_step :
    (solve prims1 (affineFunctor 1 [1] [3]) junk0 (fuelBound 30) emptyWorkspace () [3] [1] 1 30
        100 0).map (fun r => (r.1, r.2.iter)) = some (.RelativeErrorTooSmall, 1) ∧
    (solve prims1 (affineFunctor 1 [2] [1000]) junk0 (fuelBound 30) emptyWorkspace () [0] [1] 1
        30 100 0).map (fun r => (r.1, r.2.iter, r.2.x)) =
      some (.RelativeErrorTooSmall, 5, [500]) :=
  ⟨by decide!, by decide!⟩

/-- C11, amended. Over exact arithmetic, on valid input, for an affine `F(x) = A x - b` whose
callbacks do not abort and a starting point `x0` with `F(x0) != 0`, with primitives meeting their
contracts at the first call of `dogleg`: the norm is non-negative and vanishes on the zero vector
only, the matrix `Q` that `qform` leaves in `fjac` has `Q Qᵀ = 1`, `A = Q R` for the packed
triangular factor `R`, `qtf = Qᵀ F(x0)`, the scaling has `n` entries, and `dogleg` returns a
vector `w` with `n` entries that solves `R w = qtf` (the Gauss-Newton step, which the dogleg step
is when it lies in the initial trust region). Then the analytic solver returns
`RelativeErrorTooSmall` at the end of its first inner iteration, with exactly one accepted step
(`iter = 2`), `ratio = 1`, `fnorm = 0`, and `x` the zero of `F`. -/
theorem affine_one_step (P : Prims) (F : FunctorType σ) (J : Junk) (fuel : Nat)
    (W : Workspace) (user : σ) (x diag : Vec) (mode maxfev : Int) (factor xtol : ℚ)
    (A : Mat) (b : Vec)
    (hv : ValidInput x diag mode maxfev factor xtol)
    (hF : ∀ u y buf, (F.f u y buf).2.2 = affine x.length A b y)
    (hFflag : ∀ u y buf, ¬ (F.f u y buf).2.1 < 0)
    (hJflag : ∀ u y buf, ¬ (F.df u y buf).2.1 < 0)
    (hnorm0 : ∀ v : Vec, v.length = x.length →
      (P.stableNorm v = 0 ↔ ∀ i, i < x.length → vget v i = 0))
    (hnn : ∀ v, 0 ≤ P.stableNorm v)
    (hx0 : ∃ i, i < x.length ∧ vget (affine x.length A b x) i ≠ 0)
    (hQ : ∀ i l, i < x.length → l < x.length →
      ∑ k ∈ Finset.range x.length,
        mget x.length (firstHead P F J W user x diag mode maxfev factor xtol).fjac i k *
          mget x.length (firstHead P F J W user x diag mode maxfev factor xtol).fjac l k =
        if i = l then 1 else 0)
    (hQR : ∀ i j, i < x.length → j < x.length →
      mget x.length A i j = ∑ k ∈ Finset.range x.length,
        mget x.length (firstHead P F J W user x diag mode maxfev factor xtol).fjac i k *
          upper x.length (firstHead P F J W user x diag mode maxfev factor xtol).R k j)
    (hqtf : ∀ k, k < x.length →
      vget (firstHead P F J W user x diag mode maxfev factor xtol).qtf k =
        ∑ l ∈ Finset.range x.length,
          mget x.length (firstHead P F J W user x diag mode maxfev factor xtol).fjac l k *
            vget (affine x.length A b x) l)
    (hD : (firstHead P F J W user x diag mode maxfev factor xtol).diag.length = x.length)
    (hw : (P.dogleg (firstHead P F J W user x diag mode maxfev factor xtol).R
        (firstHead P F J W user x diag mode maxfev factor xtol).diag
        (firstHead P F J W user x diag mode maxfev factor xtol).qtf
        (firstHead P F J W user x diag mode maxfev factor xtol).delta
        (firstHead P F J W user x diag mode maxfev factor xtol).wa1).length = x.length)
    (hstep : ∀ k, k < x.length →
      ∑ j ∈ Finset.range x.length,
        upper x.length (firstHead P F J W user x diag mode maxfev factor xtol).R k j *
          vget (P.dogleg (firstHead P F J W user x diag mode maxfev factor xtol).R
            (firstHead P F J W user x diag mode maxfev factor xtol).diag
            (firstHead P F J W user x diag mode maxfev factor xtol).qtf
            (firstHead P F J W user x diag mode maxfev factor xtol).delta
            (firstHead P F J W user x diag mode maxfev factor xtol).wa1) j =
        vget (firstHead P F J W user x diag mode maxfev factor xtol).qtf k) :
    ∃ e, solve P F J (fuel + 1) W user x diag mode maxfev factor xtol =
        some (.RelativeErrorTooSmall, e) ∧
      e.iter = 2 ∧ e.ratio = 1 ∧ e.fnorm = 0 ∧
      e.x = trialPoint P (firstHead P F J W user x diag mode maxfev factor xtol) ∧
      ∀ i, i < x.length → vget (affine x.length A b e.x) i = 0 := by
  have hx : (firstHead P F J W user x diag mode maxfev factor xtol).x = x := by
    unfold firstHead
    simp only [factorize_frame, jacobianAnalytic_frame]
    rfl
  have hiter : (firstHead P F J W user x diag mode maxfev factor xtol).iter = 1 := by
    unfold firstHead
    simp only [factorize_frame, jacobianAnalytic_frame]
    rfl
  have hfn : (firstHead P F J W user x diag mode maxfev factor xtol).fnorm =
      P.stableNorm (affine x.length A b x) := by
    unfold firstHead
    simp only [factorize_frame, jacobianAnalytic_frame]
    show P.stableNorm (F.f user x _).2.2 = _
    rw [hF]
  obtain ⟨p1, p2, p3, p4, p5, p6⟩ := affine_pass P F
    { n := x.length, mode := mode, maxfev := maxfev, factor := factor, xtol := xtol }
    (firstHead P F J W user x diag mode maxfev factor xtol) A b hF hFflag hnorm0 hnn
    (by rw [hx]; exact hx0) (by rw [hx]; exact hfn) (by rw [hx]) hQ hQR
    (by rw [hx]; exact hqtf) hD hw hstep
  refine ⟨_, ?_, ?_, p3, p4, p5, ?_⟩
  · rw [solve_of_valid P F J (fuel + 1) W user x diag mode maxfev factor xtol hv,
      if_neg (by simp only [evalStart]; exact hFflag _ _ _), iterate]
    simp only [if_true, true_and]
    rw [if_neg (by simp only [jacobianAnalytic_frame]; exact hJflag _ _ _)]
    show (match innerBody P F _ (firstHead P F J W user x diag mode maxfev factor xtol) with
      | .ret s st1 => some (s, st1)
      | .brk st1 => iterate P F (jacobianAnalytic F) _ fuel true st1
      | .cont st1 => iterate P F (jacobianAnalytic F) _ fuel false st1) = _
    rw [p1]
  · rw [p2, hiter]
    rfl
  · intro i hi
    rw [p5]
    exact p6 i hi

/-- C11, amended, on an input: `F(x) = 2 x - 6` from `x0 = 0` with `factor = 100`. The
factorization is `2 = (-1) * (-2)`, `qtf = 6`, and `dogleg` returns the Gauss-Newton step `-3`,
which lies in the trust region of radius 100; the call returns at `x = 3` with `iter = 2`. -/
theorem affine_one_step_witness :
    ValidInput [0] [1] 1 30 100 0 ∧
    (∃ i, i < ([0] : Vec).length ∧ vget (affine ([0] : Vec).length [2] [6] [0]) i ≠ 0) ∧
    ∃ e, solve prims1 (affineFunctor 1 [2] [6]) junk0 (0 + 1) emptyWorkspace () [0] [1] 1 30 100
        0 = some (.RelativeErrorTooSmall, e) ∧
      e.iter = 2 ∧ e.ratio = 1 ∧ e.fnorm = 0 ∧
      e.x = trialPoint prims1
        (firstHead prims1 (affineFunctor 1 [2] [6]) junk0 emptyWorkspace () [0] [1] 1 30 100 0) ∧
      ∀ i, i < ([0] : Vec).length → vget (affine ([0] : Vec).length [2] [6] e.x) i = 0 :=
  ⟨⟨by decide, by decide!, by decide, by decide!, by decide⟩, ⟨0, by decide, by decide!⟩,
   affine_one_step prims1 (affineFunctor 1 [2] [6]) junk0 0 emptyWorkspace () [0] [1] 1 30 100 0
      [2] [6] ⟨by decide, by decide!, by decide, by decide!, by decide⟩
      (fun _ _ _ => rfl) (fun _ _ _ => lt_irrefl (0 : Int)) (fun _ _ _ => lt_irrefl (0 : Int))
      (fun v hv => norm1_eq_zero v hv) (fun v => norm1_nonneg v)
      ⟨0, by decide, by decide!⟩
      (by
        intro i l hi hl
        obtain rfl := Nat.lt_one_iff.1 hi
        obtain rfl := Nat.lt_one_iff.1 hl
        decide!)
      (by
        intro i l hi hl
        obtain rfl := Nat.lt_one_iff.1 hi
        obtain rfl := Nat.lt_one_iff.1 hl
        decide!)
      (by
        intro i hi
        obtain rfl := Nat.lt_one_iff.1 hi
        decide!)
      (by decide!) (by decide!)
      (by
        intro i hi
        obtain rfl := Nat.lt_one_iff.1 hi
        decide!)⟩

end AffineCall

/-! ## The criterion for recalculating the Jacobian -/

section Refresh

variable {σ : Type}

/-- Lines 294-300: `ncfail` at the end of a pass. -/
theorem passEnd_ncfail (P : Prims) (F : FunctorType σ) (c : Config) (st : State σ) :
    (passEnd P F c st).ncfail = if lowRatio P F c st = true then st.ncfail + 1 else 0 := by
  have hr : (passEnd P F c st).ratio = (reductions P c (evalTrial F (direction P st))).ratio := by
    unfold passEnd afterTrial
    simp
  have hn : (passEnd P F c st).ncfail =
      (updateStepBound (reductions P c (evalTrial F (direction P st)))).ncfail := by
    unfold passEnd afterTrial
    simp
  unfold lowRatio
  rw [hn, hr]
  unfold updateStepBound
  by_cases h : (reductions P c (evalTrial F (direction P st))).ratio < 1 / 10
  · have hd : decide ((reductions P c (evalTrial F (direction P st))).ratio < 1 / 10) = true :=
      decide_eq_true h
    rw [if_pos h, if_pos hd]
    simp
  · have hd : ¬ decide ((reductions P c (evalTrial F (direction P st))).ratio < 1 / 10) = true := by
      simpa using h
    rw [if_neg h, if_neg hd]

/-- The counter `ncfail` and the Jacobian evaluations along the passes of the loops: at the head
of a pass `ncfail` counts the most recent consecutive passes with `ratio < 0.1`, and the pass
directly follows a Jacobian evaluation exactly when that count was 2 at the end of the pass
before it. -/
theorem refresh_trace (P : Prims) (F : FunctorType σ) (c : Config) (fuel : Nat)
    (st : State σ) (h0 : st.ncfail = 0) :
    ∀ pre s post, passes P F (jacobianAnalytic F) c fuel true st = pre ++ s :: post →
      s.ncfail = (trailing (lowRatio P F c) pre : Int) ∧
      ∀ pre2 s2, pre = pre2 ++ [s2] →
        (s.jeval = true ↔ trailing (lowRatio P F c) pre = 2) ∧
        s.njev = s2.njev + (if trailing (lowRatio P F c) pre = 2 then 1 else 0) := by
  have key := trace_induct P F (jacobianAnalytic F) c
    (fun o h t => t.ncfail = (trailing (lowRatio P F c) h : Int) ∧
      ∀ pre2 s2, h = pre2 ++ [s2] →
        if o = true then trailing (lowRatio P F c) h = 2 ∧ t.njev = s2.njev
        else (t.jeval = true ↔ trailing (lowRatio P F c) h = 2) ∧
          t.njev = s2.njev + (if trailing (lowRatio P F c) h = 2 then 1 else 0))
    (fun _ _ => True)
    (fun _ _ _ _ => trivial)
    (by
      rintro h t ⟨a, b⟩ _
      refine ⟨by simpa using a, ?_⟩
      intro pre2 s2 e
      have := b pre2 s2 e
      simp only [if_true] at this
      simp only [Bool.false_eq_true, if_false, factorize_frame, factorize_frame2,
        jacobianAnalytic_frame, jacobianAnalytic_frame2]
      rw [this.1, this.2]
      simp)
    (by
      rintro h t ⟨a, _⟩
      have n1 : (passEnd P F c t).ncfail = (trailing (lowRatio P F c) (h ++ [t]) : Int) := by
        rw [passEnd_ncfail, trailing_append]
        split
        · rw [a]
          push_cast
          rfl
        · rfl
      have nj : (passEnd P F c t).njev = t.njev := by
        unfold passEnd
        simp
      apply innerBody_match
      · intro _
        trivial
      · intro _ _ _
        trivial
      · intro _ _ h2
        refine ⟨n1, ?_⟩
        intro pre2 s2 e
        obtain ⟨_, rfl⟩ := List.append_inj_right' e rfl
        simp only [if_true]
        refine ⟨?_, nj⟩
        rw [n1] at h2
        exact_mod_cast h2
      · intro _ _ h2
        refine ⟨by simpa using n1, ?_⟩
        intro pre2 s2 e
        have e2 := List.append_inj_right' e rfl
        simp only [List.cons.injEq, and_true] at e2
        subst e2
        have hne : ¬ trailing (lowRatio P F c) (h ++ [t]) = 2 := by
          intro h3
          apply h2
          rw [n1, h3]
          rfl
        simp only [Bool.false_eq_true, if_false, broydenUpdate_frame, broydenUpdate_frame2,
          if_neg hne, add_zero]
        exact ⟨by simp [hne], nj⟩)
    fuel true [] st
    ⟨by rw [h0]; rfl, fun pre2 s2 e => by simp at e⟩
  intro pre s post e
  have := (key.1 pre s post e)
  simpa using this

end Refresh

section RefreshCall

variable {σ : Type}

/-- C21. The Jacobian evaluation and the factorization leave `ncfail` alone, so over a whole call
`ncfail` counts the most recent consecutive inner iterations with `ratio < 0.1`, across the
re-evaluations. An inner iteration that does not terminate the call leaves the inner loop for a
re-evaluation of the Jacobian exactly when it is the second of such a run (`ncfail = 2`), and
otherwise proceeds to the rank one update; so the next inner iteration directly follows a Jacobian
evaluation (`jeval` set, `njev` incremented) exactly in that case, and after a third or later
consecutive failing step (`ncfail >= 3`) it does not: `jeval` is clear and `njev` unchanged, until
a step with `ratio >= 0.1` has reset the count to 0. -/
theorem jacobian_refresh_at_second_failure (P : Prims) (F : FunctorType σ) (J : Junk)
    (fuel : Nat) (W : Workspace) (user : σ) (x diag : Vec) (mode maxfev : Int)
    (factor xtol : ℚ) :
    (∀ (c : Config) (st : State σ),
      (factorize P c (jacobianAnalytic F st)).ncfail = st.ncfail) ∧
    (∀ pre s post, solvePasses P F J fuel W user x diag mode maxfev factor xtol =
        pre ++ s :: post →
      s.ncfail = (trailing (lowRatio P F
        { n := x.length, mode := mode, maxfev := maxfev, factor := factor, xtol := xtol })
        pre : Int) ∧
      (passEnd P F
        { n := x.length, mode := mode, maxfev := maxfev, factor := factor, xtol := xtol }
        s).ncfail = (trailing (lowRatio P F
        { n := x.length, mode := mode, maxfev := maxfev, factor := factor, xtol := xtol })
        (pre ++ [s]) : Int) ∧
      (¬ (evalTrial F (direction P s)).iflag < 0 →
        terminationTest P
          { n := x.length, mode := mode, maxfev := maxfev, factor := factor, xtol := xtol }
          (passEnd P F
            { n := x.length, mode := mode, maxfev := maxfev, factor := factor, xtol := xtol }
            s) = none →
        innerBody P F
          { n := x.length, mode := mode, maxfev := maxfev, factor := factor, xtol := xtol } s =
          if trailing (lowRatio P F
            { n := x.length, mode := mode, maxfev := maxfev, factor := factor, xtol := xtol })
            (pre ++ [s]) = 2
          then .brk (passEnd P F
            { n := x.length, mode := mode, maxfev := maxfev, factor := factor, xtol := xtol } s)
          else .cont (broydenUpdate P
            { n := x.length, mode := mode, maxfev := maxfev, factor := factor, xtol := xtol }
            (passEnd P F
              { n := x.length, mode := mode, maxfev := maxfev, factor := factor, xtol := xtol }
              s)))) ∧
    (∀ pre s t post, solvePasses P F J fuel W user x diag mode maxfev factor xtol =
        pre ++ s :: t :: post →
      (t.jeval = true ↔ trailing (lowRatio P F
        { n := x.length, mode := mode, maxfev := maxfev, factor := factor, xtol := xtol })
        (pre ++ [s]) = 2) ∧
      t.njev = s.njev + (if trailing (lowRatio P F
        { n := x.length, mode := mode, maxfev := maxfev, factor := factor, xtol := xtol })
        (pre ++ [s]) = 2 then 1 else 0) ∧
      (3 ≤ trailing (lowRatio P F
        { n := x.length, mode := mode, maxfev := maxfev, factor := factor, xtol := xtol })
        (pre ++ [s]) → t.jeval = false ∧ t.njev = s.njev)) := by
  have rt := refresh_trace P F
    { n := x.length, mode := mode, maxfev := maxfev, factor := factor, xtol := xtol } fuel
    (initCounters P (evalStart F (initState J W user x diag))) rfl
  refine ⟨fun c st => by simp, ?_, ?_⟩
  · intro pre s post e
    rcases solvePasses_cases P F J fuel W user x diag mode maxfev factor xtol with e0 | ⟨_, _, e0⟩
    · rw [e0] at e
      simp at e
    · rw [e0] at e
      obtain ⟨a, _⟩ := rt pre s post e
      have n1 : (passEnd P F
          { n := x.length, mode := mode, maxfev := maxfev, factor := factor, xtol := xtol }
          s).ncfail = (trailing (lowRatio P F
          { n := x.length, mode := mode, maxfev := maxfev, factor := factor, xtol := xtol })
          (pre ++ [s]) : Int) := by
        rw [passEnd_ncfail, trailing_append]
        split
        · rw [a]
          push_cast
          rfl
        · rfl
      refine ⟨a, n1, ?_⟩
      intro hf ht
      rw [innerBody_of_flag P F _ s hf, ht]
      simp only []
      by_cases h2 : trailing (lowRatio P F
          { n := x.length, mode := mode, maxfev := maxfev, factor := factor, xtol := xtol })
          (pre ++ [s]) = 2
      · rw [if_pos h2, if_pos (by rw [n1, h2]; rfl)]
      · rw [if_neg h2, if_neg (by
          rw [n1]
          intro h3
          exact h2 (by exact_mod_cast h3))]
  · intro pre s t post e
    rcases solvePasses_cases P F J fuel W user x diag mode maxfev factor xtol with e0 | ⟨_, _, e0⟩
    · rw [e0] at e
      simp at e
    · rw [e0] at e
      have e2 : passes P F (jacobianAnalytic F)
          { n := x.length, mode := mode, maxfev := maxfev, factor := factor, xtol := xtol } fuel
          true (initCounters P (evalStart F (initState J W user x diag))) =
          (pre ++ [s]) ++ t :: post := by
        rw [e]
        simp
      obtain ⟨_, b⟩ := rt (pre ++ [s]) t post e2
      obtain ⟨b1, b2⟩ := b pre s rfl
      refine ⟨b1, b2, ?_⟩
      intro h3
      have hne : ¬ trailing (lowRatio P F
          { n := x.length, mode := mode, maxfev := maxfev, factor := factor, xtol := xtol })
          (pre ++ [s]) = 2 := by omega
      rw [if_neg hne, add_zero] at b2
      refine ⟨?_, b2⟩
      cases hj : t.jeval with
      | false => rfl
      | true => exact absurd (b1.1 hj) hne

/-- C21 on a run: `F(x) = x^2 + 1` from `x0 = 1`. The inner iterations 2 to 11 all have
`ratio < 0.1`, `ncfail` runs from 1 to 10, and the Jacobian is re-evaluated once, before the
fourth inner iteration, after `ncfail = 2`. -/
theorem jacobian_refresh_at_second_failure_witness :
    (solvePasses prims1 noZeroFunctor junk0 30 emptyWorkspace () [1] [1] 1 30 100 0).map
        (fun s => (passEnd prims1 noZeroFunctor exampleConfig s).ncfail) =
      [0, 1, 2, 3, 4, 5, 6, 7, 8, 9, 10] ∧
    (solvePasses prims1 noZeroFunctor junk0 30 emptyWorkspace () [1] [1] 1 30 100 0).map
        (fun s => (s.jeval, s.njev)) =
      [(true, 1), (false, 1), (false, 1), (true, 2), (false, 2), (false, 2), (false, 2),
        (false, 2), (false, 2), (false, 2), (false, 2)] ∧
    ∀ pre s t post, solvePasses prims1 noZeroFunctor junk0 30 emptyWorkspace () [1] [1] 1 30 100
        0 = pre ++ s :: t :: post →
      (t.jeval = true ↔ trailing (lowRatio prims1 noZeroFunctor
        { n := [(1 : ℚ)].length, mode := 1, maxfev := 30, factor := 100, xtol := 0 })
        (pre ++ [s]) = 2) ∧
      t.njev = s.njev + (if trailing (lowRatio prims1 noZeroFunctor
        { n := [(1 : ℚ)].length, mode := 1, maxfev := 30, factor := 100, xtol := 0 })
        (pre ++ [s]) = 2 then 1 else 0) ∧
      (3 ≤ trailing (lowRatio prims1 noZeroFunctor
        { n := [(1 : ℚ)].length, mode := 1, maxfev := 30, factor := 100, xtol := 0 })
        (pre ++ [s]) → t.jeval = false ∧ t.njev = s.njev) :=
  ⟨by decide!, by decide!,
   (jacobian_refresh_at_second_failure prims1 noZeroFunctor junk0 30 emptyWorkspace () [1] [1] 1
      30 100 0).2.2⟩

end RefreshCall

end HybridNonLinearSolver
